import Mathlib

/-!
Verification of the two file-management pipelines of this repository:
pipeline A (`deduplicate_keep_newest_in_place.py`) and pipeline B
(`move_unique_from_older.py`).  The filesystem is modelled as a finite
association list from paths (component lists) to entries; file content stands
in for its SHA-256 digest, since digest collisions are treated as impossible.
Python path semantics that the scripts rely on are modelled explicitly:
`Path.exists`, `Path.is_file`, `Path.is_dir` and `os.stat` follow symbolic
links, `Path.is_symlink` does not, `shutil.move` renames over an existing
non-directory destination and moves into an existing directory destination,
`mkdir` with parents and exist_ok creates the missing ancestor chain and
fails on a non-directory ancestor.
-/

/-- A filesystem path, as its list of components (absolute; the filesystem
root `[]` itself is never an entry). -/
abbrev FPath := List String

/-- A filesystem entry: a regular file with its content (standing in for its
content digest) and modification time, a symbolic link with its target path,
or a directory. -/
inductive Entry where
  | file (content : String) (mtime : ℚ)
  | symlink (target : FPath)
  | dir
deriving DecidableEq

instance : Inhabited Entry := ⟨.dir⟩

/-- A filesystem: a finite association list from paths to entries. -/
abbrev Fs := List (FPath × Entry)

def keysOf (fs : Fs) : List FPath := fs.map Prod.fst

def lookupE (fs : Fs) (p : FPath) : Option Entry :=
  (fs.find? (fun kv => kv.1 == p)).map Prod.snd

def eraseKey (fs : Fs) (p : FPath) : Fs := fs.filter (fun kv => !(kv.1 == p))

def insertE (fs : Fs) (p : FPath) (e : Entry) : Fs := (p, e) :: eraseKey fs p

/-- Follow a chain of symbolic links (the final component only), with fuel;
models non-strict `Path.resolve` for the cases the scripts exercise. -/
def chaseLink (fs : Fs) : Nat → FPath → FPath
  | 0, p => p
  | fuel+1, p =>
    match lookupE fs p with
    | some (.symlink t) => chaseLink fs fuel t
    | _ => p

def resolveP (fs : Fs) (p : FPath) : FPath := chaseLink fs (fs.length + 1) p

/-- `os.stat` semantics: the entry a path finally denotes, following symlinks. -/
def statE (fs : Fs) (p : FPath) : Option Entry := lookupE fs (resolveP fs p)

/-- `Path.exists`: follows symlinks, false for a dangling link. -/
def pathExists (fs : Fs) (p : FPath) : Bool := (statE fs p).isSome

/-- `Path.is_file`: follows symlinks, so it is true for a link to a file. -/
def isFileF (fs : Fs) (p : FPath) : Bool :=
  match statE fs p with | some (.file _ _) => true | _ => false

/-- `Path.is_dir`: follows symlinks. -/
def isDirF (fs : Fs) (p : FPath) : Bool :=
  match statE fs p with | some .dir => true | _ => false

/-- `Path.is_symlink`: does not follow the link. -/
def isSymlinkE (fs : Fs) (p : FPath) : Bool :=
  match lookupE fs p with | some (.symlink _) => true | _ => false

def strictUnder (root p : FPath) : Bool :=
  root.isPrefixOf p && decide (root.length < p.length)

/-- Every path strictly between `root` and `p` is a directory entry: traversal
reaches `p` only through real directories (symlinked directories are not
descended into by default, matching `os.walk` and `rglob` as used here). -/
def ancestorsAreDirs (fs : Fs) (root p : FPath) : Bool :=
  (List.range p.length).all fun n =>
    decide (n ≤ root.length) ||
      (match lookupE fs (p.take n) with | some .dir => true | _ => false)

/-- All entries reachable below `root` (`Path.rglob` / `iter_paths`). -/
def walkAll (fs : Fs) (root : FPath) : List FPath :=
  (keysOf fs).filter fun p => strictUnder root p && ancestorsAreDirs fs root p

/-- Auxiliary recursion for `mkdirChain`: create the missing prefixes of `p`
up to length `n`, shallowest first; stop with failure on an existing
non-directory component, keeping the directories already created. -/
def mkdirChainAux (fs : Fs) (p : FPath) : Nat → Fs × Bool
  | 0 => (fs, true)
  | n+1 =>
    match mkdirChainAux fs p n with
    | (f, false) => (f, false)
    | (f, true) =>
      match lookupE f (p.take (n+1)) with
      | none => (insertE f (p.take (n+1)) .dir, true)
      | some _ => if isDirF f (p.take (n+1)) then (f, true) else (f, false)

/-- `Path.mkdir` with parents and exist_ok: create every missing ancestor of
`p` and `p` itself as directories.  The flag is false when a component exists
as a non-directory, modelling the raised exception; the ancestors created up
to that point persist, as with `os.makedirs`. -/
def mkdirChain (fs : Fs) (p : FPath) : Fs × Bool := mkdirChainAux fs p p.length

/-- `os.rename` semantics: the entry moves as a whole (content, mtime or link
target preserved), silently replacing a non-directory destination. -/
def renameOnto (fs : Fs) (src dst : FPath) : Fs :=
  match lookupE fs src with
  | none => fs
  | some e => insertE (eraseKey fs src) dst e

/-- `shutil.move`: into an existing directory destination the source is moved
under its base name, raising (`none`) if that occupied; otherwise a plain
rename.  A symlink source moves as the link object itself. -/
def shutilMove (fs : Fs) (src dst : FPath) : Option Fs :=
  if isDirF fs dst then
    let rd := dst ++ [src.getLastD ""]
    if pathExists fs rd then none else some (renameOnto fs src rd)
  else some (renameOnto fs src dst)

/-- One guarded relocation: create the destination's parent chain, then move;
any exception is caught and leaves the state as it stands (created directories
persist), matching the per-item try blocks in both scripts. -/
def tryMove (fs : Fs) (src dst : FPath) : Fs :=
  match mkdirChain fs dst.dropLast with
  | (f1, false) => f1
  | (f1, true) =>
    match shutilMove f1 src dst with
    | none => f1
    | some f2 => f2

/-- `any(p.iterdir())`: the directory has at least one immediate child. -/
def hasChild (fs : Fs) (p : FPath) : Bool :=
  fs.any fun kv => decide (kv.1.length = p.length + 1) && p.isPrefixOf kv.1

/-- The directories `os.walk(root)` yields strictly below `root`. -/
def dirKeysUnder (fs : Fs) (root : FPath) : List FPath :=
  (keysOf fs).filter fun p =>
    strictUnder root p && ancestorsAreDirs fs root p &&
      (match lookupE fs p with | some .dir => true | _ => false)

def maxLen (ps : List FPath) : Nat := ps.foldl (fun m p => max m p.length) 0

def byDepthAux (ps : List FPath) : Nat → List FPath
  | 0 => []
  | n+1 => ps.filter (fun p => p.length == n + 1) ++ byDepthAux ps n

/-- Bottom-up ordering (`os.walk` with topdown false): children before
parents, realised by decreasing path length. -/
def byDepthDesc (ps : List FPath) : List FPath := byDepthAux ps (maxLen ps)

/-- Index of the last dot of a name (`str.rfind`). -/
def lastDotIdx (cs : List Char) : Option Nat :=
  ((List.range cs.length).filter fun i => cs.getD i ' ' == '.').getLast?

/-- `Path.stem` and `Path.suffix`: split at the last dot when it is neither
the first nor the last character of the name. -/
def splitStemSuffix (name : String) : String × String :=
  let cs := name.toList
  match lastDotIdx cs with
  | some i =>
    if 0 < i && i < cs.length - 1 then (String.mk (cs.take i), String.mk (cs.drop i))
    else (name, "")
  | none => (name, "")

/-- The disambiguated file name, a numeric suffix before the extension. -/
def candName (stem suffix : String) (n : Nat) : String :=
  stem ++ " (" ++ toString n ++ ")" ++ suffix

/-! ## Pipeline B: `move_unique_from_older.py` -/

namespace MoveUnique

/-- `unique_destination_path`: return the destination itself when free,
otherwise the first disambiguated candidate `stem (n)suffix` with the
smallest n starting at 1.  The scan is bounded by the (sufficient, see
`unique_destination_path_spec`) number of entries. -/
def unique_destination_path (fs : Fs) (destPath : FPath) : FPath :=
  if !(pathExists fs destPath) then destPath
  else
    let sp := splitStemSuffix (destPath.getLastD "")
    let parent := destPath.dropLast
    match ((List.range (fs.length + 1)).map (fun i => i + 1)).find?
        (fun n => !(pathExists fs (parent ++ [candName sp.1 sp.2 n]))) with
    | some n => parent ++ [candName sp.1 sp.2 n]
    | none => parent ++ [candName sp.1 sp.2 (fs.length + 2)]

/-- `is_subpath`: resolve both paths and test the parent relation (a path is
a subpath of itself, as `relative_to` succeeds on equal paths). -/
def is_subpath (fs : Fs) (p potentialParent : FPath) : Bool :=
  (resolveP fs potentialParent).isPrefixOf (resolveP fs p)

/-- `build_hash_set`: walk the main tree, skip symlinks, hash every regular
file and accumulate the set of digests. -/
def build_hash_set (fs : Fs) (mainRoot : FPath) : List String :=
  (walkAll fs mainRoot).foldl
    (fun hs p =>
      match lookupE fs p with
      | some (.symlink _) => hs
      | some (.file c _) => if c ∈ hs then hs else hs ++ [c]
      | _ => hs)
    []

/-- `plan_moves`: walk the older tree; every symlink is scheduled into the
symlink destination, every regular file whose digest is absent from the main
set is scheduled into the regular destination, both at their path relative to
the older root, disambiguated against the filesystem as it stands at planning
time. -/
def plan_moves (mainHashes : List String) (fs : Fs)
    (olderRoot destRoot symlinksDest : FPath) :
    List (FPath × FPath) × List (FPath × FPath) :=
  (walkAll fs olderRoot).foldl
    (fun acc p =>
      match lookupE fs p with
      | some (.symlink _) =>
        let rel := p.drop olderRoot.length
        (acc.1, acc.2 ++ [(p, unique_destination_path fs (symlinksDest ++ rel))])
      | some (.file c _) =>
        if c ∈ mainHashes then acc
        else
          let rel := p.drop olderRoot.length
          (acc.1 ++ [(p, unique_destination_path fs (destRoot ++ rel))], acc.2)
      | _ => acc)
    ([], [])

/-- `remove_empty_dirs`: bottom-up over the directories below the older root
(the root itself is skipped; nothing else is protected), remove each directory
that has no entries at evaluation time. -/
def remove_empty_dirs (fs : Fs) (olderRoot : FPath) : Fs × List FPath :=
  (byDepthDesc (dirKeysUnder fs olderRoot)).foldl
    (fun st p => if hasChild st.1 p then st else (eraseKey st.1 p, st.2 ++ [p]))
    (fs, [])

/-- The command-line configuration of pipeline B. -/
structure Config where
  mainRoot : FPath
  olderRoot : FPath
  destRoot : FPath
  symlinksDest : FPath
  apply : Bool
  keepEmptyDirs : Bool
deriving DecidableEq

/-- Outcome of a pipeline B run: `configError` is the validation failure path
(exit code 2), `crash` an uncaught exception, `ok` carries the final
filesystem, both planned move lists and the removed directories. -/
inductive Result where
  | configError (fs : Fs)
  | crash (fs : Fs)
  | ok (fs : Fs) (movesRegular movesSymlinks : List (FPath × FPath))
      (removedDirs : List FPath)
deriving DecidableEq

/-- The filesystem state carried by a pipeline B outcome. -/
def Result.fsOf : Result → Fs
  | .configError fs => fs
  | .crash fs => fs
  | .ok fs _ _ _ => fs

/-- `main` of `move_unique_from_older.py`: validate the two roots, create the
two destination roots, check root identity and destination nesting, build the
hash set, plan, and in apply mode execute the moves and reclaim empty
directories. -/
def main (fs : Fs) (cfg : Config) : Result :=
  if !(pathExists fs cfg.mainRoot && isDirF fs cfg.mainRoot) then .configError fs
  else if !(pathExists fs cfg.olderRoot && isDirF fs cfg.olderRoot) then .configError fs
  else
    match mkdirChain fs cfg.destRoot with
    | (fsA, false) => .crash fsA
    | (fsA, true) =>
      match mkdirChain fsA cfg.symlinksDest with
      | (fsB, false) => .crash fsB
      | (fsB, true) =>
        if resolveP fsB cfg.mainRoot == resolveP fsB cfg.olderRoot then
          .configError fsB
        else if is_subpath fsB cfg.destRoot cfg.mainRoot
            || is_subpath fsB cfg.symlinksDest cfg.mainRoot then
          .configError fsB
        else
          let hashes := build_hash_set fsB cfg.mainRoot
          let plan := plan_moves hashes fsB cfg.olderRoot cfg.destRoot cfg.symlinksDest
          if !cfg.apply then .ok fsB plan.1 plan.2 []
          else
            let fsC := plan.1.foldl (fun f sd => tryMove f sd.1 sd.2) fsB
            let fsD := plan.2.foldl (fun f sd => tryMove f sd.1 sd.2) fsC
            if cfg.keepEmptyDirs then .ok fsD plan.1 plan.2 []
            else
              let pr := remove_empty_dirs fsD cfg.olderRoot
              .ok pr.1 plan.1 plan.2 pr.2

end MoveUnique

/-! ## Pipeline A: `deduplicate_keep_newest_in_place.py` -/

namespace Dedup

/-- `unique_destination`: the first free path `base_dir/filename`, or
`base_dir/stem (i)suffix` for the smallest i starting at 1. -/
def unique_destination (fs : Fs) (base_dir : FPath) (filename : String) : FPath :=
  if !(pathExists fs (base_dir ++ [filename])) then base_dir ++ [filename]
  else
    let sp := splitStemSuffix filename
    match ((List.range (fs.length + 1)).map (fun i => i + 1)).find?
        (fun i => !(pathExists fs (base_dir ++ [candName sp.1 sp.2 i]))) with
    | some i => base_dir ++ [candName sp.1 sp.2 i]
    | none => base_dir ++ [candName sp.1 sp.2 (fs.length + 2)]

/-- `remove_empty_dirs` of pipeline A: bottom-up below `root`, skipping the
root itself and every directory in `keep` (compared after resolution), remove
each directory with no entries at evaluation time. -/
def remove_empty_dirs (fs : Fs) (root : FPath) (keep : List FPath) : Fs × List FPath :=
  (byDepthDesc (dirKeysUnder fs root)).foldl
    (fun st p =>
      if keep.any (fun k => resolveP st.1 p == resolveP st.1 k) then st
      else if hasChild st.1 p then st
      else (eraseKey st.1 p, st.2 ++ [p]))
    (fs, [])

/-- The file collection of pipeline A's walk: `os.walk` without following
symlinked directories, pruning the quarantine directory from descent, keeping
every yielded name for which `Path.is_file()` holds — which follows symlinks,
so a symlink to a regular file is kept. -/
def collect_files (fs : Fs) (mainDir dup : FPath) : List FPath :=
  (keysOf fs).filter fun p =>
    strictUnder mainDir p && !(dup.isPrefixOf p) &&
      ancestorsAreDirs fs mainDir p && isFileF fs p

/-- `sha256_of_file`: open (following symlinks) and hash the content; `none`
models the raised exception when the path does not denote a regular file. -/
def sha256_of_file (fs : Fs) (p : FPath) : Option String :=
  match statE fs p with
  | some (.file c _) => some c
  | _ => none

/-- Append a path to its digest's group, preserving first-seen group order
(Python dict insertion order via `setdefault`). -/
def addGroup : List (String × List FPath) → String → FPath → List (String × List FPath)
  | [], c, p => [(c, [p])]
  | (c', ps) :: rest, c, p =>
    if c' == c then (c', ps ++ [p]) :: rest
    else (c', ps) :: addGroup rest c p

/-- The `by_hash` grouping loop: hash each collected file, skipping files
that cannot be hashed. -/
def group_by_hash (fs : Fs) (files : List FPath) : List (String × List FPath) :=
  files.foldl
    (fun acc p =>
      match sha256_of_file fs p with
      | none => acc
      | some c => addGroup acc c p)
    []

/-- The `mtime` helper: a stat failure yields the sentinel -1.0.  The stat
outcome is abstracted as an oracle so that transient read failures at
selection time are representable. -/
def mtime (st : FPath → Option ℚ) (p : FPath) : ℚ :=
  match st p with
  | some m => m
  | none => -1

/-- `max(paths, key=mtime)`: first element attaining the maximum. -/
def firstArgmax (f : FPath → ℚ) (x : FPath) (xs : List FPath) : FPath :=
  xs.foldl (fun best y => if f best < f y then y else best) x

/-- `str(p)` for an absolute path. -/
def pathStr (p : FPath) : String := p.foldl (fun s c => s ++ "/" ++ c) ""

/-- The sort key of the tie-break: path string length, then the string. -/
def pathKey (p : FPath) : Nat × String := ((pathStr p).length, pathStr p)

/-- Strict comparison of tie-break keys (tuple comparison in Python). -/
def keyLt (a b : Nat × String) : Bool :=
  decide (a.1 < b.1) || (a.1 == b.1 && decide (a.2 < b.2))

/-- `sorted(ties, key=...)[0]`: first element with the minimal key. -/
def minByKey (x : FPath) (xs : List FPath) : FPath :=
  xs.foldl (fun best y => if keyLt (pathKey y) (pathKey best) then y else best) x

/-- Python's `abs` on rationals, written so that it evaluates. -/
def qabs (x : ℚ) : ℚ := if x < 0 then -x else x

/-- Subtraction of rationals, written with `Rat.divInt` so that it evaluates
inside the kernel (`Rat.sub` is irreducible); it equals ordinary subtraction,
see `qsub_eq_sub`. -/
def qsub (a b : ℚ) : ℚ := Rat.divInt (a.num * b.den - b.num * a.den) (a.den * b.den)

/-- The tie-break epsilon of the survivor selection, 1e-6 seconds, written
with `Rat.divInt` so that it evaluates inside the kernel. -/
def eps : ℚ := Rat.divInt 1 1000000

/-- Survivor selection of pipeline A (`newest`): the first member attaining
the maximal mtime; when at least two members lie within `eps` of that
maximum, the tied member with the minimal (length, string) path key. -/
def select_survivor (st : FPath → Option ℚ) : List FPath → Option FPath
  | [] => none
  | p :: ps =>
    let newest0 := firstArgmax (mtime st) p ps
    let maxM := mtime st newest0
    let ties := (p :: ps).filter (fun q => decide (qabs (qsub (mtime st q) maxM) < eps))
    if ties.length > 1 then
      match ties with
      | [] => none
      | t :: ts => some (minByKey t ts)
    else some newest0

/-- State threaded through the group-processing loop of pipeline A's `main`:
the live filesystem (parent directories are created during planning in apply
mode), the accumulated relocation actions and kept survivors, and whether an
uncaught exception has aborted the run. -/
structure PlanSt where
  fs : Fs
  actions : List (FPath × FPath)
  kept : List FPath
  crashed : Bool

/-- `p.resolve().relative_to(main_dir)`: `none` models the raised
`ValueError` when the resolved path is not below the main root. -/
def relResolved (fs : Fs) (mainDir p : FPath) : Option FPath :=
  let rp := resolveP fs p
  if mainDir.isPrefixOf rp then some (rp.drop mainDir.length) else none

/-- Process one digest group: keep singletons; otherwise select the survivor
and schedule every other member into the quarantine at its relative path,
creating destination parents (in apply mode) and disambiguating an occupied
destination against the live filesystem. -/
def processGroup (mainDir dup : FPath) (dryRun : Bool)
    (st : PlanSt) (g : String × List FPath) : PlanSt :=
  if st.crashed then st else
  match g.2 with
  | [] => st
  | [p] => { st with kept := st.kept ++ [p] }
  | p :: ps =>
    match select_survivor (fun q => match statE st.fs q with
        | some (.file _ m) => some m | _ => none) (p :: ps) with
    | none => st
    | some newest =>
      let st1 := { st with kept := st.kept ++ [newest] }
      (p :: ps).foldl
        (fun s q =>
          if s.crashed then s else
          if q == newest then s else
          match relResolved s.fs mainDir q with
          | none => { s with crashed := true }
          | some rel =>
            let dstParent := (dup ++ rel).dropLast
            match (if dryRun then (s.fs, true) else mkdirChain s.fs dstParent) with
            | (f1, false) => { s with fs := f1, crashed := true }
            | (f1, true) =>
              let dst0 := dup ++ rel
              let dstF := if pathExists f1 dst0 then
                  unique_destination f1 dstParent (q.getLastD "") else dst0
              { s with fs := f1, actions := s.actions ++ [(q, dstF)] })
        st1

/-- Outcome of a pipeline A run: `rootError` is the missing/non-directory
root failure (exit code 1), `crash` an uncaught exception, `ok` carries the
final filesystem, the relocation actions, the kept files and the removed
directories. -/
inductive Result where
  | rootError (fs : Fs)
  | crash (fs : Fs)
  | ok (fs : Fs) (actions : List (FPath × FPath)) (kept : List FPath)
      (removedDirs : List FPath)
deriving DecidableEq

/-- The filesystem state carried by a pipeline A outcome. -/
def Result.fsOf : Result → Fs
  | .rootError fs => fs
  | .crash fs => fs
  | .ok fs _ _ _ => fs

/-- `main` of `deduplicate_keep_newest_in_place.py` at its default
symlink-following setting: resolve and validate the root, create the
quarantine directory (apply mode), collect and hash files, process the digest
groups, execute the scheduled moves, and remove empty directories keeping the
quarantine. -/
def main (fs : Fs) (rootArg : FPath) (dryRun : Bool) : Result :=
  let mainDir := resolveP fs rootArg
  if !(pathExists fs mainDir && isDirF fs mainDir) then .rootError fs
  else
    let dup := mainDir ++ ["Duplikáty"]
    match (if dryRun then some fs else
        match lookupE fs dup with
        | none => some (insertE fs dup .dir)
        | some _ => if isDirF fs dup then some fs else none) with
    | none => .crash fs
    | some fs1 =>
      let files := collect_files fs1 mainDir dup
      let groups := group_by_hash fs1 files
      let st := groups.foldl (processGroup mainDir dup dryRun)
        { fs := fs1, actions := [], kept := [], crashed := false }
      if st.crashed then .crash st.fs
      else
        let fs2 := if dryRun then st.fs
          else st.actions.foldl (fun f a => tryMove f a.1 a.2) st.fs
        if dryRun then .ok fs2 st.actions st.kept []
        else
          let pr := remove_empty_dirs fs2 mainDir [dup]
          .ok pr.1 st.actions st.kept pr.2

end Dedup

/-! ## Basic lemmas about the filesystem model -/

theorem lookupE_nil (q : FPath) : lookupE ([] : Fs) q = none := rfl

theorem lookupE_cons (kv : FPath × Entry) (t : Fs) (q : FPath) :
    lookupE (kv :: t) q = if kv.1 = q then some kv.2 else lookupE t q := by
  by_cases h : kv.1 = q
  · rw [if_pos h]
    simp only [lookupE]
    rw [List.find?_cons_of_pos _ (by simp [h])]
    rfl
  · rw [if_neg h]
    simp only [lookupE]
    rw [List.find?_cons_of_neg _ (by simp [h])]

theorem eraseKey_nil (p : FPath) : eraseKey ([] : Fs) p = [] := rfl

theorem eraseKey_cons (kv : FPath × Entry) (t : Fs) (p : FPath) :
    eraseKey (kv :: t) p = if kv.1 = p then eraseKey t p else kv :: eraseKey t p := by
  by_cases h : kv.1 = p <;> simp [eraseKey, List.filter_cons, h]

theorem lookupE_isSome_iff_mem {fs : Fs} {p : FPath} :
    (lookupE fs p).isSome = true ↔ p ∈ keysOf fs := by
  induction fs with
  | nil => simp [lookupE_nil, keysOf]
  | cons kv t ih =>
    rw [lookupE_cons]
    by_cases h : kv.1 = p
    · rw [if_pos h]
      simp only [Option.isSome_some, true_iff, keysOf, List.map_cons, List.mem_cons]
      exact Or.inl h.symm
    · rw [if_neg h]
      simp only [keysOf, List.map_cons, List.mem_cons] at ih ⊢
      rw [ih]
      constructor
      · exact Or.inr
      · rintro (rfl | hm)
        · exact absurd rfl h
        · exact hm

theorem lookupE_eq_none_iff {fs : Fs} {p : FPath} :
    lookupE fs p = none ↔ p ∉ keysOf fs := by
  rw [← lookupE_isSome_iff_mem]
  cases lookupE fs p <;> simp

theorem lookupE_eraseKey (fs : Fs) (p q : FPath) :
    lookupE (eraseKey fs p) q = if q = p then none else lookupE fs q := by
  induction fs with
  | nil => simp [eraseKey_nil, lookupE_nil]
  | cons kv t ih =>
    rw [eraseKey_cons]
    by_cases h : kv.1 = p
    · rw [if_pos h]
      by_cases hq : q = p
      · rw [ih, if_pos hq, if_pos hq]
      · have hkq : ¬kv.1 = q := fun hk => hq (hk ▸ h)
        rw [ih, if_neg hq, if_neg hq, lookupE_cons, if_neg hkq]
    · rw [if_neg h, lookupE_cons, ih, lookupE_cons]
      by_cases hkq : kv.1 = q
      · have hq : ¬q = p := fun hqp => h (hkq.trans hqp)
        rw [if_pos hkq, if_neg hq, if_pos hkq]
      · rw [if_neg hkq, if_neg hkq]

theorem lookupE_insertE (fs : Fs) (p : FPath) (e : Entry) (q : FPath) :
    lookupE (insertE fs p e) q = if q = p then some e else lookupE fs q := by
  rw [insertE, lookupE_cons, lookupE_eraseKey]
  by_cases h : q = p
  · rw [if_pos h.symm, if_pos h]
  · rw [if_neg (fun hpq : (p, e).1 = q => h hpq.symm), if_neg h, if_neg h]

/-! ## Survivor selection: supporting lemmas -/

namespace Dedup

theorem firstArgmax_cons (f : FPath → ℚ) (x y : FPath) (ys : List FPath) :
    firstArgmax f x (y :: ys) = firstArgmax f (if f x < f y then y else x) ys := by
  simp [firstArgmax]

theorem firstArgmax_mem (f : FPath → ℚ) (x : FPath) (xs : List FPath) :
    firstArgmax f x xs ∈ x :: xs := by
  induction xs generalizing x with
  | nil => simp [firstArgmax]
  | cons y ys ih =>
    rw [firstArgmax_cons]
    by_cases hc : f x < f y
    · rw [if_pos hc]
      rcases List.mem_cons.mp (ih y) with h1 | h2
      · rw [h1]; exact List.mem_cons_of_mem _ (List.mem_cons_self _ _)
      · exact List.mem_cons_of_mem _ (List.mem_cons_of_mem _ h2)
    · rw [if_neg hc]
      rcases List.mem_cons.mp (ih x) with h1 | h2
      · rw [h1]; exact List.mem_cons_self _ _
      · exact List.mem_cons_of_mem _ (List.mem_cons_of_mem _ h2)

theorem firstArgmax_le (f : FPath → ℚ) (x : FPath) (xs : List FPath) :
    ∀ q ∈ x :: xs, f q ≤ f (firstArgmax f x xs) := by
  induction xs generalizing x with
  | nil =>
    intro q hq
    rcases List.mem_singleton.mp hq with rfl
    simp [firstArgmax]
  | cons y ys ih =>
    intro q hq
    rw [firstArgmax_cons]
    have hx : f x ≤ f (firstArgmax f (if f x < f y then y else x) ys) := by
      by_cases hc : f x < f y
      · rw [if_pos hc]
        exact le_trans (le_of_lt hc) (ih y y (List.mem_cons_self _ _))
      · rw [if_neg hc]
        exact ih x x (List.mem_cons_self _ _)
    have hy : f y ≤ f (firstArgmax f (if f x < f y then y else x) ys) := by
      by_cases hc : f x < f y
      · rw [if_pos hc]
        exact ih y y (List.mem_cons_self _ _)
      · rw [if_neg hc]
        exact le_trans (le_of_not_lt hc) (ih x x (List.mem_cons_self _ _))
    rcases List.mem_cons.mp hq with rfl | hq2
    · exact hx
    · rcases List.mem_cons.mp hq2 with rfl | hq3
      · exact hy
      · by_cases hc : f x < f y
        · rw [if_pos hc]; exact ih y q (List.mem_cons_of_mem _ hq3)
        · rw [if_neg hc]; exact ih x q (List.mem_cons_of_mem _ hq3)

theorem keyLt_iff_lex (a b : Nat × String) :
    keyLt a b = true ↔ toLex a < toLex b := by
  rw [Prod.Lex.lt_iff]
  simp [keyLt]

theorem keyLt_eq_false_iff (a b : Nat × String) :
    keyLt a b = false ↔ ¬toLex a < toLex b := by
  rw [← keyLt_iff_lex]
  cases keyLt a b <;> simp

theorem minByKey_cons (x y : FPath) (ys : List FPath) :
    minByKey x (y :: ys)
      = minByKey (if keyLt (pathKey y) (pathKey x) then y else x) ys := by
  simp [minByKey]

theorem minByKey_mem (x : FPath) (xs : List FPath) : minByKey x xs ∈ x :: xs := by
  induction xs generalizing x with
  | nil => simp [minByKey]
  | cons y ys ih =>
    rw [minByKey_cons]
    by_cases hc : keyLt (pathKey y) (pathKey x) = true
    · rw [if_pos hc]
      rcases List.mem_cons.mp (ih y) with h1 | h2
      · rw [h1]; exact List.mem_cons_of_mem _ (List.mem_cons_self _ _)
      · exact List.mem_cons_of_mem _ (List.mem_cons_of_mem _ h2)
    · rw [if_neg hc]
      rcases List.mem_cons.mp (ih x) with h1 | h2
      · rw [h1]; exact List.mem_cons_self _ _
      · exact List.mem_cons_of_mem _ (List.mem_cons_of_mem _ h2)

theorem minByKey_le_head (x : FPath) (xs : List FPath) :
    toLex (pathKey (minByKey x xs)) ≤ toLex (pathKey x) := by
  induction xs generalizing x with
  | nil => simp [minByKey]
  | cons y ys ih =>
    rw [minByKey_cons]
    by_cases hc : keyLt (pathKey y) (pathKey x) = true
    · rw [if_pos hc]
      exact le_trans (ih y) (le_of_lt ((keyLt_iff_lex _ _).mp hc))
    · rw [if_neg hc]
      exact ih x

theorem minByKey_min (x : FPath) (xs : List FPath) :
    ∀ q ∈ x :: xs, keyLt (pathKey q) (pathKey (minByKey x xs)) = false := by
  induction xs generalizing x with
  | nil =>
    intro q hq
    rcases List.mem_singleton.mp hq with rfl
    rw [keyLt_eq_false_iff]
    simp [minByKey]
  | cons y ys ih =>
    intro q hq
    rw [minByKey_cons]
    set z := if keyLt (pathKey y) (pathKey x) then y else x with hz
    have hzx : toLex (pathKey z) ≤ toLex (pathKey x) := by
      by_cases hc : keyLt (pathKey y) (pathKey x) = true
      · rw [hz, if_pos hc]; exact le_of_lt ((keyLt_iff_lex _ _).mp hc)
      · rw [hz, if_neg hc]
    have hzy : toLex (pathKey z) ≤ toLex (pathKey y) := by
      by_cases hc : keyLt (pathKey y) (pathKey x) = true
      · rw [hz, if_pos hc]
      · rw [hz, if_neg hc]
        exact le_of_not_lt (fun hl => hc ((keyLt_iff_lex _ _).mpr hl))
    have hmz : toLex (pathKey (minByKey z ys)) ≤ toLex (pathKey z) := minByKey_le_head z ys
    rw [keyLt_eq_false_iff]
    rcases List.mem_cons.mp hq with rfl | hq2
    · exact not_lt_of_ge (le_trans hmz hzx)
    · rcases List.mem_cons.mp hq2 with rfl | hq3
      · exact not_lt_of_ge (le_trans hmz hzy)
      · have := ih z q (List.mem_cons_of_mem _ hq3)
        rw [keyLt_eq_false_iff] at this
        exact this

end Dedup

namespace Dedup

/-- The tie set of the survivor selection: members within `eps` of the
maximal mtime. -/
def tiesOf (st : FPath → Option ℚ) (p : FPath) (ps : List FPath) : List FPath :=
  (p :: ps).filter
    (fun q =>
      decide (qabs (qsub (mtime st q) (mtime st (firstArgmax (mtime st) p ps))) < eps))

theorem qsub_eq_sub (a b : ℚ) : qsub a b = a - b := by
  rw [qsub]
  conv_rhs => rw [← Rat.num_divInt_den a, ← Rat.num_divInt_den b]
  rw [Rat.divInt_sub_divInt _ _ (by exact_mod_cast a.den_nz) (by exact_mod_cast b.den_nz)]

theorem eps_eq : eps = 1 / 1000000 := by
  rw [eps, Rat.divInt_eq_div]; norm_num

theorem qabs_eq_abs (x : ℚ) : qabs x = |x| := by
  rw [qabs]
  by_cases h : x < 0
  · rw [if_pos h, abs_of_neg h]
  · rw [if_neg h, abs_of_nonneg (le_of_not_lt h)]

theorem select_survivor_eq (st : FPath → Option ℚ) (p : FPath) (ps : List FPath) :
    select_survivor st (p :: ps) =
      if (tiesOf st p ps).length > 1 then
        match tiesOf st p ps with
        | [] => none
        | t :: ts => some (minByKey t ts)
      else some (firstArgmax (mtime st) p ps) := rfl

end Dedup

/-- C5: in pipeline A, for every duplicate group the survivor is the member
with the maximum modification timestamp; when two or more members lie within
1e-6 seconds of that maximum, the survivor is the tied member with the
minimal (path string length, path string) key, i.e. the shortest and then
lexicographically smallest path — so selection is a total deterministic
function of the group. -/
theorem C5_survivor_determinism (st : FPath → Option ℚ) (p : FPath) (ps : List FPath) :
    ∃ s, Dedup.select_survivor st (p :: ps) = some s ∧ s ∈ p :: ps ∧
      (∀ q ∈ p :: ps,
        Dedup.mtime st q ≤ Dedup.mtime st (Dedup.firstArgmax (Dedup.mtime st) p ps)) ∧
      ((Dedup.tiesOf st p ps).length ≤ 1 →
        Dedup.mtime st s = Dedup.mtime st (Dedup.firstArgmax (Dedup.mtime st) p ps)) ∧
      (1 < (Dedup.tiesOf st p ps).length →
        s ∈ Dedup.tiesOf st p ps ∧
        ∀ q ∈ Dedup.tiesOf st p ps,
          Dedup.keyLt (Dedup.pathKey q) (Dedup.pathKey s) = false) := by
  rw [Dedup.select_survivor_eq]
  by_cases hT : (Dedup.tiesOf st p ps).length > 1
  · rw [if_pos hT]
    cases hTe : Dedup.tiesOf st p ps with
    | nil => rw [hTe] at hT; simp at hT
    | cons t ts =>
      refine ⟨Dedup.minByKey t ts, rfl, ?_, ?_, ?_, ?_⟩
      · have hmem : Dedup.minByKey t ts ∈ Dedup.tiesOf st p ps := by
          rw [hTe]; exact Dedup.minByKey_mem t ts
        exact (List.mem_filter.mp hmem).1
      · exact Dedup.firstArgmax_le _ p ps
      · intro hle; rw [hTe] at hT; omega
      · intro _
        exact ⟨Dedup.minByKey_mem t ts, fun q hq => Dedup.minByKey_min t ts q hq⟩
  · rw [if_neg hT]
    refine ⟨Dedup.firstArgmax (Dedup.mtime st) p ps, rfl, Dedup.firstArgmax_mem _ p ps,
      Dedup.firstArgmax_le _ p ps, fun _ => rfl, fun hgt => absurd hgt hT⟩

/-- Witness for C5, realising the spec's example: mtimes 10, 10, 11 with the
third file newest — the third file survives. -/
theorem C5_witness :
    (∃ s, Dedup.select_survivor
        (fun q => if q = ["r", "a"] then some 10 else
          if q = ["r", "b"] then some 10 else
          if q = ["r", "c"] then some 11 else none)
        [["r", "a"], ["r", "b"], ["r", "c"]] = some s ∧
      s ∈ [["r", "a"], ["r", "b"], ["r", "c"]] ∧
      (∀ q ∈ [["r", "a"], ["r", "b"], ["r", "c"]],
        Dedup.mtime (fun q => if q = ["r", "a"] then some 10 else
          if q = ["r", "b"] then some 10 else
          if q = ["r", "c"] then some 11 else none) q ≤
        Dedup.mtime (fun q => if q = ["r", "a"] then some 10 else
          if q = ["r", "b"] then some 10 else
          if q = ["r", "c"] then some 11 else none)
          (Dedup.firstArgmax (Dedup.mtime (fun q => if q = ["r", "a"] then some 10 else
            if q = ["r", "b"] then some 10 else
            if q = ["r", "c"] then some 11 else none)) ["r", "a"] [["r", "b"], ["r", "c"]])) ∧
      ((Dedup.tiesOf (fun q => if q = ["r", "a"] then some 10 else
          if q = ["r", "b"] then some 10 else
          if q = ["r", "c"] then some 11 else none) ["r", "a"] [["r", "b"], ["r", "c"]]).length ≤ 1 →
        Dedup.mtime (fun q => if q = ["r", "a"] then some 10 else
          if q = ["r", "b"] then some 10 else
          if q = ["r", "c"] then some 11 else none) s =
        Dedup.mtime (fun q => if q = ["r", "a"] then some 10 else
          if q = ["r", "b"] then some 10 else
          if q = ["r", "c"] then some 11 else none)
          (Dedup.firstArgmax (Dedup.mtime (fun q => if q = ["r", "a"] then some 10 else
            if q = ["r", "b"] then some 10 else
            if q = ["r", "c"] then some 11 else none)) ["r", "a"] [["r", "b"], ["r", "c"]])) ∧
      (1 < (Dedup.tiesOf (fun q => if q = ["r", "a"] then some 10 else
          if q = ["r", "b"] then some 10 else
          if q = ["r", "c"] then some 11 else none) ["r", "a"] [["r", "b"], ["r", "c"]]).length →
        s ∈ Dedup.tiesOf (fun q => if q = ["r", "a"] then some 10 else
          if q = ["r", "b"] then some 10 else
          if q = ["r", "c"] then some 11 else none) ["r", "a"] [["r", "b"], ["r", "c"]] ∧
        ∀ q ∈ Dedup.tiesOf (fun q => if q = ["r", "a"] then some 10 else
          if q = ["r", "b"] then some 10 else
          if q = ["r", "c"] then some 11 else none) ["r", "a"] [["r", "b"], ["r", "c"]],
          Dedup.keyLt (Dedup.pathKey q) (Dedup.pathKey s) = false)) ∧
    Dedup.select_survivor
      (fun q => if q = ["r", "a"] then some 10 else
        if q = ["r", "b"] then some 10 else
        if q = ["r", "c"] then some 11 else none)
      [["r", "a"], ["r", "b"], ["r", "c"]] = some ["r", "c"] :=
  ⟨C5_survivor_determinism _ ["r", "a"] [["r", "b"], ["r", "c"]], by decide⟩

/-- C10: in pipeline A, a stat failure while reading a group member's
modification time yields the sentinel -1.0 instead of aborting the selection,
and whenever some member of the group has a readable non-negative timestamp,
the selected survivor is a member whose timestamp was readable. -/
theorem C10_unreadable_timestamp_never_survives (st : FPath → Option ℚ)
    (x : FPath) (xs : List FPath)
    (h : ∃ p ∈ x :: xs, ∃ m, st p = some m ∧ 0 ≤ m) :
    ∃ s, Dedup.select_survivor st (x :: xs) = some s ∧ (st s).isSome = true := by
  obtain ⟨p, hp, m, hm, hm0⟩ := h
  have hmt : Dedup.mtime st p = m := by rw [Dedup.mtime, hm]
  have hM : (0 : ℚ) ≤ Dedup.mtime st (Dedup.firstArgmax (Dedup.mtime st) x xs) :=
    le_trans (hmt ▸ hm0) (Dedup.firstArgmax_le _ x xs p hp)
  have hsome : ∀ q : FPath, (-1 : ℚ) < Dedup.mtime st q → (st q).isSome = true := by
    intro q hq
    cases hq2 : st q with
    | some _ => rfl
    | none =>
      rw [Dedup.mtime, hq2] at hq
      exact absurd hq (lt_irrefl _)
  rw [Dedup.select_survivor_eq]
  by_cases hT : (Dedup.tiesOf st x xs).length > 1
  · rw [if_pos hT]
    cases hTe : Dedup.tiesOf st x xs with
    | nil => rw [hTe] at hT; simp at hT
    | cons t ts =>
      refine ⟨Dedup.minByKey t ts, rfl, ?_⟩
      have hmem : Dedup.minByKey t ts ∈ Dedup.tiesOf st x xs := by
        rw [hTe]; exact Dedup.minByKey_mem t ts
      have hfil := (List.mem_filter.mp hmem).2
      have habs : Dedup.qabs (Dedup.qsub (Dedup.mtime st (Dedup.minByKey t ts))
          (Dedup.mtime st (Dedup.firstArgmax (Dedup.mtime st) x xs))) < Dedup.eps :=
        of_decide_eq_true hfil
      rw [Dedup.qabs_eq_abs, Dedup.qsub_eq_sub, Dedup.eps_eq] at habs
      have hlt := (abs_lt.mp habs).1
      refine hsome _ ?_
      have heps : (1 : ℚ) / 1000000 < 1 := by norm_num
      linarith
  · rw [if_neg hT]
    refine ⟨Dedup.firstArgmax (Dedup.mtime st) x xs, rfl, hsome _ ?_⟩
    linarith

/-- Witness for C10: a group of two files, the first with an unreadable
timestamp, the second readable at time 5; the readable one survives. -/
theorem C10_witness :
    (∃ s, Dedup.select_survivor
        (fun q => if q = ["r", "ok"] then some 5 else none)
        [["r", "bad"], ["r", "ok"]] = some s ∧
      ((fun q : FPath => if q = ["r", "ok"] then some (5 : ℚ) else none) s).isSome = true) ∧
    Dedup.select_survivor (fun q => if q = ["r", "ok"] then some 5 else none)
      [["r", "bad"], ["r", "ok"]] = some ["r", "ok"] :=
  ⟨C10_unreadable_timestamp_never_survives _ ["r", "bad"] [["r", "ok"]]
    ⟨["r", "ok"], by decide, 5, by decide, by norm_num⟩, by decide⟩

/-! ## Planning lemmas for pipeline B -/

namespace MoveUnique

/-- The per-entry step of `plan_moves`. -/
def planStep (mainHashes : List String) (fs : Fs)
    (olderRoot destRoot symlinksDest : FPath)
    (acc : List (FPath × FPath) × List (FPath × FPath)) (p : FPath) :
    List (FPath × FPath) × List (FPath × FPath) :=
  match lookupE fs p with
  | some (.symlink _) =>
    let rel := p.drop olderRoot.length
    (acc.1, acc.2 ++ [(p, unique_destination_path fs (symlinksDest ++ rel))])
  | some (.file c _) =>
    if c ∈ mainHashes then acc
    else
      let rel := p.drop olderRoot.length
      (acc.1 ++ [(p, unique_destination_path fs (destRoot ++ rel))], acc.2)
  | _ => acc

theorem plan_moves_eq_foldl (mainHashes : List String) (fs : Fs)
    (olderRoot destRoot symlinksDest : FPath) :
    plan_moves mainHashes fs olderRoot destRoot symlinksDest =
      (walkAll fs olderRoot).foldl
        (planStep mainHashes fs olderRoot destRoot symlinksDest) ([], []) := rfl

theorem planStep_shape (mainHashes : List String) (fs : Fs)
    (olderRoot destRoot symlinksDest : FPath)
    (acc : List (FPath × FPath) × List (FPath × FPath)) (p : FPath) :
    planStep mainHashes fs olderRoot destRoot symlinksDest acc p =
      (acc.1 ++ (planStep mainHashes fs olderRoot destRoot symlinksDest ([], []) p).1,
       acc.2 ++ (planStep mainHashes fs olderRoot destRoot symlinksDest ([], []) p).2) := by
  rw [planStep, planStep]
  cases he : lookupE fs p with
  | none => simp
  | some e =>
    cases e with
    | symlink t => simp
    | dir => simp
    | file c m =>
      by_cases hc : c ∈ mainHashes
      · simp [hc]
      · simp [hc]

theorem plan_foldl_decompose (mainHashes : List String) (fs : Fs)
    (olderRoot destRoot symlinksDest : FPath) (l : List FPath)
    (acc : List (FPath × FPath) × List (FPath × FPath)) :
    List.foldl (planStep mainHashes fs olderRoot destRoot symlinksDest) acc l =
      (acc.1 ++ (List.foldl (planStep mainHashes fs olderRoot destRoot symlinksDest)
          ([], []) l).1,
       acc.2 ++ (List.foldl (planStep mainHashes fs olderRoot destRoot symlinksDest)
          ([], []) l).2) := by
  induction l generalizing acc with
  | nil => simp
  | cons p l ih =>
    rw [List.foldl_cons, List.foldl_cons, ih, planStep_shape]
    rw [ih (planStep mainHashes fs olderRoot destRoot symlinksDest ([], []) p)]
    simp

theorem plan_mem_regular (mainHashes : List String) (fs : Fs)
    (olderRoot destRoot symlinksDest : FPath) (l : List FPath) (q d : FPath)
    (h : (q, d) ∈ (List.foldl (planStep mainHashes fs olderRoot destRoot symlinksDest)
      ([], []) l).1) :
    q ∈ l ∧ ∃ c m, lookupE fs q = some (.file c m) ∧ c ∉ mainHashes ∧
      d = unique_destination_path fs (destRoot ++ q.drop olderRoot.length) := by
  induction l with
  | nil => simp at h
  | cons p l ih =>
    rw [List.foldl_cons, plan_foldl_decompose] at h
    simp only [List.mem_append] at h
    rcases h with h | h
    · rw [planStep] at h
      cases he : lookupE fs p with
      | none => rw [he] at h; simp at h
      | some e =>
        cases e with
        | symlink t => rw [he] at h; simp at h
        | dir => rw [he] at h; simp at h
        | file c m =>
          rw [he] at h
          dsimp only at h
          by_cases hc : c ∈ mainHashes
          · rw [if_pos hc] at h; simp at h
          · rw [if_neg hc] at h
            simp only [List.mem_singleton, List.nil_append, Prod.mk.injEq] at h
            obtain ⟨rfl, rfl⟩ := h
            exact ⟨List.mem_cons_self _ _, c, m, he, hc, rfl⟩
    · obtain ⟨hq, rest⟩ := ih h
      exact ⟨List.mem_cons_of_mem _ hq, rest⟩

theorem plan_mem_symlink (mainHashes : List String) (fs : Fs)
    (olderRoot destRoot symlinksDest : FPath) (l : List FPath) (q d : FPath)
    (h : (q, d) ∈ (List.foldl (planStep mainHashes fs olderRoot destRoot symlinksDest)
      ([], []) l).2) :
    q ∈ l ∧ ∃ t, lookupE fs q = some (.symlink t) ∧
      d = unique_destination_path fs (symlinksDest ++ q.drop olderRoot.length) := by
  induction l with
  | nil => simp at h
  | cons p l ih =>
    rw [List.foldl_cons, plan_foldl_decompose] at h
    simp only [List.mem_append] at h
    rcases h with h | h
    · rw [planStep] at h
      cases he : lookupE fs p with
      | none => rw [he] at h; simp at h
      | some e =>
        cases e with
        | symlink t =>
          rw [he] at h
          simp only [List.mem_singleton, List.nil_append, Prod.mk.injEq] at h
          obtain ⟨rfl, rfl⟩ := h
          exact ⟨List.mem_cons_self _ _, t, he, rfl⟩
        | dir => rw [he] at h; simp at h
        | file c m =>
          rw [he] at h
          dsimp only at h
          by_cases hc : c ∈ mainHashes
          · rw [if_pos hc] at h; simp at h
          · rw [if_neg hc] at h; simp at h
    · obtain ⟨hq, rest⟩ := ih h
      exact ⟨List.mem_cons_of_mem _ hq, rest⟩

theorem plan_complete_regular (mainHashes : List String) (fs : Fs)
    (olderRoot destRoot symlinksDest : FPath) (l : List FPath) (p : FPath)
    (c : String) (m : ℚ) (hp : p ∈ l) (he : lookupE fs p = some (.file c m))
    (hc : c ∉ mainHashes) :
    (p, unique_destination_path fs (destRoot ++ p.drop olderRoot.length)) ∈
      (List.foldl (planStep mainHashes fs olderRoot destRoot symlinksDest) ([], []) l).1 := by
  induction l with
  | nil => simp at hp
  | cons q l ih =>
    rw [List.foldl_cons, plan_foldl_decompose]
    simp only [List.mem_append]
    rcases List.mem_cons.mp hp with rfl | hp2
    · left
      rw [planStep, he]
      dsimp only
      rw [if_neg hc]
      simp
    · right; exact ih hp2

theorem plan_complete_symlink (mainHashes : List String) (fs : Fs)
    (olderRoot destRoot symlinksDest : FPath) (l : List FPath) (p : FPath)
    (t : FPath) (hp : p ∈ l) (he : lookupE fs p = some (.symlink t)) :
    (p, unique_destination_path fs (symlinksDest ++ p.drop olderRoot.length)) ∈
      (List.foldl (planStep mainHashes fs olderRoot destRoot symlinksDest) ([], []) l).2 := by
  induction l with
  | nil => simp at hp
  | cons q l ih =>
    rw [List.foldl_cons, plan_foldl_decompose]
    simp only [List.mem_append]
    rcases List.mem_cons.mp hp with rfl | hp2
    · left
      rw [planStep, he]
      simp
    · right; exact ih hp2

/-- Membership in the hash set of the main tree is exactly having the content
of some walked regular file. -/
theorem build_hash_set_iff (fs : Fs) (mainRoot : FPath) (c : String) :
    c ∈ build_hash_set fs mainRoot ↔
      ∃ q ∈ walkAll fs mainRoot, ∃ m, lookupE fs q = some (.file c m) := by
  rw [build_hash_set]
  have general : ∀ (l : List FPath) (acc : List String),
      c ∈ l.foldl (fun hs p =>
        match lookupE fs p with
        | some (.symlink _) => hs
        | some (.file c' _) => if c' ∈ hs then hs else hs ++ [c']
        | _ => hs) acc ↔
      c ∈ acc ∨ ∃ q ∈ l, ∃ m, lookupE fs q = some (.file c m) := by
    intro l
    induction l with
    | nil => simp
    | cons p l ih =>
      intro acc
      rw [List.foldl_cons]
      cases he : lookupE fs p with
      | none =>
        rw [ih]
        constructor
        · rintro (h | h)
          · exact Or.inl h
          · exact Or.inr (by
              obtain ⟨q, hq, m, hm⟩ := h
              exact ⟨q, List.mem_cons_of_mem _ hq, m, hm⟩)
        · rintro (h | ⟨q, hq, m, hm⟩)
          · exact Or.inl h
          · rcases List.mem_cons.mp hq with rfl | hq2
            · rw [he] at hm; cases hm
            · exact Or.inr ⟨q, hq2, m, hm⟩
      | some e =>
        cases e with
        | symlink t =>
          rw [ih]
          constructor
          · rintro (h | ⟨q, hq, m, hm⟩)
            · exact Or.inl h
            · exact Or.inr ⟨q, List.mem_cons_of_mem _ hq, m, hm⟩
          · rintro (h | ⟨q, hq, m, hm⟩)
            · exact Or.inl h
            · rcases List.mem_cons.mp hq with rfl | hq2
              · rw [he] at hm; cases hm
              · exact Or.inr ⟨q, hq2, m, hm⟩
        | dir =>
          rw [ih]
          constructor
          · rintro (h | ⟨q, hq, m, hm⟩)
            · exact Or.inl h
            · exact Or.inr ⟨q, List.mem_cons_of_mem _ hq, m, hm⟩
          · rintro (h | ⟨q, hq, m, hm⟩)
            · exact Or.inl h
            · rcases List.mem_cons.mp hq with rfl | hq2
              · rw [he] at hm; cases hm
              · exact Or.inr ⟨q, hq2, m, hm⟩
        | file c' m' =>
          rw [ih]
          have hacc : c ∈ (if c' ∈ acc then acc else acc ++ [c']) ↔ c ∈ acc ∨ c = c' := by
            by_cases hmem : c' ∈ acc
            · rw [if_pos hmem]
              constructor
              · exact Or.inl
              · rintro (h | rfl)
                · exact h
                · exact hmem
            · rw [if_neg hmem]
              simp [List.mem_append]
          rw [hacc]
          constructor
          · rintro ((h | rfl) | ⟨q, hq, m, hm⟩)
            · exact Or.inl h
            · exact Or.inr ⟨p, List.mem_cons_self _ _, m', he⟩
            · exact Or.inr ⟨q, List.mem_cons_of_mem _ hq, m, hm⟩
          · rintro (h | ⟨q, hq, m, hm⟩)
            · exact Or.inl (Or.inl h)
            · rcases List.mem_cons.mp hq with rfl | hq2
              · rw [he] at hm
                cases hm with
                | refl => exact Or.inl (Or.inr rfl)
              · exact Or.inr ⟨q, hq2, m, hm⟩
  rw [general]
  simp

/-- When the base destination is free it is returned unchanged. -/
theorem unique_destination_path_of_free (fs : Fs) (destPath : FPath)
    (h : pathExists fs destPath = false) :
    unique_destination_path fs destPath = destPath := by
  rw [unique_destination_path, if_pos (by rw [h]; rfl)]

end MoveUnique

/-! ## Frame lemmas for directory creation and moves -/

theorem mkdirChainAux_frame (fs : Fs) (p : FPath) (n : Nat) (q : FPath) :
    lookupE (mkdirChainAux fs p n).1 q = lookupE fs q ∨
      (lookupE (mkdirChainAux fs p n).1 q = some .dir ∧ lookupE fs q = none) := by
  induction n with
  | zero => exact Or.inl rfl
  | succ n ih =>
    rw [mkdirChainAux]
    cases hrec : mkdirChainAux fs p n with
    | mk f flag =>
      rw [hrec] at ih
      cases flag with
      | false => exact ih
      | true =>
        dsimp only
        cases hl : lookupE f (p.take (n+1)) with
        | none =>
          dsimp only
          rw [lookupE_insertE]
          by_cases hq : q = p.take (n+1)
          · subst hq
            rw [if_pos rfl]
            right
            refine ⟨rfl, ?_⟩
            rcases ih with h | ⟨h1, h2⟩
            · rw [← h, hl]
            · exact h2
          · rw [if_neg hq]
            exact ih
        | some e =>
          by_cases hd : isDirF f (p.take (n+1)) = true
          · rw [if_pos hd]
            exact ih
          · rw [if_neg hd]
            exact ih

theorem mkdirChain_frame (fs : Fs) (p : FPath) (q : FPath) :
    lookupE (mkdirChain fs p).1 q = lookupE fs q ∨
      (lookupE (mkdirChain fs p).1 q = some .dir ∧ lookupE fs q = none) :=
  mkdirChainAux_frame fs p p.length q

theorem lookupE_renameOnto (fs : Fs) (src dst : FPath) (e : Entry)
    (hsrc : lookupE fs src = some e) (q : FPath) :
    lookupE (renameOnto fs src dst) q =
      if q = dst then some e else if q = src then none else lookupE fs q := by
  rw [renameOnto, hsrc, lookupE_insertE, lookupE_eraseKey]

/-- The guarded relocation of an entry: the entry survives somewhere (at its
destination, inside the destination directory, or untouched at the source when
the move failed), and every other change is the removal of the source or a
created directory. -/
theorem tryMove_frame (fs : Fs) (src dst : FPath) (e : Entry)
    (hsrc : lookupE fs src = some e) :
    (∃ rd, lookupE (tryMove fs src dst) rd = some e) ∧
    ∀ q, lookupE (tryMove fs src dst) q ≠ lookupE fs q →
      q = src ∨ lookupE (tryMove fs src dst) q = some e ∨
        lookupE (tryMove fs src dst) q = some .dir := by
  rw [tryMove]
  rcases hmk : mkdirChain fs dst.dropLast with ⟨f1, flag⟩
  have frame1 : ∀ r, lookupE f1 r = lookupE fs r ∨
      (lookupE f1 r = some .dir ∧ lookupE fs r = none) := by
    intro r
    have := mkdirChain_frame fs dst.dropLast r
    rw [hmk] at this
    exact this
  have hsrc1 : lookupE f1 src = some e := by
    rcases frame1 src with h | ⟨h1, h2⟩
    · rw [h, hsrc]
    · rw [hsrc] at h2; cases h2
  cases flag with
  | false =>
    dsimp only
    refine ⟨⟨src, hsrc1⟩, ?_⟩
    intro q hq
    rcases frame1 q with h | ⟨h1, _⟩
    · exact absurd h hq
    · exact Or.inr (Or.inr h1)
  | true =>
    dsimp only
    rw [shutilMove]
    by_cases hdir : isDirF f1 dst = true
    · rw [if_pos hdir]
      by_cases hex : pathExists f1 (dst ++ [src.getLastD ""]) = true
      · rw [if_pos hex]
        dsimp only
        refine ⟨⟨src, hsrc1⟩, ?_⟩
        intro q hq
        rcases frame1 q with h | ⟨h1, _⟩
        · exact absurd h hq
        · exact Or.inr (Or.inr h1)
      · rw [if_neg hex]
        dsimp only
        refine ⟨⟨dst ++ [src.getLastD ""], ?_⟩, ?_⟩
        · rw [lookupE_renameOnto f1 src _ e hsrc1, if_pos rfl]
        · intro q hq
          rw [lookupE_renameOnto f1 src _ e hsrc1]
          rw [lookupE_renameOnto f1 src _ e hsrc1] at hq
          by_cases h1 : q = dst ++ [src.getLastD ""]
          · rw [if_pos h1]; exact Or.inr (Or.inl rfl)
          · rw [if_neg h1] at hq ⊢
            by_cases h2 : q = src
            · exact Or.inl h2
            · rw [if_neg h2] at hq ⊢
              rcases frame1 q with h | ⟨hdirq, _⟩
              · exact absurd h hq
              · exact Or.inr (Or.inr hdirq)
    · rw [if_neg hdir]
      dsimp only
      refine ⟨⟨dst, ?_⟩, ?_⟩
      · rw [lookupE_renameOnto f1 src _ e hsrc1, if_pos rfl]
      · intro q hq
        rw [lookupE_renameOnto f1 src _ e hsrc1]
        rw [lookupE_renameOnto f1 src _ e hsrc1] at hq
        by_cases h1 : q = dst
        · rw [if_pos h1]; exact Or.inr (Or.inl rfl)
        · rw [if_neg h1] at hq ⊢
          by_cases h2 : q = src
          · exact Or.inl h2
          · rw [if_neg h2] at hq ⊢
            rcases frame1 q with h | ⟨hdirq, _⟩
            · exact absurd h hq
            · exact Or.inr (Or.inr hdirq)

/-! ## C4 and C7 -/

/-- C4: in pipeline B, a regular file of the older tree whose digest occurs
on some regular file of the current tree is never scheduled for relocation;
a regular file whose digest occurs nowhere in the current tree is scheduled
into the regular destination tree at its path relative to the older root
(which is preserved verbatim whenever that destination is free, and otherwise
disambiguated by the documented collision rule). -/
theorem C4_membership_correctness (fs : Fs)
    (mainRoot olderRoot destRoot symlinksDest : FPath)
    (p : FPath) (c : String) (m : ℚ)
    (hp : p ∈ walkAll fs olderRoot)
    (he : lookupE fs p = some (.file c m)) :
    ((∃ q ∈ walkAll fs mainRoot, ∃ m', lookupE fs q = some (.file c m')) →
      ∀ d, (p, d) ∉ (MoveUnique.plan_moves (MoveUnique.build_hash_set fs mainRoot) fs
        olderRoot destRoot symlinksDest).1) ∧
    ((¬∃ q ∈ walkAll fs mainRoot, ∃ m', lookupE fs q = some (.file c m')) →
      (p, MoveUnique.unique_destination_path fs (destRoot ++ p.drop olderRoot.length)) ∈
        (MoveUnique.plan_moves (MoveUnique.build_hash_set fs mainRoot) fs
          olderRoot destRoot symlinksDest).1 ∧
      (pathExists fs (destRoot ++ p.drop olderRoot.length) = false →
        MoveUnique.unique_destination_path fs (destRoot ++ p.drop olderRoot.length)
          = destRoot ++ p.drop olderRoot.length)) := by
  constructor
  · intro hin d hmem
    rw [MoveUnique.plan_moves_eq_foldl] at hmem
    obtain ⟨_, c', m', he', hc', _⟩ := MoveUnique.plan_mem_regular _ _ _ _ _ _ _ _ hmem
    rw [he] at he'
    cases he' with
    | refl => exact hc' ((MoveUnique.build_hash_set_iff fs mainRoot c).mpr hin)
  · intro hout
    have hc : c ∉ MoveUnique.build_hash_set fs mainRoot := by
      intro hmem
      exact hout ((MoveUnique.build_hash_set_iff fs mainRoot c).mp hmem)
    refine ⟨?_, MoveUnique.unique_destination_path_of_free fs _⟩
    rw [MoveUnique.plan_moves_eq_foldl]
    exact MoveUnique.plan_complete_regular _ _ _ _ _ _ _ c m hp he hc

/-- Witness for C4, realising the spec's scenario: the current tree has one
file of content A, the older tree one file of content A and one of content B;
only the B file is scheduled and its relative path is preserved. -/
theorem C4_witness :
    (((∃ q ∈ walkAll [(["m"], .dir), (["m", "f1"], .file "A" 1), (["o"], .dir),
          (["o", "g1"], .file "A" 2), (["o", "g2"], .file "B" 3)] ["m"],
        ∃ m', lookupE [(["m"], .dir), (["m", "f1"], .file "A" 1), (["o"], .dir),
          (["o", "g1"], .file "A" 2), (["o", "g2"], .file "B" 3)] q
            = some (.file "B" m')) →
      ∀ d, (["o", "g2"], d) ∉ (MoveUnique.plan_moves
        (MoveUnique.build_hash_set [(["m"], .dir), (["m", "f1"], .file "A" 1), (["o"], .dir),
          (["o", "g1"], .file "A" 2), (["o", "g2"], .file "B" 3)] ["m"])
        [(["m"], .dir), (["m", "f1"], .file "A" 1), (["o"], .dir),
          (["o", "g1"], .file "A" 2), (["o", "g2"], .file "B" 3)]
        ["o"] ["d"] ["s"]).1) ∧
    ((¬∃ q ∈ walkAll [(["m"], .dir), (["m", "f1"], .file "A" 1), (["o"], .dir),
          (["o", "g1"], .file "A" 2), (["o", "g2"], .file "B" 3)] ["m"],
        ∃ m', lookupE [(["m"], .dir), (["m", "f1"], .file "A" 1), (["o"], .dir),
          (["o", "g1"], .file "A" 2), (["o", "g2"], .file "B" 3)] q
            = some (.file "B" m')) →
      (["o", "g2"], MoveUnique.unique_destination_path
          [(["m"], .dir), (["m", "f1"], .file "A" 1), (["o"], .dir),
            (["o", "g1"], .file "A" 2), (["o", "g2"], .file "B" 3)]
          (["d"] ++ (["o", "g2"] : FPath).drop (["o"] : FPath).length)) ∈
        (MoveUnique.plan_moves
          (MoveUnique.build_hash_set [(["m"], .dir), (["m", "f1"], .file "A" 1), (["o"], .dir),
            (["o", "g1"], .file "A" 2), (["o", "g2"], .file "B" 3)] ["m"])
          [(["m"], .dir), (["m", "f1"], .file "A" 1), (["o"], .dir),
            (["o", "g1"], .file "A" 2), (["o", "g2"], .file "B" 3)]
          ["o"] ["d"] ["s"]).1 ∧
      (pathExists [(["m"], .dir), (["m", "f1"], .file "A" 1), (["o"], .dir),
          (["o", "g1"], .file "A" 2), (["o", "g2"], .file "B" 3)]
          (["d"] ++ (["o", "g2"] : FPath).drop (["o"] : FPath).length) = false →
        MoveUnique.unique_destination_path
          [(["m"], .dir), (["m", "f1"], .file "A" 1), (["o"], .dir),
            (["o", "g1"], .file "A" 2), (["o", "g2"], .file "B" 3)]
          (["d"] ++ (["o", "g2"] : FPath).drop (["o"] : FPath).length)
          = ["d"] ++ (["o", "g2"] : FPath).drop (["o"] : FPath).length))) ∧
    (MoveUnique.plan_moves
      (MoveUnique.build_hash_set [(["m"], .dir), (["m", "f1"], .file "A" 1), (["o"], .dir),
        (["o", "g1"], .file "A" 2), (["o", "g2"], .file "B" 3)] ["m"])
      [(["m"], .dir), (["m", "f1"], .file "A" 1), (["o"], .dir),
        (["o", "g1"], .file "A" 2), (["o", "g2"], .file "B" 3)]
      ["o"] ["d"] ["s"]).1 = [(["o", "g2"], ["d", "g2"])] :=
  ⟨C4_membership_correctness _ ["m"] ["o"] ["d"] ["s"] ["o", "g2"] "B" 3
    (by decide) (by decide), by decide⟩

/-- C7: in pipeline B, every symbolic link under the older tree is scheduled
for relocation into the symlink destination tree at its path relative to the
older root (preserved verbatim whenever that destination is free), regardless
of the main hash set; and the executed move relocates the link object itself:
the link, with its target unchanged, survives somewhere, and the only changes
an executed move makes are removing the link's source path, placing the link
object, and creating destination directories — the file the link points to is
never the thing moved. -/
theorem C7_symlink_universality (fs : Fs) (mainHashes : List String)
    (olderRoot destRoot symlinksDest : FPath) (p : FPath) (t : FPath)
    (hp : p ∈ walkAll fs olderRoot)
    (he : lookupE fs p = some (.symlink t)) :
    ((p, MoveUnique.unique_destination_path fs (symlinksDest ++ p.drop olderRoot.length)) ∈
        (MoveUnique.plan_moves mainHashes fs olderRoot destRoot symlinksDest).2 ∧
      (pathExists fs (symlinksDest ++ p.drop olderRoot.length) = false →
        MoveUnique.unique_destination_path fs (symlinksDest ++ p.drop olderRoot.length)
          = symlinksDest ++ p.drop olderRoot.length)) ∧
    (∀ dst, (∃ rd, lookupE (tryMove fs p dst) rd = some (.symlink t)) ∧
      ∀ q, lookupE (tryMove fs p dst) q ≠ lookupE fs q →
        q = p ∨ lookupE (tryMove fs p dst) q = some (.symlink t) ∨
        lookupE (tryMove fs p dst) q = some .dir) := by
  refine ⟨⟨?_, MoveUnique.unique_destination_path_of_free fs _⟩, ?_⟩
  · rw [MoveUnique.plan_moves_eq_foldl]
    exact MoveUnique.plan_complete_symlink _ _ _ _ _ _ _ t hp he
  · intro dst
    exact tryMove_frame fs p dst (.symlink t) he

/-- Witness for C7: an older tree holding one symlink (whose target content
even matches the current tree); the link is scheduled into the symlink
destination and an executed move relocates the link object. -/
theorem C7_witness :
    (((["o", "ln"],
        MoveUnique.unique_destination_path
          [(["m"], .dir), (["m", "f1"], .file "A" 1), (["o"], .dir),
            (["o", "ln"], .symlink ["m", "f1"])]
          (["s"] ++ (["o", "ln"] : FPath).drop (["o"] : FPath).length)) ∈
        (MoveUnique.plan_moves ["A"]
          [(["m"], .dir), (["m", "f1"], .file "A" 1), (["o"], .dir),
            (["o", "ln"], .symlink ["m", "f1"])]
          ["o"] ["d"] ["s"]).2 ∧
      (pathExists [(["m"], .dir), (["m", "f1"], .file "A" 1), (["o"], .dir),
          (["o", "ln"], .symlink ["m", "f1"])]
          (["s"] ++ (["o", "ln"] : FPath).drop (["o"] : FPath).length) = false →
        MoveUnique.unique_destination_path
          [(["m"], .dir), (["m", "f1"], .file "A" 1), (["o"], .dir),
            (["o", "ln"], .symlink ["m", "f1"])]
          (["s"] ++ (["o", "ln"] : FPath).drop (["o"] : FPath).length)
          = ["s"] ++ (["o", "ln"] : FPath).drop (["o"] : FPath).length)) ∧
    (∀ dst, (∃ rd, lookupE (tryMove
        [(["m"], .dir), (["m", "f1"], .file "A" 1), (["o"], .dir),
          (["o", "ln"], .symlink ["m", "f1"])] ["o", "ln"] dst) rd
          = some (.symlink ["m", "f1"])) ∧
      ∀ q, lookupE (tryMove
          [(["m"], .dir), (["m", "f1"], .file "A" 1), (["o"], .dir),
            (["o", "ln"], .symlink ["m", "f1"])] ["o", "ln"] dst) q ≠
        lookupE [(["m"], .dir), (["m", "f1"], .file "A" 1), (["o"], .dir),
          (["o", "ln"], .symlink ["m", "f1"])] q →
        q = ["o", "ln"] ∨
        lookupE (tryMove [(["m"], .dir), (["m", "f1"], .file "A" 1), (["o"], .dir),
          (["o", "ln"], .symlink ["m", "f1"])] ["o", "ln"] dst) q
            = some (.symlink ["m", "f1"]) ∨
        lookupE (tryMove [(["m"], .dir), (["m", "f1"], .file "A" 1), (["o"], .dir),
          (["o", "ln"], .symlink ["m", "f1"])] ["o", "ln"] dst) q = some .dir)) ∧
    (MoveUnique.plan_moves ["A"]
      [(["m"], .dir), (["m", "f1"], .file "A" 1), (["o"], .dir),
        (["o", "ln"], .symlink ["m", "f1"])]
      ["o"] ["d"] ["s"]).2 = [(["o", "ln"], ["s", "ln"])] :=
  ⟨C7_symlink_universality _ ["A"] ["o"] ["d"] ["s"] ["o", "ln"] ["m", "f1"]
    (by decide) (by decide), by decide⟩

/-! ## Projections used to state concrete run outcomes -/

namespace MoveUnique

/-- The removed-directories report of a pipeline B outcome. -/
def Result.removedOf : Result → List FPath
  | .ok _ _ _ r => r
  | _ => []

/-- The regular-file relocation plan of a pipeline B outcome. -/
def Result.regularOf : Result → List (FPath × FPath)
  | .ok _ mr _ _ => mr
  | _ => []

/-- The symlink relocation plan of a pipeline B outcome. -/
def Result.symlinksOf : Result → List (FPath × FPath)
  | .ok _ _ ms _ => ms
  | _ => []

/-- Whether a pipeline B run completed without configuration error or crash. -/
def Result.isOk : Result → Bool
  | .ok _ _ _ _ => true
  | _ => false

end MoveUnique

namespace Dedup

/-- The relocation actions of a pipeline A outcome. -/
def Result.actionsOf : Result → List (FPath × FPath)
  | .ok _ a _ _ => a
  | _ => []

/-- Whether a pipeline A run completed without root error or crash. -/
def Result.isOk : Result → Bool
  | .ok _ _ _ _ => true
  | _ => false

end Dedup

/-! ## Counterexamples -/

/-- C1 fails as stated: a pipeline B invocation without the apply flag (a
dry-run) on a valid configuration whose destination roots do not yet exist
creates them — `dest_root.mkdir` and `symlinks_dest.mkdir` run before the
dry-run check — so the run does not leave the filesystem exactly as it was. -/
theorem C1_counterexample :
    (MoveUnique.Config.mk ["m"] ["o"] ["d"] ["s"] false false).apply = false ∧
    lookupE [(["m"], .dir), (["m", "f1"], .file "A" 1),
      (["o"], .dir), (["o", "g1"], .file "B" 2)] ["d"] = none ∧
    lookupE (MoveUnique.main
      [(["m"], .dir), (["m", "f1"], .file "A" 1),
        (["o"], .dir), (["o", "g1"], .file "B" 2)]
      (MoveUnique.Config.mk ["m"] ["o"] ["d"] ["s"] false false)).fsOf ["d"]
        = some .dir ∧
    (MoveUnique.main
      [(["m"], .dir), (["m", "f1"], .file "A" 1),
        (["o"], .dir), (["o", "g1"], .file "B" 2)]
      (MoveUnique.Config.mk ["m"] ["o"] ["d"] ["s"] false false)).fsOf ≠
      [(["m"], .dir), (["m", "f1"], .file "A" 1),
        (["o"], .dir), (["o", "g1"], .file "B" 2)] := by decide

/-- C2 fails as stated: with both roots pointing at the same valid directory
and a missing destination root, pipeline B exits with a `ConfigurationError`
(exit code 2), but at the moment of that exit the destination directories
have already been created — the identical-roots check runs after the mkdir
calls. -/
theorem C2_counterexample :
    MoveUnique.main [(["m"], Entry.dir)]
      (MoveUnique.Config.mk ["m"] ["m"] ["d"] ["s"] false false) =
      .configError [(["s"], .dir), (["d"], .dir), (["m"], .dir)] ∧
    lookupE [(["m"], Entry.dir)] ["d"] = none ∧
    lookupE [(["s"], Entry.dir), (["d"], Entry.dir), (["m"], Entry.dir)] ["d"]
      = some .dir := by decide

/-- C3 fails as stated: with older-tree files `a.txt` (content C1) and
`a (1).txt` (content C2) and the destination already holding `a.txt`, both
sources are planned to the same destination `a (1).txt` — existence is only
checked at planning time — and executing the batch silently replaces the
moved C1 file with the C2 file: content C1 vanishes from the filesystem. -/
theorem C3_counterexample :
    (MoveUnique.main
      [(["m"], .dir), (["o"], .dir), (["o", "a.txt"], .file "C1" 1),
        (["o", "a (1).txt"], .file "C2" 2), (["d"], .dir),
        (["d", "a.txt"], .file "C0" 0)]
      (MoveUnique.Config.mk ["m"] ["o"] ["d"] ["s"] true false)).regularOf =
      [(["o", "a.txt"], ["d", "a (1).txt"]),
       (["o", "a (1).txt"], ["d", "a (1).txt"])] ∧
    lookupE [(["m"], .dir), (["o"], .dir), (["o", "a.txt"], .file "C1" 1),
        (["o", "a (1).txt"], .file "C2" 2), (["d"], .dir),
        (["d", "a.txt"], .file "C0" 0)] ["o", "a.txt"] = some (.file "C1" 1) ∧
    ((MoveUnique.main
      [(["m"], .dir), (["o"], .dir), (["o", "a.txt"], .file "C1" 1),
        (["o", "a (1).txt"], .file "C2" 2), (["d"], .dir),
        (["d", "a.txt"], .file "C0" 0)]
      (MoveUnique.Config.mk ["m"] ["o"] ["d"] ["s"] true false)).fsOf.all
        (fun kv => !(kv.2 == Entry.file "C1" 1))) = true := by decide

/-- C6 fails as stated: with the symlink destination root nested inside the
older tree and left empty by the run, pipeline B's reclamation removes it —
its `remove_empty_dirs` protects only the older root, not the destination
roots. -/
theorem C6_counterexample :
    (MoveUnique.Config.mk ["m"] ["o"] ["d"] ["o", "s"] true false).symlinksDest
      = ["o", "s"] ∧
    ["o", "s"] ∈ (MoveUnique.main
      [(["m"], .dir), (["m", "f"], .file "A" 1),
        (["o"], .dir), (["o", "g"], .file "A" 2)]
      (MoveUnique.Config.mk ["m"] ["o"] ["d"] ["o", "s"] true false)).removedOf ∧
    lookupE (MoveUnique.main
      [(["m"], .dir), (["m", "f"], .file "A" 1),
        (["o"], .dir), (["o", "g"], .file "A" 2)]
      (MoveUnique.Config.mk ["m"] ["o"] ["d"] ["o", "s"] true false)).fsOf
      ["o", "s"] = none := by decide

/-- C8 fails as stated: a tree holding two files of equal content and a
symlink aimed at the future quarantine location of the loser is deduplicated
by a first successful apply run, after which the symlink resolves to the
quarantined copy; the second run then groups it with the kept file and plans
a further relocation. -/
theorem C8_counterexample :
    (Dedup.main [(["r"], .dir), (["r", "a"], .file "A" 1),
      (["r", "b"], .file "A" 2),
      (["r", "s"], .symlink ["r", "Duplikáty", "a"])] ["r"] false).isOk = true ∧
    (Dedup.main (Dedup.main [(["r"], .dir), (["r", "a"], .file "A" 1),
      (["r", "b"], .file "A" 2),
      (["r", "s"], .symlink ["r", "Duplikáty", "a"])] ["r"] false).fsOf
      ["r"] false).isOk = true ∧
    (Dedup.main (Dedup.main [(["r"], .dir), (["r", "a"], .file "A" 1),
      (["r", "b"], .file "A" 2),
      (["r", "s"], .symlink ["r", "Duplikáty", "a"])] ["r"] false).fsOf
      ["r"] false).actionsOf ≠ [] := by decide

/-- C9 fails as stated: in pipeline A's walk a symlink whose target is a
regular file passes the `is_file()` test (which follows links), is collected,
hashed, and grouped together with its target as a duplicate. -/
theorem C9_counterexample :
    lookupE [(["r"], .dir), (["r", "f"], .file "A" 1),
      (["r", "s"], .symlink ["r", "f"])] ["r", "s"]
      = some (.symlink ["r", "f"]) ∧
    ["r", "s"] ∈ Dedup.collect_files
      [(["r"], .dir), (["r", "f"], .file "A" 1),
        (["r", "s"], .symlink ["r", "f"])] ["r"] ["r", "Duplikáty"] ∧
    Dedup.group_by_hash
      [(["r"], .dir), (["r", "f"], .file "A" 1),
        (["r", "s"], .symlink ["r", "f"])]
      (Dedup.collect_files
        [(["r"], .dir), (["r", "f"], .file "A" 1),
          (["r", "s"], .symlink ["r", "f"])] ["r"] ["r", "Duplikáty"])
      = [("A", [["r", "f"], ["r", "s"]])] := by decide

/-! ## Frame reasoning for the dry-run and validation claims -/

/-- Generic preservation of an invariant by a left fold. -/
theorem foldlPreserves {α β : Type} (f : α → β → α) (P : α → Prop)
    (hstep : ∀ a b, P a → P (f a b)) :
    ∀ (l : List β) (a : α), P a → P (List.foldl f a l) := by
  intro l
  induction l with
  | nil => intro a ha; exact ha
  | cons b l ih => intro a ha; exact ih _ (hstep a b ha)

/-- The directories-only growth relation between filesystems is transitive. -/
theorem dirFrame_trans {f1 f2 f3 : Fs}
    (h12 : ∀ q, lookupE f2 q = lookupE f1 q ∨
      (lookupE f2 q = some .dir ∧ lookupE f1 q = none))
    (h23 : ∀ q, lookupE f3 q = lookupE f2 q ∨
      (lookupE f3 q = some .dir ∧ lookupE f2 q = none)) :
    ∀ q, lookupE f3 q = lookupE f1 q ∨
      (lookupE f3 q = some .dir ∧ lookupE f1 q = none) := by
  intro q
  rcases h23 q with h3 | ⟨h3d, h3n⟩
  · rcases h12 q with h2 | ⟨h2d, h2n⟩
    · exact Or.inl (h3.trans h2)
    · exact Or.inr ⟨h3.trans h2d, h2n⟩
  · rcases h12 q with h2 | ⟨h2d, h2n⟩
    · exact Or.inr ⟨h3d, by rw [← h2]; exact h3n⟩
    · rw [h2d] at h3n; cases h3n

/-- In dry-run mode a group-processing step never touches the filesystem. -/
theorem processGroup_dry_fs (mainDir dup : FPath) (st : Dedup.PlanSt)
    (g : String × List FPath) :
    (Dedup.processGroup mainDir dup true st g).fs = st.fs := by
  rw [Dedup.processGroup]
  by_cases hc : st.crashed = true
  · rw [if_pos hc]
  · rw [if_neg hc]
    cases hg : g.2 with
    | nil => rfl
    | cons p ps =>
      cases ps with
      | nil => rfl
      | cons p2 ps2 =>
        dsimp only
        cases hsel : Dedup.select_survivor
            (fun q => match statE st.fs q with
              | some (.file _ m) => some m | _ => none) (p :: p2 :: ps2) with
        | none => rfl
        | some newest =>
          dsimp only
          refine foldlPreserves _ (fun s : Dedup.PlanSt => s.fs = st.fs) ?_
            (p :: p2 :: ps2) _ rfl
          intro s q hs
          by_cases hcr : s.crashed = true
          · rw [if_pos hcr]; exact hs
          · rw [if_neg hcr]
            by_cases hqn : (q == newest) = true
            · rw [if_pos hqn]; exact hs
            · rw [if_neg hqn]
              cases hrel : Dedup.relResolved s.fs mainDir q with
              | none => exact hs
              | some rel => exact hs

/-- Pipeline A in dry-run mode returns the filesystem unchanged, whatever the
outcome. -/
theorem dedup_main_dry_fsOf (fs : Fs) (root : FPath) :
    (Dedup.main fs root true).fsOf = fs := by
  rw [Dedup.main]
  simp only [eq_self_iff_true, if_true]
  by_cases hv : (pathExists fs (resolveP fs root) && isDirF fs (resolveP fs root)) = true
  · rw [if_neg (by rw [hv]; simp)]
    have hfold : (List.foldl
        (Dedup.processGroup (resolveP fs root) (resolveP fs root ++ ["Duplikáty"]) true)
        { fs := fs, actions := [], kept := [], crashed := false }
        (Dedup.group_by_hash fs
          (Dedup.collect_files fs (resolveP fs root)
            (resolveP fs root ++ ["Duplikáty"])))).fs = fs := by
      refine foldlPreserves _ (fun s : Dedup.PlanSt => s.fs = fs) ?_ _ _ rfl
      intro a b ha
      rw [processGroup_dry_fs]
      exact ha
    by_cases hcr : (List.foldl
        (Dedup.processGroup (resolveP fs root) (resolveP fs root ++ ["Duplikáty"]) true)
        { fs := fs, actions := [], kept := [], crashed := false }
        (Dedup.group_by_hash fs
          (Dedup.collect_files fs (resolveP fs root)
            (resolveP fs root ++ ["Duplikáty"])))).crashed = true
    · rw [if_pos hcr]
      exact hfold
    · rw [if_neg hcr]
      exact hfold
  · rw [if_pos (by rw [Bool.not_eq_true] at hv; rw [hv]; simp)]
    rfl

/-- A pipeline B run without the apply flag only ever grows the filesystem by
directories (the destination roots and their ancestors), whatever path it
takes. -/
theorem moveUnique_main_preview_frame (fs : Fs) (cfg : MoveUnique.Config)
    (happly : cfg.apply = false) :
    ∀ q, lookupE (MoveUnique.main fs cfg).fsOf q = lookupE fs q ∨
      (lookupE (MoveUnique.main fs cfg).fsOf q = some .dir ∧ lookupE fs q = none) := by
  rw [MoveUnique.main]
  by_cases h1 : (pathExists fs cfg.mainRoot && isDirF fs cfg.mainRoot) = true
  · rw [if_neg (by rw [h1]; simp)]
    by_cases h2 : (pathExists fs cfg.olderRoot && isDirF fs cfg.olderRoot) = true
    · rw [if_neg (by rw [h2]; simp)]
      rcases hA : mkdirChain fs cfg.destRoot with ⟨fsA, flagA⟩
      have fr1 : ∀ q, lookupE fsA q = lookupE fs q ∨
          (lookupE fsA q = some .dir ∧ lookupE fs q = none) := by
        intro q
        have := mkdirChain_frame fs cfg.destRoot q
        rw [hA] at this
        exact this
      cases flagA with
      | false => exact fr1
      | true =>
        dsimp only
        rcases hB : mkdirChain fsA cfg.symlinksDest with ⟨fsB, flagB⟩
        have fr2 : ∀ q, lookupE fsB q = lookupE fsA q ∨
            (lookupE fsB q = some .dir ∧ lookupE fsA q = none) := by
          intro q
          have := mkdirChain_frame fsA cfg.symlinksDest q
          rw [hB] at this
          exact this
        have fr12 := dirFrame_trans fr1 fr2
        cases flagB with
        | false => exact fr12
        | true =>
          dsimp only
          by_cases h3 : (resolveP fsB cfg.mainRoot == resolveP fsB cfg.olderRoot) = true
          · rw [if_pos h3]; exact fr12
          · rw [if_neg h3]
            by_cases h4 : (MoveUnique.is_subpath fsB cfg.destRoot cfg.mainRoot
                || MoveUnique.is_subpath fsB cfg.symlinksDest cfg.mainRoot) = true
            · rw [if_pos h4]; exact fr12
            · rw [if_neg h4]
              rw [happly]
              simp only [Bool.not_false, if_true]
              exact fr12
    · rw [if_pos (by rw [Bool.not_eq_true] at h2; rw [h2]; simp)]
      intro q; exact Or.inl rfl
  · rw [if_pos (by rw [Bool.not_eq_true] at h1; rw [h1]; simp)]
    intro q; exact Or.inl rfl

/-- C1 (amended): dry-run/preview performs no relocations or removals: a
pipeline A dry run returns the filesystem exactly unchanged, and a pipeline B
run without the apply flag changes the filesystem only by creating the two
destination roots (with ancestors) as directories — every preexisting entry
is untouched and every new entry is a directory; no plan is executed. -/
theorem C1_dry_run_mutation_scope (fs : Fs) (root : FPath) (gs : Fs)
    (cfg : MoveUnique.Config) (happly : cfg.apply = false) :
    (Dedup.main fs root true).fsOf = fs ∧
    (∀ q, lookupE (MoveUnique.main gs cfg).fsOf q = lookupE gs q ∨
      (lookupE (MoveUnique.main gs cfg).fsOf q = some .dir ∧ lookupE gs q = none)) :=
  ⟨dedup_main_dry_fsOf fs root, moveUnique_main_preview_frame gs cfg happly⟩

/-- Witness for the amended C1, at the filesystem of the counterexample. -/
theorem C1_witness :
    (Dedup.main [(["r"], Entry.dir), (["r", "x"], Entry.file "A" 1)] ["r"] true).fsOf
      = [(["r"], Entry.dir), (["r", "x"], Entry.file "A" 1)] ∧
    (∀ q, lookupE (MoveUnique.main
        [(["m"], Entry.dir), (["m", "f1"], Entry.file "A" 1),
          (["o"], Entry.dir), (["o", "g1"], Entry.file "B" 2)]
        (MoveUnique.Config.mk ["m"] ["o"] ["d"] ["s"] false false)).fsOf q =
      lookupE [(["m"], Entry.dir), (["m", "f1"], Entry.file "A" 1),
        (["o"], Entry.dir), (["o", "g1"], Entry.file "B" 2)] q ∨
      (lookupE (MoveUnique.main
        [(["m"], Entry.dir), (["m", "f1"], Entry.file "A" 1),
          (["o"], Entry.dir), (["o", "g1"], Entry.file "B" 2)]
        (MoveUnique.Config.mk ["m"] ["o"] ["d"] ["s"] false false)).fsOf q
          = some .dir ∧
        lookupE [(["m"], Entry.dir), (["m", "f1"], Entry.file "A" 1),
          (["o"], Entry.dir), (["o", "g1"], Entry.file "B" 2)] q = none)) :=
  C1_dry_run_mutation_scope [(["r"], Entry.dir), (["r", "x"], Entry.file "A" 1)] ["r"]
    [(["m"], Entry.dir), (["m", "f1"], Entry.file "A" 1),
      (["o"], Entry.dir), (["o", "g1"], Entry.file "B" 2)]
    (MoveUnique.Config.mk ["m"] ["o"] ["d"] ["s"] false false) rfl

/-- C2 (amended): pipeline B rejects a missing or non-directory current or
older root with a `ConfigurationError` (exit code 2) before any filesystem
mutation; the identical-roots and destination-nesting violations are also
rejected with exit code 2, but only after the two destination roots have been
created — at that exit every preexisting entry is still in place unchanged
(nothing has been moved or removed), the only mutation being the created
destination directories. -/
theorem C2_config_error_order (fs : Fs) (cfg : MoveUnique.Config) :
    (((pathExists fs cfg.mainRoot && isDirF fs cfg.mainRoot) = false ∨
      (pathExists fs cfg.olderRoot && isDirF fs cfg.olderRoot) = false) →
      MoveUnique.main fs cfg = .configError fs) ∧
    ((pathExists fs cfg.mainRoot && isDirF fs cfg.mainRoot) = true →
     (pathExists fs cfg.olderRoot && isDirF fs cfg.olderRoot) = true →
     (mkdirChain fs cfg.destRoot).2 = true →
     (mkdirChain (mkdirChain fs cfg.destRoot).1 cfg.symlinksDest).2 = true →
     ((resolveP (mkdirChain (mkdirChain fs cfg.destRoot).1 cfg.symlinksDest).1
          cfg.mainRoot ==
        resolveP (mkdirChain (mkdirChain fs cfg.destRoot).1 cfg.symlinksDest).1
          cfg.olderRoot) = true ∨
      (MoveUnique.is_subpath
          (mkdirChain (mkdirChain fs cfg.destRoot).1 cfg.symlinksDest).1
          cfg.destRoot cfg.mainRoot ||
        MoveUnique.is_subpath
          (mkdirChain (mkdirChain fs cfg.destRoot).1 cfg.symlinksDest).1
          cfg.symlinksDest cfg.mainRoot) = true) →
     MoveUnique.main fs cfg =
        .configError (mkdirChain (mkdirChain fs cfg.destRoot).1 cfg.symlinksDest).1 ∧
     (∀ q e, lookupE fs q = some e →
        lookupE (mkdirChain (mkdirChain fs cfg.destRoot).1 cfg.symlinksDest).1 q
          = some e) ∧
     (∀ q, lookupE fs q = none →
        lookupE (mkdirChain (mkdirChain fs cfg.destRoot).1 cfg.symlinksDest).1 q
          = none ∨
        lookupE (mkdirChain (mkdirChain fs cfg.destRoot).1 cfg.symlinksDest).1 q
          = some .dir)) := by
  constructor
  · intro h
    rw [MoveUnique.main]
    by_cases h1 : (pathExists fs cfg.mainRoot && isDirF fs cfg.mainRoot) = true
    · rw [if_neg (by rw [h1]; simp)]
      have h2 : (pathExists fs cfg.olderRoot && isDirF fs cfg.olderRoot) = false := by
        rcases h with h | h
        · rw [h1] at h; cases h
        · exact h
      rw [if_pos (by rw [h2]; rfl)]
    · rw [if_pos (by rw [Bool.not_eq_true] at h1; rw [h1]; simp)]
  · intro h1 h2 hm1 hm2 hbad
    have frames : ∀ q, lookupE (mkdirChain (mkdirChain fs cfg.destRoot).1
        cfg.symlinksDest).1 q = lookupE fs q ∨
        (lookupE (mkdirChain (mkdirChain fs cfg.destRoot).1 cfg.symlinksDest).1 q
          = some .dir ∧ lookupE fs q = none) :=
      dirFrame_trans (mkdirChain_frame fs cfg.destRoot)
        (mkdirChain_frame (mkdirChain fs cfg.destRoot).1 cfg.symlinksDest)
    refine ⟨?_, ?_, ?_⟩
    · rw [MoveUnique.main, if_neg (by rw [h1]; simp), if_neg (by rw [h2]; simp)]
      have eA : mkdirChain fs cfg.destRoot = ((mkdirChain fs cfg.destRoot).1, true) := by
        rw [← hm1]
      rw [eA]
      dsimp only
      have eB : mkdirChain (mkdirChain fs cfg.destRoot).1 cfg.symlinksDest =
          ((mkdirChain (mkdirChain fs cfg.destRoot).1 cfg.symlinksDest).1, true) := by
        rw [← hm2]
      rw [eB]
      dsimp only
      rcases hbad with hb | hb
      · rw [if_pos hb]
      · by_cases heq : (resolveP (mkdirChain (mkdirChain fs cfg.destRoot).1
            cfg.symlinksDest).1 cfg.mainRoot ==
          resolveP (mkdirChain (mkdirChain fs cfg.destRoot).1 cfg.symlinksDest).1
            cfg.olderRoot) = true
        · rw [if_pos heq]
        · rw [if_neg heq, if_pos hb]
    · intro q e he
      rcases frames q with h | ⟨_, hn⟩
      · rw [h, he]
      · rw [he] at hn; cases hn
    · intro q hn
      rcases frames q with h | ⟨hd, _⟩
      · rw [h, hn]; exact Or.inl rfl
      · exact Or.inr hd

/-- Witness for the amended C2, at the identical-roots counterexample. -/
theorem C2_witness :
    MoveUnique.main [(["m"], Entry.dir)]
      (MoveUnique.Config.mk ["m"] ["m"] ["d"] ["s"] false false) =
      .configError (mkdirChain (mkdirChain [(["m"], Entry.dir)] ["d"]).1 ["s"]).1 ∧
    (∀ q e, lookupE [(["m"], Entry.dir)] q = some e →
      lookupE (mkdirChain (mkdirChain [(["m"], Entry.dir)] ["d"]).1 ["s"]).1 q
        = some e) ∧
    (∀ q, lookupE [(["m"], Entry.dir)] q = none →
      lookupE (mkdirChain (mkdirChain [(["m"], Entry.dir)] ["d"]).1 ["s"]).1 q
        = none ∨
      lookupE (mkdirChain (mkdirChain [(["m"], Entry.dir)] ["d"]).1 ["s"]).1 q
        = some .dir) :=
  (C2_config_error_order [(["m"], Entry.dir)]
      (MoveUnique.Config.mk ["m"] ["m"] ["d"] ["s"] false false)).2
    (by decide) (by decide) (by decide) (by decide) (Or.inl (by decide))

/-- C9 (amended): pipeline B's hash-set construction classifies symlinks
distinctly from regular files — every digest in the membership set comes from
a regular-file entry reached by the walk, never from a symlink — and both
walks only descend through real directory entries, so a directory symlink is
never treated as a directory to descend into (at the default, non-following
setting modelled here).  Pipeline A's file collection, however, follows
`Path.is_file`: a symlink whose target resolves to a regular file is
collected and is hashed by its target's content, so it does take part in
duplicate grouping. -/
theorem C9_walker_classification (fs : Fs) (root dup p : FPath) (t : FPath) (c : String) :
    (c ∈ MoveUnique.build_hash_set fs root →
      ∃ q ∈ walkAll fs root, ∃ m, lookupE fs q = some (.file c m)) ∧
    (∀ q ∈ walkAll fs root, ancestorsAreDirs fs root q = true) ∧
    (∀ q ∈ Dedup.collect_files fs root dup, ancestorsAreDirs fs root q = true) ∧
    (lookupE fs p = some (.symlink t) →
      strictUnder root p = true →
      dup.isPrefixOf p = false →
      ancestorsAreDirs fs root p = true →
      isFileF fs p = true →
      p ∈ Dedup.collect_files fs root dup) ∧
    (∀ q ∈ Dedup.collect_files fs root dup,
      ∃ c' m', statE fs q = some (.file c' m') ∧ Dedup.sha256_of_file fs q = some c') := by
  refine ⟨?_, ?_, ?_, ?_, ?_⟩
  · intro hc
    exact (MoveUnique.build_hash_set_iff fs root c).mp hc
  · intro q hq
    have := (List.mem_filter.mp hq).2
    simp only [Bool.and_eq_true] at this
    exact this.2
  · intro q hq
    have := (List.mem_filter.mp hq).2
    simp only [Bool.and_eq_true] at this
    exact this.1.2
  · intro he hsu hdup hanc hfile
    rw [Dedup.collect_files]
    refine List.mem_filter.mpr ⟨lookupE_isSome_iff_mem.mp (by rw [he]; rfl), ?_⟩
    simp only [Bool.and_eq_true]
    refine ⟨⟨⟨hsu, ?_⟩, hanc⟩, hfile⟩
    rw [hdup]
    rfl
  · intro q hq
    have hf := (List.mem_filter.mp hq).2
    simp only [Bool.and_eq_true] at hf
    have hfile := hf.2
    rw [isFileF] at hfile
    cases hst : statE fs q with
    | none => rw [hst] at hfile; cases hfile
    | some e =>
      cases e with
      | file c' m' =>
        refine ⟨c', m', rfl, ?_⟩
        rw [Dedup.sha256_of_file, hst]
      | symlink t' => rw [hst] at hfile; cases hfile
      | dir => rw [hst] at hfile; cases hfile

/-- Witness for the amended C9, at the counterexample filesystem: the
symlink to a regular file is collected and hashed by its target's content. -/
theorem C9_witness :
    ((("A" : String) ∈ MoveUnique.build_hash_set
        [(["r"], Entry.dir), (["r", "f"], Entry.file "A" 1),
          (["r", "s"], Entry.symlink ["r", "f"])] ["r"] →
      ∃ q ∈ walkAll [(["r"], Entry.dir), (["r", "f"], Entry.file "A" 1),
          (["r", "s"], Entry.symlink ["r", "f"])] ["r"],
        ∃ m, lookupE [(["r"], Entry.dir), (["r", "f"], Entry.file "A" 1),
          (["r", "s"], Entry.symlink ["r", "f"])] q = some (.file "A" m)) ∧
    (∀ q ∈ walkAll [(["r"], Entry.dir), (["r", "f"], Entry.file "A" 1),
        (["r", "s"], Entry.symlink ["r", "f"])] ["r"],
      ancestorsAreDirs [(["r"], Entry.dir), (["r", "f"], Entry.file "A" 1),
        (["r", "s"], Entry.symlink ["r", "f"])] ["r"] q = true) ∧
    (∀ q ∈ Dedup.collect_files [(["r"], Entry.dir), (["r", "f"], Entry.file "A" 1),
        (["r", "s"], Entry.symlink ["r", "f"])] ["r"] ["r", "Duplikáty"],
      ancestorsAreDirs [(["r"], Entry.dir), (["r", "f"], Entry.file "A" 1),
        (["r", "s"], Entry.symlink ["r", "f"])] ["r"] q = true) ∧
    (lookupE [(["r"], Entry.dir), (["r", "f"], Entry.file "A" 1),
        (["r", "s"], Entry.symlink ["r", "f"])] ["r", "s"]
          = some (.symlink ["r", "f"]) →
      strictUnder ["r"] ["r", "s"] = true →
      (["r", "Duplikáty"] : FPath).isPrefixOf ["r", "s"] = false →
      ancestorsAreDirs [(["r"], Entry.dir), (["r", "f"], Entry.file "A" 1),
        (["r", "s"], Entry.symlink ["r", "f"])] ["r"] ["r", "s"] = true →
      isFileF [(["r"], Entry.dir), (["r", "f"], Entry.file "A" 1),
        (["r", "s"], Entry.symlink ["r", "f"])] ["r", "s"] = true →
      ["r", "s"] ∈ Dedup.collect_files
        [(["r"], Entry.dir), (["r", "f"], Entry.file "A" 1),
          (["r", "s"], Entry.symlink ["r", "f"])] ["r"] ["r", "Duplikáty"]) ∧
    (∀ q ∈ Dedup.collect_files [(["r"], Entry.dir), (["r", "f"], Entry.file "A" 1),
        (["r", "s"], Entry.symlink ["r", "f"])] ["r"] ["r", "Duplikáty"],
      ∃ c' m', statE [(["r"], Entry.dir), (["r", "f"], Entry.file "A" 1),
          (["r", "s"], Entry.symlink ["r", "f"])] q = some (.file c' m') ∧
        Dedup.sha256_of_file [(["r"], Entry.dir), (["r", "f"], Entry.file "A" 1),
          (["r", "s"], Entry.symlink ["r", "f"])] q = some c')) ∧
    isFileF [(["r"], Entry.dir), (["r", "f"], Entry.file "A" 1),
      (["r", "s"], Entry.symlink ["r", "f"])] ["r", "s"] = true :=
  ⟨C9_walker_classification _ ["r"] ["r", "Duplikáty"] ["r", "s"] ["r", "f"] "A",
    by decide⟩

/-! ## Reclamation lemmas -/

/-- Fold preservation where the step property may use list membership. -/
theorem foldlPreservesMem {α β : Type} (f : α → β → α) (P : α → Prop) :
    ∀ (l : List β) (a : α), P a → (∀ a' b, b ∈ l → P a' → P (f a' b)) →
      P (List.foldl f a l) := by
  intro l
  induction l with
  | nil => intro a ha _; exact ha
  | cons b l ih =>
    intro a ha hstep
    exact ih _ (hstep a b (List.mem_cons_self _ _) ha)
      (fun a' b' hb' => hstep a' b' (List.mem_cons_of_mem _ hb'))

/-- The common shape of both reclamation loops: skip when the guard holds,
skip when the directory has a child, otherwise remove. -/
def reclaimStep (guard : Fs → FPath → Bool) (st : Fs × List FPath) (p : FPath) :
    Fs × List FPath :=
  if guard st.1 p then st
  else if hasChild st.1 p then st
  else (eraseKey st.1 p, st.2 ++ [p])

theorem dedup_remove_eq (fs : Fs) (root : FPath) (keep : List FPath) :
    Dedup.remove_empty_dirs fs root keep =
      (byDepthDesc (dirKeysUnder fs root)).foldl
        (reclaimStep (fun f p => keep.any (fun k => resolveP f p == resolveP f k)))
        (fs, []) := rfl

theorem moveUnique_remove_eq (fs : Fs) (root : FPath) :
    MoveUnique.remove_empty_dirs fs root =
      (byDepthDesc (dirKeysUnder fs root)).foldl
        (reclaimStep (fun _ _ => false)) (fs, []) := by
  rw [MoveUnique.remove_empty_dirs]
  congr 1

/-- Containment of association lists by membership. -/
def SubFs (f g : Fs) : Prop := ∀ kv, kv ∈ f → kv ∈ g

theorem SubFs_refl (f : Fs) : SubFs f f := fun _ h => h

theorem SubFs_trans {f g h : Fs} (h1 : SubFs f g) (h2 : SubFs g h) : SubFs f h :=
  fun kv hm => h2 kv (h1 kv hm)

theorem SubFs_eraseKey (f : Fs) (p : FPath) : SubFs (eraseKey f p) f := by
  intro kv hm
  exact List.mem_of_mem_filter hm

theorem reclaim_subFs (guard : Fs → FPath → Bool) (L : List FPath)
    (st : Fs × List FPath) :
    SubFs (List.foldl (reclaimStep guard) st L).1 st.1 := by
  refine foldlPreserves _ (fun s : Fs × List FPath => SubFs s.1 st.1) ?_ L st
    (SubFs_refl _)
  intro a b ha
  rw [reclaimStep]
  by_cases h1 : guard a.1 b = true
  · rw [if_pos h1]; exact ha
  · rw [if_neg h1]
    by_cases h2 : hasChild a.1 b = true
    · rw [if_pos h2]; exact ha
    · rw [if_neg h2]
      exact SubFs_trans (SubFs_eraseKey a.1 b) ha

/-- Once gone, an entry never reappears during reclamation. -/
theorem reclaim_none_stays (guard : Fs → FPath → Bool) (L : List FPath)
    (st : Fs × List FPath) (p : FPath) (h : lookupE st.1 p = none) :
    lookupE (List.foldl (reclaimStep guard) st L).1 p = none := by
  refine foldlPreserves _ (fun s : Fs × List FPath => lookupE s.1 p = none) ?_ L st h
  intro a b ha
  rw [reclaimStep]
  by_cases h1 : guard a.1 b = true
  · rw [if_pos h1]; exact ha
  · rw [if_neg h1]
    by_cases h2 : hasChild a.1 b = true
    · rw [if_pos h2]; exact ha
    · rw [if_neg h2]
      dsimp only
      rw [lookupE_eraseKey]
      by_cases hb : p = b
      · rw [if_pos hb]
      · rw [if_neg hb]; exact ha

/-- A path on which the guard always fires is never removed and keeps its
entry. -/
theorem reclaim_guarded_preserved (guard : Fs → FPath → Bool) (L : List FPath)
    (st : Fs × List FPath) (k : FPath)
    (hg : ∀ f, guard f k = true) (hk : k ∉ st.2) :
    lookupE (List.foldl (reclaimStep guard) st L).1 k = lookupE st.1 k ∧
      k ∉ (List.foldl (reclaimStep guard) st L).2 := by
  refine foldlPreserves _
    (fun s : Fs × List FPath => lookupE s.1 k = lookupE st.1 k ∧ k ∉ s.2) ?_ L st
    ⟨rfl, hk⟩
  intro a b ha
  rw [reclaimStep]
  by_cases h1 : guard a.1 b = true
  · rw [if_pos h1]; exact ha
  · rw [if_neg h1]
    by_cases h2 : hasChild a.1 b = true
    · rw [if_pos h2]; exact ha
    · rw [if_neg h2]
      have hbk : ¬k = b := by
        intro he
        rw [← he] at h1
        exact h1 (hg a.1)
      dsimp only
      constructor
      · rw [lookupE_eraseKey, if_neg hbk]
        exact ha.1
      · intro hmem
        rcases List.mem_append.mp hmem with hm | hm
        · exact ha.2 hm
        · exact hbk (List.mem_singleton.mp hm)

/-- A path outside the processed list is never removed and keeps its entry. -/
theorem reclaim_outside_preserved (guard : Fs → FPath → Bool) (L : List FPath)
    (st : Fs × List FPath) (k : FPath) (hout : k ∉ L) (hk : k ∉ st.2) :
    lookupE (List.foldl (reclaimStep guard) st L).1 k = lookupE st.1 k ∧
      k ∉ (List.foldl (reclaimStep guard) st L).2 := by
  refine foldlPreservesMem _
    (fun s : Fs × List FPath => lookupE s.1 k = lookupE st.1 k ∧ k ∉ s.2) L st
    ⟨rfl, hk⟩ ?_
  intro a b hb ha
  rw [reclaimStep]
  by_cases h1 : guard a.1 b = true
  · rw [if_pos h1]; exact ha
  · rw [if_neg h1]
    by_cases h2 : hasChild a.1 b = true
    · rw [if_pos h2]; exact ha
    · rw [if_neg h2]
      have hbk : ¬k = b := fun he => hout (he ▸ hb)
      dsimp only
      constructor
      · rw [lookupE_eraseKey, if_neg hbk]
        exact ha.1
      · intro hmem
        rcases List.mem_append.mp hmem with hm | hm
        · exact ha.2 hm
        · exact hbk (List.mem_singleton.mp hm)

/-- All removals come from the processed list. -/
theorem reclaim_removed_sub (guard : Fs → FPath → Bool) (L : List FPath)
    (st : Fs × List FPath) :
    ∀ x ∈ (List.foldl (reclaimStep guard) st L).2, x ∈ L ∨ x ∈ st.2 := by
  refine foldlPreservesMem _
    (fun s : Fs × List FPath => ∀ x ∈ s.2, x ∈ L ∨ x ∈ st.2) L st
    (fun x hx => Or.inr hx) ?_
  intro a b hb ha
  rw [reclaimStep]
  by_cases h1 : guard a.1 b = true
  · rw [if_pos h1]; exact ha
  · rw [if_neg h1]
    by_cases h2 : hasChild a.1 b = true
    · rw [if_pos h2]; exact ha
    · rw [if_neg h2]
      intro x hx
      rcases List.mem_append.mp hx with hm | hm
      · exact ha x hm
      · exact Or.inl (List.mem_singleton.mp hm ▸ hb)

/-- An entry strictly deeper than everything left to process survives. -/
theorem reclaim_deep_entry_stays (guard : Fs → FPath → Bool) (L : List FPath)
    (st : Fs × List FPath) (kv : FPath × Entry) (hkv : kv ∈ st.1)
    (hdeep : ∀ q ∈ L, q.length < kv.1.length) :
    kv ∈ (List.foldl (reclaimStep guard) st L).1 := by
  refine foldlPreservesMem _ (fun s : Fs × List FPath => kv ∈ s.1) L st hkv ?_
  intro a b hb ha
  rw [reclaimStep]
  by_cases h1 : guard a.1 b = true
  · rw [if_pos h1]; exact ha
  · rw [if_neg h1]
    by_cases h2 : hasChild a.1 b = true
    · rw [if_pos h2]; exact ha
    · rw [if_neg h2]
      refine List.mem_filter.mpr ⟨ha, ?_⟩
      have : ¬kv.1 = b := by
        intro he
        have := hdeep b hb
        rw [← he] at this
        exact lt_irrefl _ this
      simp [this]

theorem byDepthAux_length_le (ps : List FPath) (n : Nat) :
    ∀ q ∈ byDepthAux ps n, q.length ≤ n := by
  induction n with
  | zero => intro q hq; cases hq
  | succ n ih =>
    intro q hq
    rw [byDepthAux] at hq
    rcases List.mem_append.mp hq with h | h
    · have := (List.mem_filter.mp h).2
      rw [beq_iff_eq] at this
      omega
    · exact le_trans (ih q h) (Nat.le_succ n)

theorem byDepthAux_sub (ps : List FPath) (n : Nat) :
    ∀ q ∈ byDepthAux ps n, q ∈ ps := by
  induction n with
  | zero => intro q hq; cases hq
  | succ n ih =>
    intro q hq
    rw [byDepthAux] at hq
    rcases List.mem_append.mp hq with h | h
    · exact List.mem_of_mem_filter h
    · exact ih q h

theorem byDepthAux_mem (ps : List FPath) (n : Nat) (q : FPath) (hq : q ∈ ps)
    (h1 : 1 ≤ q.length) (h2 : q.length ≤ n) : q ∈ byDepthAux ps n := by
  induction n with
  | zero => omega
  | succ n ih =>
    rw [byDepthAux]
    by_cases he : q.length = n + 1
    · refine List.mem_append.mpr (Or.inl (List.mem_filter.mpr ⟨hq, ?_⟩))
      rw [beq_iff_eq]
      exact he
    · exact List.mem_append.mpr (Or.inr (ih (by omega)))

theorem pairwise_of_same_length (l : List FPath) (n : Nat)
    (h : ∀ a ∈ l, a.length = n) :
    l.Pairwise (fun a b => b.length ≤ a.length) := by
  induction l with
  | nil => exact List.Pairwise.nil
  | cons x xs ih =>
    rw [List.pairwise_cons]
    refine ⟨?_, ih (fun a ha => h a (List.mem_cons_of_mem _ ha))⟩
    intro b hb
    rw [h b (List.mem_cons_of_mem _ hb), h x (List.mem_cons_self _ _)]

theorem byDepthAux_pairwise (ps : List FPath) (n : Nat) :
    (byDepthAux ps n).Pairwise (fun a b => b.length ≤ a.length) := by
  induction n with
  | zero => exact List.Pairwise.nil
  | succ n ih =>
    rw [byDepthAux, List.pairwise_append]
    refine ⟨?_, ih, ?_⟩
    · refine pairwise_of_same_length _ (n + 1) ?_
      intro a ha
      have := (List.mem_filter.mp ha).2
      rw [beq_iff_eq] at this
      exact this
    · intro a ha b hb
      have hb2 := byDepthAux_length_le ps n b hb
      have ha2 := (List.mem_filter.mp ha).2
      rw [beq_iff_eq] at ha2
      omega

theorem le_maxLen_aux (l : List FPath) :
    ∀ acc : Nat, acc ≤ l.foldl (fun m p => max m p.length) acc ∧
      ∀ p ∈ l, p.length ≤ l.foldl (fun m p => max m p.length) acc := by
  induction l with
  | nil => intro acc; exact ⟨le_refl _, fun p hp => absurd hp (List.not_mem_nil p)⟩
  | cons x xs ih =>
    intro acc
    rw [List.foldl_cons]
    obtain ⟨hmono, hmem⟩ := ih (max acc x.length)
    refine ⟨le_trans (le_max_left _ _) hmono, ?_⟩
    intro p hp
    rcases List.mem_cons.mp hp with rfl | hp2
    · exact le_trans (le_max_right acc p.length) hmono
    · exact hmem p hp2

theorem le_maxLen (ps : List FPath) : ∀ p ∈ ps, p.length ≤ maxLen ps :=
  fun p hp => (le_maxLen_aux ps 0).2 p hp

theorem byDepthDesc_pairwise (ps : List FPath) :
    (byDepthDesc ps).Pairwise (fun a b => b.length ≤ a.length) :=
  byDepthAux_pairwise ps (maxLen ps)

theorem byDepthDesc_sub (ps : List FPath) : ∀ q ∈ byDepthDesc ps, q ∈ ps :=
  byDepthAux_sub ps (maxLen ps)

theorem byDepthDesc_mem (ps : List FPath) (q : FPath) (hq : q ∈ ps)
    (h1 : 1 ≤ q.length) : q ∈ byDepthDesc ps :=
  byDepthAux_mem ps (maxLen ps) q hq h1 (le_maxLen ps q hq)

theorem dirKeysUnder_strict (fs : Fs) (root : FPath) :
    ∀ q ∈ dirKeysUnder fs root, root.length < q.length := by
  intro q hq
  have := (List.mem_filter.mp hq).2
  simp only [Bool.and_eq_true, strictUnder, decide_eq_true_iff] at this
  exact this.1.1.2

/-- Bottom-up completeness of the shared reclamation loop: an unguarded
directory of the processed list that is still present at the end has a child
at the end. -/
theorem reclaim_no_empty (guard : Fs → FPath → Bool) (gb : FPath → Bool) :
    ∀ L : List FPath, L.Pairwise (fun a b => b.length ≤ a.length) →
    ∀ st : Fs × List FPath, (∀ f p, SubFs f st.1 → guard f p = gb p) →
    ∀ p ∈ L, gb p = false →
      lookupE (List.foldl (reclaimStep guard) st L).1 p = some Entry.dir →
      hasChild (List.foldl (reclaimStep guard) st L).1 p = true := by
  intro L
  induction L with
  | nil => intro _ st _ p hp; cases hp
  | cons q L ih =>
    intro hsorted st hg p hp hgb
    rw [List.pairwise_cons] at hsorted
    rw [List.foldl_cons]
    have hsub1 : SubFs (reclaimStep guard st q).1 st.1 := by
      rw [reclaimStep]
      by_cases h1 : guard st.1 q = true
      · rw [if_pos h1]; exact SubFs_refl _
      · rw [if_neg h1]
        by_cases h2 : hasChild st.1 q = true
        · rw [if_pos h2]; exact SubFs_refl _
        · rw [if_neg h2]; exact SubFs_eraseKey st.1 q
    have hg1 : ∀ f p', SubFs f (reclaimStep guard st q).1 → guard f p' = gb p' :=
      fun f p' hs => hg f p' (SubFs_trans hs hsub1)
    rcases List.mem_cons.mp hp with rfl | hpL
    · intro hlook
      have hgq : guard st.1 p = false := by rw [hg st.1 p (SubFs_refl _), hgb]
      by_cases hch : hasChild st.1 p = true
      · have hstep : reclaimStep guard st p = st := by
          rw [reclaimStep, hgq]
          simp only [Bool.false_eq_true, if_false]
          rw [if_pos hch]
        rw [hstep]
        obtain ⟨kv, hkv, hcond⟩ := List.any_eq_true.mp hch
        rw [Bool.and_eq_true, decide_eq_true_iff] at hcond
        have hdeep : ∀ x ∈ L, x.length < kv.1.length := by
          intro x hx
          have := hsorted.1 x hx
          omega
        have hstay := reclaim_deep_entry_stays guard L st kv hkv hdeep
        refine List.any_eq_true.mpr ⟨kv, hstay, ?_⟩
        rw [Bool.and_eq_true, decide_eq_true_iff]
        exact hcond
      · have hstep : reclaimStep guard st p =
            (eraseKey st.1 p, st.2 ++ [p]) := by
          rw [reclaimStep, hgq]
          simp only [Bool.false_eq_true, if_false]
          rw [if_neg hch]
        rw [hstep] at hlook ⊢
        have hnone : lookupE (eraseKey st.1 p) p = none := by
          rw [lookupE_eraseKey, if_pos rfl]
        have := reclaim_none_stays guard L (eraseKey st.1 p, st.2 ++ [p]) p hnone
        rw [this] at hlook
        cases hlook
    · exact ih hsorted.2 (reclaimStep guard st q) hg1 p hpL hgb

/-- A filesystem without symbolic link entries. -/
def NoSymlinks (fs : Fs) : Prop := ∀ kv ∈ fs, ∀ t, kv.2 ≠ Entry.symlink t

theorem lookupE_mem_of_eq (fs : Fs) (p : FPath) (e : Entry)
    (h : lookupE fs p = some e) : (p, e) ∈ fs := by
  rw [lookupE] at h
  cases hf : fs.find? (fun kv => kv.1 == p) with
  | none => rw [hf] at h; cases h
  | some kv =>
    rw [hf] at h
    have hkv := List.find?_some hf
    have hmem := List.mem_of_find?_eq_some hf
    obtain ⟨a, b⟩ := kv
    have h1 : a = p := by simpa using hkv
    have h2 : b = e := by simpa using h
    rw [h1, h2] at hmem
    exact hmem

theorem chaseLink_id_of_noSymlinks {fs : Fs} (h : NoSymlinks fs) :
    ∀ (fuel : Nat) (p : FPath), chaseLink fs fuel p = p := by
  intro fuel
  cases fuel with
  | zero => intro p; rfl
  | succ n =>
    intro p
    rw [chaseLink]
    cases hl : lookupE fs p with
    | none => rfl
    | some e =>
      cases e with
      | file c m => rfl
      | dir => rfl
      | symlink t =>
        exact absurd rfl (h (p, Entry.symlink t) (lookupE_mem_of_eq fs p _ hl) t)

theorem resolveP_id_of_noSymlinks {fs : Fs} (h : NoSymlinks fs) (p : FPath) :
    resolveP fs p = p := chaseLink_id_of_noSymlinks h _ p

theorem noSymlinks_sub {f g : Fs} (hg : NoSymlinks g) (hs : SubFs f g) :
    NoSymlinks f := fun kv hm t => hg kv (hs kv hm) t

/-- C6 (amended): in pipeline A's reclamation the tree root and every
directory of the keep list (the quarantine root) are never removed and keep
their entries; in pipeline B's reclamation only the older tree root is so
protected — the destination roots are not in a protected set, and the C6
counterexample shows an empty nested destination root removed.  In both, all
removals are walked directories strictly below the root, and bottom-up
processing is complete: any walked unprotected directory still present after
the pass has at least one child then, so no empty unprotected directory is
left behind. -/
theorem C6_reclamation_scope (fs : Fs) (root : FPath) (keep : List FPath)
    (hns : NoSymlinks fs) :
    (∀ k ∈ keep, lookupE (Dedup.remove_empty_dirs fs root keep).1 k = lookupE fs k ∧
      k ∉ (Dedup.remove_empty_dirs fs root keep).2) ∧
    (lookupE (Dedup.remove_empty_dirs fs root keep).1 root = lookupE fs root ∧
      root ∉ (Dedup.remove_empty_dirs fs root keep).2) ∧
    (∀ x ∈ (Dedup.remove_empty_dirs fs root keep).2, x ∈ dirKeysUnder fs root) ∧
    (∀ p ∈ dirKeysUnder fs root, p ∉ keep →
      lookupE (Dedup.remove_empty_dirs fs root keep).1 p = some Entry.dir →
      hasChild (Dedup.remove_empty_dirs fs root keep).1 p = true) ∧
    (lookupE (MoveUnique.remove_empty_dirs fs root).1 root = lookupE fs root ∧
      root ∉ (MoveUnique.remove_empty_dirs fs root).2) ∧
    (∀ x ∈ (MoveUnique.remove_empty_dirs fs root).2, x ∈ dirKeysUnder fs root) ∧
    (∀ p ∈ dirKeysUnder fs root,
      lookupE (MoveUnique.remove_empty_dirs fs root).1 p = some Entry.dir →
      hasChild (MoveUnique.remove_empty_dirs fs root).1 p = true) := by
  have hroot_not : root ∉ byDepthDesc (dirKeysUnder fs root) := by
    intro hmem
    have := dirKeysUnder_strict fs root root (byDepthDesc_sub _ root hmem)
    omega
  refine ⟨?_, ?_, ?_, ?_, ?_, ?_, ?_⟩
  · intro k hk
    rw [dedup_remove_eq]
    refine reclaim_guarded_preserved _ _ (fs, []) k ?_ (List.not_mem_nil k)
    intro f
    refine List.any_eq_true.mpr ⟨k, hk, ?_⟩
    exact beq_self_eq_true _
  · rw [dedup_remove_eq]
    exact reclaim_outside_preserved _ _ (fs, []) root hroot_not (List.not_mem_nil root)
  · intro x hx
    rw [dedup_remove_eq] at hx
    rcases reclaim_removed_sub _ _ (fs, []) x hx with h | h
    · exact byDepthDesc_sub _ x h
    · cases h
  · intro p hp hkeep
    rw [dedup_remove_eq]
    refine reclaim_no_empty _ (fun p' => keep.any (fun k => p' == k)) _
      (byDepthDesc_pairwise _) (fs, []) ?_ p
      (byDepthDesc_mem _ p hp (by have := dirKeysUnder_strict fs root p hp; omega))
      ?_
    · intro f p' hsub
      have hf : NoSymlinks f := noSymlinks_sub hns hsub
      simp only [resolveP_id_of_noSymlinks hf]
    · rw [List.any_eq_false]
      intro k hk hbe
      exact hkeep ((beq_iff_eq.mp hbe) ▸ hk)
  · rw [moveUnique_remove_eq]
    exact reclaim_outside_preserved _ _ (fs, []) root hroot_not (List.not_mem_nil root)
  · intro x hx
    rw [moveUnique_remove_eq] at hx
    rcases reclaim_removed_sub _ _ (fs, []) x hx with h | h
    · exact byDepthDesc_sub _ x h
    · cases h
  · intro p hp
    rw [moveUnique_remove_eq]
    refine reclaim_no_empty _ (fun _ => false) _
      (byDepthDesc_pairwise _) (fs, []) (fun f p' hsub => rfl) p
      (byDepthDesc_mem _ p hp (by have := dirKeysUnder_strict fs root p hp; omega))
      rfl

/-- Concrete symlink-free tree used by the C6 witness. -/
def c6fs : Fs := [(["r"], .dir), (["r", "a"], .dir), (["r", "q"], .dir)]

theorem c6fs_noSymlinks : NoSymlinks c6fs := by
  intro kv hmem t
  simp only [c6fs, List.mem_cons, List.not_mem_nil, or_false] at hmem
  rcases hmem with rfl | rfl | rfl <;> simp

/-- Witness for the amended C6, on a small symlink-free tree with a protected
quarantine directory. -/
theorem C6_witness :
    (∀ k ∈ [(["r", "q"] : FPath)],
      lookupE (Dedup.remove_empty_dirs c6fs ["r"] [["r", "q"]]).1 k = lookupE c6fs k ∧
      k ∉ (Dedup.remove_empty_dirs c6fs ["r"] [["r", "q"]]).2) ∧
    (lookupE (Dedup.remove_empty_dirs c6fs ["r"] [["r", "q"]]).1 ["r"]
        = lookupE c6fs ["r"] ∧
      ["r"] ∉ (Dedup.remove_empty_dirs c6fs ["r"] [["r", "q"]]).2) ∧
    (∀ x ∈ (Dedup.remove_empty_dirs c6fs ["r"] [["r", "q"]]).2,
      x ∈ dirKeysUnder c6fs ["r"]) ∧
    (∀ p ∈ dirKeysUnder c6fs ["r"], p ∉ [(["r", "q"] : FPath)] →
      lookupE (Dedup.remove_empty_dirs c6fs ["r"] [["r", "q"]]).1 p = some Entry.dir →
      hasChild (Dedup.remove_empty_dirs c6fs ["r"] [["r", "q"]]).1 p = true) ∧
    (lookupE (MoveUnique.remove_empty_dirs c6fs ["r"]).1 ["r"]
        = lookupE c6fs ["r"] ∧
      ["r"] ∉ (MoveUnique.remove_empty_dirs c6fs ["r"]).2) ∧
    (∀ x ∈ (MoveUnique.remove_empty_dirs c6fs ["r"]).2,
      x ∈ dirKeysUnder c6fs ["r"]) ∧
    (∀ p ∈ dirKeysUnder c6fs ["r"],
      lookupE (MoveUnique.remove_empty_dirs c6fs ["r"]).1 p = some Entry.dir →
      hasChild (MoveUnique.remove_empty_dirs c6fs ["r"]).1 p = true) :=
  C6_reclamation_scope c6fs ["r"] [["r", "q"]] c6fs_noSymlinks

/-! ## Injectivity of the decimal representation used by `candName` -/

/-- Parse decimal digit characters onto an accumulator. -/
def parseD (a : Nat) (cs : List Char) : Nat :=
  cs.foldl (fun a c => a * 10 + (c.toNat - 48)) a

/-- The numeric effect of prepending the decimal digits of `n` before the
remaining input, mirroring `Nat.toDigitsCore`. -/
def pushNum (a n : Nat) : Nat :=
  if n / 10 = 0 then a * 10 + n % 10
  else pushNum a (n / 10) * 10 + n % 10
termination_by n
decreasing_by omega

theorem digitChar_toNat (d : Nat) (h : d < 10) : (Nat.digitChar d).toNat = 48 + d := by
  interval_cases d <;> decide

theorem parseD_cons (a : Nat) (c : Char) (cs : List Char) :
    parseD a (c :: cs) = parseD (a * 10 + (c.toNat - 48)) cs := rfl

theorem parseD_toDigitsCore (fuel : Nat) :
    ∀ n a ds, n < fuel →
      parseD a (Nat.toDigitsCore 10 fuel n ds) = parseD (pushNum a n) ds := by
  induction fuel with
  | zero => intro n a ds h; omega
  | succ f ih =>
    intro n a ds h
    simp only [Nat.toDigitsCore]
    by_cases h0 : n / 10 = 0
    · rw [if_pos h0, parseD_cons,
        digitChar_toNat (n % 10) (Nat.mod_lt n (by omega)),
        show pushNum a n = a * 10 + n % 10 from by rw [pushNum, if_pos h0]]
      congr 2
      omega
    · rw [if_neg h0, ih (n / 10) a (Nat.digitChar (n % 10) :: ds) (by omega),
        parseD_cons, digitChar_toNat (n % 10) (Nat.mod_lt n (by omega)),
        show pushNum a n = pushNum a (n / 10) * 10 + n % 10 from by
          rw [pushNum, if_neg h0]]
      congr 2
      omega

theorem pushNum_zero (n : Nat) : pushNum 0 n = n := by
  induction n using Nat.strong_induction_on with
  | _ n ih =>
    rw [pushNum]
    by_cases h : n / 10 = 0
    · rw [if_pos h]; omega
    · rw [if_neg h, ih (n / 10) (by omega)]
      omega

theorem parseD_repr (n : Nat) : parseD 0 (Nat.toDigits 10 n) = n := by
  rw [Nat.toDigits, parseD_toDigitsCore (n + 1) n 0 [] (Nat.lt_succ_self n)]
  exact pushNum_zero n

theorem natRepr_inj {m n : Nat} (h : Nat.repr m = Nat.repr n) : m = n := by
  rw [Nat.repr, Nat.repr] at h
  have hdata : Nat.toDigits 10 m = Nat.toDigits 10 n := by
    have := congrArg String.data h
    simpa [List.asString] using this
  have hp := congrArg (parseD 0) hdata
  rwa [parseD_repr, parseD_repr] at hp

theorem candName_inj (stem suffix : String) {m n : Nat}
    (h : candName stem suffix m = candName stem suffix n) : m = n := by
  rw [candName, candName] at h
  have hd := congrArg String.data h
  simp only [String.data_append, List.append_assoc] at hd
  have h1 := List.append_cancel_left hd
  have h2 := List.append_cancel_left h1
  rw [← List.append_assoc, ← List.append_assoc] at h2
  have h3 := List.append_cancel_right h2
  have h4 := List.append_cancel_right h3
  exact natRepr_inj (String.ext h4)

/-! ## The disambiguation search always succeeds -/

theorem pathExists_mem_keys {fs : Fs} {q : FPath} (h : pathExists fs q = true) :
    q ∈ keysOf fs := by
  by_contra hq
  have hnone : lookupE fs q = none := lookupE_eq_none_iff.mpr hq
  rw [pathExists, statE, resolveP, chaseLink, hnone] at h
  dsimp only at h
  rw [hnone] at h
  cases h

/-- The candidate index list 1, 2, …, L of the disambiguation search. -/
def upList (L : Nat) : List Nat := (List.range L).map (fun i => i + 1)

theorem upList_pairwise (L : Nat) : (upList L).Pairwise (· < ·) :=
  (List.pairwise_lt_range L).map _ (fun h => by omega)

theorem upList_nodup (L : Nat) : (upList L).Nodup :=
  (List.nodup_range L).map (fun a b h => by omega)

theorem mem_upList {L m : Nat} : m ∈ upList L ↔ 1 ≤ m ∧ m ≤ L := by
  rw [upList, List.mem_map]
  constructor
  · rintro ⟨i, hi, rfl⟩
    rw [List.mem_range] at hi
    omega
  · rintro ⟨h1, h2⟩
    exact ⟨m - 1, List.mem_range.mpr (by omega), by omega⟩

theorem upList_length (L : Nat) : (upList L).length = L := by
  rw [upList, List.length_map, List.length_range]

theorem find?_decompose {α : Type} (p : α → Bool) :
    ∀ (l : List α) (x : α), l.find? p = some x →
      ∃ l1 l2, l = l1 ++ x :: l2 ∧ (∀ y ∈ l1, p y = false) ∧ p x = true := by
  intro l
  induction l with
  | nil => intro x h; cases h
  | cons a l ih =>
    intro x h
    by_cases ha : p a = true
    · rw [List.find?_cons_of_pos _ ha] at h
      have hax : a = x := by injection h
      subst hax
      exact ⟨[], l, rfl, fun y hy => absurd hy (List.not_mem_nil y), ha⟩
    · rw [List.find?_cons_of_neg _ (by simpa using ha)] at h
      obtain ⟨l1, l2, hl, hl1, hx⟩ := ih x h
      refine ⟨a :: l1, l2, by rw [hl]; rfl, ?_, hx⟩
      intro y hy
      rcases List.mem_cons.mp hy with rfl | hy2
      · cases hpa : p y
        · rfl
        · exact absurd hpa ha
      · exact hl1 y hy2

theorem find?_upList_min (L : Nat) (pred : Nat → Bool) (n : Nat)
    (h : (upList L).find? pred = some n) :
    pred n = true ∧ 1 ≤ n ∧ n ≤ L ∧ ∀ m, 1 ≤ m → m < n → pred m = false := by
  obtain ⟨l1, l2, hl, hl1, hx⟩ := find?_decompose pred (upList L) n h
  have hmem : n ∈ upList L := by
    rw [hl]
    exact List.mem_append.mpr (Or.inr (List.mem_cons_self _ _))
  obtain ⟨hn1, hn2⟩ := mem_upList.mp hmem
  refine ⟨hx, hn1, hn2, ?_⟩
  intro m hm1 hm2
  have hmm : m ∈ upList L := mem_upList.mpr ⟨hm1, by omega⟩
  have hpw := upList_pairwise L
  rw [hl, List.pairwise_append] at hpw
  have hml1 : m ∈ l1 := by
    rw [hl] at hmm
    rcases List.mem_append.mp hmm with h1 | h2
    · exact h1
    · rcases List.mem_cons.mp h2 with rfl | h3
      · omega
      · have := (List.pairwise_cons.mp hpw.2.1).1 m h3
        omega
  exact hl1 m hml1

/-- Pigeonhole: among `fs.length + 1` distinct disambiguated candidates at
least one does not exist, so the bounded search of both unique-destination
functions always finds one. -/
theorem cand_search_isSome (fs : Fs) (parent : FPath) (stem suffix : String) :
    ((upList (fs.length + 1)).find?
      (fun n => !(pathExists fs (parent ++ [candName stem suffix n])))).isSome = true := by
  cases hfind : (upList (fs.length + 1)).find?
      (fun n => !(pathExists fs (parent ++ [candName stem suffix n]))) with
  | some n => rfl
  | none =>
    exfalso
    have hall : ∀ n ∈ upList (fs.length + 1),
        pathExists fs (parent ++ [candName stem suffix n]) = true := by
      intro n hn
      have := List.find?_eq_none.mp hfind n hn
      cases hpe : pathExists fs (parent ++ [candName stem suffix n])
      · exact absurd (by rw [hpe]; rfl) this
      · rfl
    have hinj : Function.Injective (fun n => parent ++ [candName stem suffix n]) := by
      intro a b hab
      dsimp only at hab
      have := List.append_cancel_left hab
      have hcn : candName stem suffix a = candName stem suffix b := by
        injection this with h1 _
      exact candName_inj stem suffix hcn
    have hnodup : ((upList (fs.length + 1)).map
        (fun n => parent ++ [candName stem suffix n])).Nodup :=
      (upList_nodup _).map hinj
    have hsub : ∀ x ∈ (upList (fs.length + 1)).map
        (fun n => parent ++ [candName stem suffix n]), x ∈ keysOf fs := by
      intro x hx
      obtain ⟨n, hn, rfl⟩ := List.mem_map.mp hx
      exact pathExists_mem_keys (hall n hn)
    have hle : ((upList (fs.length + 1)).map
        (fun n => parent ++ [candName stem suffix n])).length ≤ (keysOf fs).length := by
      calc ((upList (fs.length + 1)).map
            (fun n => parent ++ [candName stem suffix n])).length
          = ((upList (fs.length + 1)).map
            (fun n => parent ++ [candName stem suffix n])).toFinset.card :=
            (List.toFinset_card_of_nodup hnodup).symm
        _ ≤ (keysOf fs).toFinset.card := Finset.card_le_card
            (fun x hx => List.mem_toFinset.mpr (hsub x (List.mem_toFinset.mp hx)))
        _ ≤ (keysOf fs).length := (keysOf fs).toFinset_card_le
    rw [List.length_map, upList_length] at hle
    have : (keysOf fs).length = fs.length := List.length_map _ _
    omega

theorem unique_destination_path_spec (fs : Fs) (d : FPath) :
    pathExists fs (MoveUnique.unique_destination_path fs d) = false ∧
    (pathExists fs d = false → MoveUnique.unique_destination_path fs d = d) ∧
    (pathExists fs d = true →
      ∃ n, 1 ≤ n ∧
        MoveUnique.unique_destination_path fs d = d.dropLast ++
          [candName (splitStemSuffix (d.getLastD "")).1
            (splitStemSuffix (d.getLastD "")).2 n] ∧
        ∀ m, 1 ≤ m → m < n →
          pathExists fs (d.dropLast ++
            [candName (splitStemSuffix (d.getLastD "")).1
              (splitStemSuffix (d.getLastD "")).2 m]) = true) := by
  by_cases hex : pathExists fs d = true
  · rw [MoveUnique.unique_destination_path, if_neg (by rw [hex]; simp)]
    dsimp only
    cases hfind : ((List.range (fs.length + 1)).map (fun i => i + 1)).find?
        (fun n => !(pathExists fs (d.dropLast ++
          [candName (splitStemSuffix (d.getLastD "")).1
            (splitStemSuffix (d.getLastD "")).2 n]))) with
    | none =>
      exfalso
      have hs := cand_search_isSome fs d.dropLast
        (splitStemSuffix (d.getLastD "")).1 (splitStemSuffix (d.getLastD "")).2
      rw [show (upList (fs.length + 1)).find?
          (fun n => !(pathExists fs (d.dropLast ++
            [candName (splitStemSuffix (d.getLastD "")).1
              (splitStemSuffix (d.getLastD "")).2 n]))) =
          ((List.range (fs.length + 1)).map (fun i => i + 1)).find?
          (fun n => !(pathExists fs (d.dropLast ++
            [candName (splitStemSuffix (d.getLastD "")).1
              (splitStemSuffix (d.getLastD "")).2 n]))) from rfl, hfind] at hs
      cases hs
    | some n =>
      obtain ⟨hpred, hn1, _, hmin⟩ := find?_upList_min (fs.length + 1) _ n hfind
      refine ⟨?_, fun hfree => absurd hex (by rw [hfree]; simp), ?_⟩
      · cases hpe : pathExists fs (d.dropLast ++
            [candName (splitStemSuffix (d.getLastD "")).1
              (splitStemSuffix (d.getLastD "")).2 n])
        · rfl
        · rw [hpe] at hpred; cases hpred
      · intro _
        refine ⟨n, hn1, rfl, ?_⟩
        intro m hm1 hm2
        have := hmin m hm1 hm2
        cases hpe : pathExists fs (d.dropLast ++
            [candName (splitStemSuffix (d.getLastD "")).1
              (splitStemSuffix (d.getLastD "")).2 m])
        · rw [hpe] at this; cases this
        · rfl
  · have hfree : pathExists fs d = false := by
      cases hpe : pathExists fs d
      · rfl
      · exact absurd hpe hex
    rw [MoveUnique.unique_destination_path, if_pos (by rw [hfree]; rfl)]
    exact ⟨hfree, fun _ => rfl, fun hocc => absurd hocc hex⟩

theorem unique_destinationA_spec (fs : Fs) (base_dir : FPath) (filename : String) :
    pathExists fs (Dedup.unique_destination fs base_dir filename) = false ∧
    (pathExists fs (base_dir ++ [filename]) = false →
      Dedup.unique_destination fs base_dir filename = base_dir ++ [filename]) ∧
    (pathExists fs (base_dir ++ [filename]) = true →
      ∃ n, 1 ≤ n ∧
        Dedup.unique_destination fs base_dir filename = base_dir ++
          [candName (splitStemSuffix filename).1 (splitStemSuffix filename).2 n] ∧
        ∀ m, 1 ≤ m → m < n →
          pathExists fs (base_dir ++
            [candName (splitStemSuffix filename).1
              (splitStemSuffix filename).2 m]) = true) := by
  by_cases hex : pathExists fs (base_dir ++ [filename]) = true
  · rw [Dedup.unique_destination, if_neg (by rw [hex]; simp)]
    dsimp only
    cases hfind : ((List.range (fs.length + 1)).map (fun i => i + 1)).find?
        (fun i => !(pathExists fs (base_dir ++
          [candName (splitStemSuffix filename).1
            (splitStemSuffix filename).2 i]))) with
    | none =>
      exfalso
      have hs := cand_search_isSome fs base_dir
        (splitStemSuffix filename).1 (splitStemSuffix filename).2
      rw [show (upList (fs.length + 1)).find?
          (fun i => !(pathExists fs (base_dir ++
            [candName (splitStemSuffix filename).1
              (splitStemSuffix filename).2 i]))) =
          ((List.range (fs.length + 1)).map (fun i => i + 1)).find?
          (fun i => !(pathExists fs (base_dir ++
            [candName (splitStemSuffix filename).1
              (splitStemSuffix filename).2 i]))) from rfl, hfind] at hs
      cases hs
    | some n =>
      obtain ⟨hpred, hn1, _, hmin⟩ := find?_upList_min (fs.length + 1) _ n hfind
      refine ⟨?_, fun hfree => absurd hex (by rw [hfree]; simp), ?_⟩
      · cases hpe : pathExists fs (base_dir ++
            [candName (splitStemSuffix filename).1 (splitStemSuffix filename).2 n])
        · rfl
        · rw [hpe] at hpred; cases hpred
      · intro _
        refine ⟨n, hn1, rfl, ?_⟩
        intro m hm1 hm2
        have := hmin m hm1 hm2
        cases hpe : pathExists fs (base_dir ++
            [candName (splitStemSuffix filename).1 (splitStemSuffix filename).2 m])
        · rw [hpe] at this; cases this
        · rfl
  · have hfree : pathExists fs (base_dir ++ [filename]) = false := by
      cases hpe : pathExists fs (base_dir ++ [filename])
      · rfl
      · exact absurd hpe hex
    rw [Dedup.unique_destination, if_pos (by rw [hfree]; rfl)]
    exact ⟨hfree, fun _ => rfl, fun hocc => absurd hocc hex⟩

/-- C3 (amended): each single destination computation is collision-safe at
the moment it is made — it returns a path that does not exist then, the base
destination itself when free, and otherwise the disambiguated name with the
smallest unused integer n ≥ 1 appended before the extension (all smaller
indices being occupied), in both pipelines.  Batch-level safety however fails:
existence is only checked at planning time, so two computed destinations can
coincide and the later executed move then silently replaces the earlier file,
as the C3 counterexample shows. -/
theorem C3_plan_time_disambiguation (fs : Fs) (d base_dir : FPath)
    (filename : String) :
    (pathExists fs (MoveUnique.unique_destination_path fs d) = false ∧
     (pathExists fs d = false → MoveUnique.unique_destination_path fs d = d) ∧
     (pathExists fs d = true →
       ∃ n, 1 ≤ n ∧
         MoveUnique.unique_destination_path fs d = d.dropLast ++
           [candName (splitStemSuffix (d.getLastD "")).1
             (splitStemSuffix (d.getLastD "")).2 n] ∧
         ∀ m, 1 ≤ m → m < n →
           pathExists fs (d.dropLast ++
             [candName (splitStemSuffix (d.getLastD "")).1
               (splitStemSuffix (d.getLastD "")).2 m]) = true)) ∧
    (pathExists fs (Dedup.unique_destination fs base_dir filename) = false ∧
     (pathExists fs (base_dir ++ [filename]) = false →
       Dedup.unique_destination fs base_dir filename = base_dir ++ [filename]) ∧
     (pathExists fs (base_dir ++ [filename]) = true →
       ∃ n, 1 ≤ n ∧
         Dedup.unique_destination fs base_dir filename = base_dir ++
           [candName (splitStemSuffix filename).1 (splitStemSuffix filename).2 n] ∧
         ∀ m, 1 ≤ m → m < n →
           pathExists fs (base_dir ++
             [candName (splitStemSuffix filename).1
               (splitStemSuffix filename).2 m]) = true)) :=
  ⟨unique_destination_path_spec fs d, unique_destinationA_spec fs base_dir filename⟩

/-- Witness for the amended C3: with `d/a.txt` occupied, the computed
destination is `d/a (1).txt`, which does not exist at computation time. -/
theorem C3_witness :
    MoveUnique.unique_destination_path
      [(["d"], Entry.dir), (["d", "a.txt"], Entry.file "X" 0)] ["d", "a.txt"]
      = ["d", "a (1).txt"] ∧
    pathExists [(["d"], Entry.dir), (["d", "a.txt"], Entry.file "X" 0)]
      (MoveUnique.unique_destination_path
        [(["d"], Entry.dir), (["d", "a.txt"], Entry.file "X" 0)] ["d", "a.txt"])
      = false ∧
    Dedup.unique_destination
      [(["d"], Entry.dir), (["d", "a.txt"], Entry.file "X" 0)] ["d"] "a.txt"
      = ["d", "a (1).txt"] :=
  ⟨by decide,
   (C3_plan_time_disambiguation
     [(["d"], Entry.dir), (["d", "a.txt"], Entry.file "X" 0)]
     ["d", "a.txt"] ["d"] "a.txt").1.1,
   by decide⟩

/-! ## Pipeline A idempotence: supporting development -/

theorem eraseKey_of_not_mem (fs : Fs) (p : FPath) (h : p ∉ keysOf fs) :
    eraseKey fs p = fs := by
  rw [eraseKey]
  refine List.filter_eq_self.mpr ?_
  intro kv hkv
  have hne : kv.1 ≠ p := by
    intro he
    exact h (by rw [keysOf]; exact he ▸ List.mem_map_of_mem Prod.fst hkv)
  simp [hne]

theorem mem_lookupE_of_nodup (fs : Fs) (p : FPath) (e : Entry)
    (hnd : (keysOf fs).Nodup) (hm : (p, e) ∈ fs) : lookupE fs p = some e := by
  induction fs with
  | nil => cases hm
  | cons kv t ih =>
    rw [keysOf, List.map_cons, List.nodup_cons] at hnd
    rcases List.mem_cons.mp hm with he | hm2
    · rw [← he, lookupE_cons, if_pos rfl]
    · rw [lookupE_cons]
      by_cases he : kv.1 = p
      · exact absurd (he.symm ▸ List.mem_map_of_mem Prod.fst hm2) hnd.1
      · rw [if_neg he]
        exact ih hnd.2 hm2

theorem lookupE_append_of_none (D f : Fs) (q : FPath) (h : lookupE D q = none) :
    lookupE (D ++ f) q = lookupE f q := by
  induction D with
  | nil => rw [List.nil_append]
  | cons kv t ih =>
    rw [lookupE_cons] at h
    by_cases hq : kv.1 = q
    · rw [if_pos hq] at h; cases h
    · rw [if_neg hq] at h
      rw [List.cons_append, lookupE_cons, if_neg hq]
      exact ih h

theorem lookupE_append_left (D f : Fs) (q : FPath) (e : Entry)
    (h : lookupE D q = some e) : lookupE (D ++ f) q = some e := by
  induction D with
  | nil => cases h
  | cons kv t ih =>
    rw [lookupE_cons] at h
    rw [List.cons_append, lookupE_cons]
    by_cases hq : kv.1 = q
    · rw [if_pos hq] at h ⊢; exact h
    · rw [if_neg hq] at h ⊢; exact ih h

theorem lookupE_append_none_right (D f : Fs) (q : FPath)
    (h : lookupE (D ++ f) q = none) : lookupE f q = none := by
  cases hf : lookupE f q with
  | none => rfl
  | some e =>
    cases hD : lookupE D q with
    | none => rw [lookupE_append_of_none D f q hD, hf] at h; cases h
    | some e2 => rw [lookupE_append_left D f q e2 hD] at h; cases h

theorem keysOf_eraseKey_nodup (fs : Fs) (p : FPath) (h : (keysOf fs).Nodup) :
    (keysOf (eraseKey fs p)).Nodup :=
  h.sublist ((List.filter_sublist fs).map Prod.fst)

theorem isPrefixOf_iff (a b : FPath) : a.isPrefixOf b = true ↔ a <+: b :=
  List.isPrefixOf_iff_prefix

theorem isPrefixOf_false_iff (a b : FPath) : a.isPrefixOf b = false ↔ ¬a <+: b := by
  rw [← isPrefixOf_iff]
  cases a.isPrefixOf b <;> simp

theorem strictUnder_iff (root p : FPath) :
    strictUnder root p = true ↔ root <+: p ∧ root.length < p.length := by
  rw [strictUnder, Bool.and_eq_true, decide_eq_true_iff, isPrefixOf_iff]

theorem prefix_append_cancel {a b c : FPath} (h : a ++ b <+: a ++ c) : b <+: c := by
  obtain ⟨t, ht⟩ := h
  rw [List.append_assoc] at ht
  exact ⟨t, List.append_cancel_left ht⟩

theorem eq_append_drop {root q : FPath} (h : root <+: q) :
    q = root ++ q.drop root.length := by
  have h1 := (List.prefix_iff_eq_take.mp h).symm
  calc q = q.take root.length ++ q.drop root.length := (List.take_append_drop _ _).symm
  _ = root ++ q.drop root.length := by rw [h1]

theorem prefix_lt_of_ne {a b : FPath} (h : a <+: b) (hne : a ≠ b) :
    a.length < b.length := by
  rcases Nat.lt_or_ge a.length b.length with h1 | h1
  · exact h1
  · exact absurd (List.IsPrefix.eq_of_length_le h h1) hne

theorem drop_inj_of_shared_root {root p q : FPath} (hp : root <+: p) (hq : root <+: q)
    (h : p.drop root.length = q.drop root.length) : p = q := by
  rw [eq_append_drop hp, eq_append_drop hq, h]

theorem statE_of_noSymlinks {f : Fs} (h : NoSymlinks f) (p : FPath) :
    statE f p = lookupE f p := by
  rw [statE, resolveP_id_of_noSymlinks h]

theorem isFileF_iff_lookup {f : Fs} (h : NoSymlinks f) (p : FPath) :
    isFileF f p = true ↔ ∃ c m, lookupE f p = some (Entry.file c m) := by
  rw [isFileF, statE_of_noSymlinks h]
  cases hl : lookupE f p with
  | none => simp
  | some e => cases e <;> simp

theorem isDirF_eq_dir {f : Fs} (h : NoSymlinks f) {p : FPath}
    (hl : lookupE f p = some Entry.dir) : isDirF f p = true := by
  rw [isDirF, statE_of_noSymlinks h, hl]

theorem isDirF_of_none {f : Fs} (h : NoSymlinks f) {p : FPath}
    (hl : lookupE f p = none) : isDirF f p = false := by
  rw [isDirF, statE_of_noSymlinks h, hl]

theorem pathExists_of_none {f : Fs} (h : NoSymlinks f) {p : FPath}
    (hl : lookupE f p = none) : pathExists f p = false := by
  rw [pathExists, statE_of_noSymlinks h, hl]
  rfl

/-- Directory-tree shape of the model: every proper nonempty prefix of a key
is a directory key. -/
def WfDirs (f : Fs) : Prop :=
  ∀ k ∈ keysOf f, ∀ n, 0 < n → n < k.length → lookupE f (k.take n) = some Entry.dir

/-- The situation at the start of pipeline A's scanning phase in apply mode:
a symlink-free well-formed tree whose root and quarantine directory exist and
with nothing else at or below the quarantine. -/
def PlanCtx (B : Fs) (root dup : FPath) : Prop :=
  NoSymlinks B ∧ (keysOf B).Nodup ∧ WfDirs B ∧
  lookupE B root = some Entry.dir ∧ lookupE B dup = some Entry.dir ∧
  dup = root ++ ["Duplikáty"] ∧
  ∀ k ∈ keysOf B, dup <+: k → k = dup

theorem ancestorsAreDirs_of_wf {B : Fs} (hwf : WfDirs B) {root p : FPath}
    (hp : p ∈ keysOf B) : ancestorsAreDirs B root p = true := by
  rw [ancestorsAreDirs, List.all_eq_true]
  intro n hn
  rw [List.mem_range] at hn
  by_cases h0 : n ≤ root.length
  · simp [h0]
  · rw [Bool.or_eq_true]
    refine Or.inr ?_
    rw [hwf p hp n (by omega) hn]

theorem collect_mem_iff (B : Fs) (root dup : FPath) (hns : NoSymlinks B)
    (hwf : WfDirs B) (p : FPath) :
    p ∈ Dedup.collect_files B root dup ↔
      (∃ c m, lookupE B p = some (Entry.file c m)) ∧ root <+: p ∧
        root.length < p.length ∧ ¬dup <+: p := by
  rw [Dedup.collect_files, List.mem_filter]
  constructor
  · rintro ⟨hk, hpred⟩
    rw [Bool.and_eq_true, Bool.and_eq_true, Bool.and_eq_true] at hpred
    obtain ⟨⟨⟨hsu, hdp⟩, _⟩, hfile⟩ := hpred
    rw [strictUnder_iff] at hsu
    refine ⟨(isFileF_iff_lookup hns p).mp hfile, hsu.1, hsu.2, ?_⟩
    rw [Bool.not_eq_true'] at hdp
    exact (isPrefixOf_false_iff dup p).mp hdp
  · rintro ⟨⟨c, m, hl⟩, hpre, hlen, hdp⟩
    have hk : p ∈ keysOf B := by
      rw [← lookupE_isSome_iff_mem, hl]
      rfl
    refine ⟨hk, ?_⟩
    rw [Bool.and_eq_true, Bool.and_eq_true, Bool.and_eq_true]
    refine ⟨⟨⟨?_, ?_⟩, ancestorsAreDirs_of_wf hwf hk⟩, ?_⟩
    · rw [strictUnder_iff]; exact ⟨hpre, hlen⟩
    · rw [Bool.not_eq_true', isPrefixOf_false_iff]
      exact hdp
    · rw [isFileF_iff_lookup hns]
      exact ⟨c, m, hl⟩

theorem collect_nodup (B : Fs) (root dup : FPath) (hnd : (keysOf B).Nodup) :
    (Dedup.collect_files B root dup).Nodup := hnd.filter _

theorem collect_not_nested (B : Fs) (root dup : FPath) (hns : NoSymlinks B)
    (hwf : WfDirs B) :
    ∀ p ∈ Dedup.collect_files B root dup, ∀ q ∈ Dedup.collect_files B root dup,
      p ≠ q → ¬p <+: q := by
  intro p hp q hq hne hpre
  obtain ⟨⟨c, m, hlp⟩, hrp, hlenp, _⟩ := (collect_mem_iff B root dup hns hwf p).mp hp
  obtain ⟨⟨c2, m2, hlq⟩, hrq, hlenq, _⟩ := (collect_mem_iff B root dup hns hwf q).mp hq
  have hqk : q ∈ keysOf B := by
    rw [← lookupE_isSome_iff_mem, hlq]
    rfl
  have hlt : p.length < q.length := prefix_lt_of_ne hpre hne
  have hdir := hwf q hqk p.length (by omega) hlt
  rw [(List.prefix_iff_eq_take.mp hpre).symm] at hdir
  rw [hlp] at hdir
  cases hdir

theorem collect_sha (B : Fs) (root dup : FPath) (hns : NoSymlinks B)
    {p : FPath} {c : String} {m : ℚ} (hl : lookupE B p = some (Entry.file c m)) :
    Dedup.sha256_of_file B p = some c := by
  rw [Dedup.sha256_of_file, statE_of_noSymlinks hns, hl]

/-- One step of the `by_hash` grouping loop. -/
def groupStep (B : Fs) (acc : List (String × List FPath)) (p : FPath) :
    List (String × List FPath) :=
  match Dedup.sha256_of_file B p with
  | none => acc
  | some c => Dedup.addGroup acc c p

theorem group_by_hash_eq_foldl (B : Fs) (files : List FPath) :
    Dedup.group_by_hash B files = files.foldl (groupStep B) [] := rfl

theorem addGroup_cons_eq (c' : String) (ps : List FPath)
    (rest : List (String × List FPath)) (c : String) (p : FPath) :
    Dedup.addGroup ((c', ps) :: rest) c p =
      if c' = c then (c', ps ++ [p]) :: rest
      else (c', ps) :: Dedup.addGroup rest c p := by
  rw [Dedup.addGroup]
  by_cases h : c' = c
  · rw [if_pos (beq_iff_eq.mpr h), if_pos h]
  · rw [if_neg (fun hbe => h (beq_iff_eq.mp hbe)), if_neg h]

theorem addGroup_map_fst (acc : List (String × List FPath)) (c : String) (p : FPath) :
    (Dedup.addGroup acc c p).map Prod.fst =
      if c ∈ acc.map Prod.fst then acc.map Prod.fst
      else acc.map Prod.fst ++ [c] := by
  induction acc with
  | nil => simp [Dedup.addGroup]
  | cons g0 rest ih =>
    obtain ⟨c', ps⟩ := g0
    by_cases h : c' = c
    · rw [List.map_cons, addGroup_cons_eq, if_pos h, List.map_cons,
        if_pos (List.mem_cons.mpr (Or.inl h.symm))]
    · by_cases hm : c ∈ List.map Prod.fst rest
      · rw [List.map_cons, addGroup_cons_eq, if_neg h, List.map_cons, ih,
          if_pos hm, if_pos (List.mem_cons.mpr (Or.inr hm))]
      · rw [List.map_cons, addGroup_cons_eq, if_neg h, List.map_cons, ih,
          if_neg hm, if_neg ?_, List.cons_append]
        intro hc
        rcases List.mem_cons.mp hc with he | hm2
        · exact h he.symm
        · exact hm hm2

theorem addGroup_mem {acc : List (String × List FPath)} {c : String} {p : FPath}
    {g : String × List FPath} (hg : g ∈ Dedup.addGroup acc c p) :
    g ∈ acc ∨ g = (c, [p]) ∨ ∃ ps, (c, ps) ∈ acc ∧ g = (c, ps ++ [p]) := by
  induction acc with
  | nil =>
    rw [Dedup.addGroup] at hg
    exact Or.inr (Or.inl (List.mem_singleton.mp hg))
  | cons g0 rest ih =>
    obtain ⟨c', ps⟩ := g0
    rw [addGroup_cons_eq] at hg
    by_cases h : c' = c
    · rw [if_pos h] at hg
      rcases List.mem_cons.mp hg with he | hm
      · subst h
        exact Or.inr (Or.inr ⟨ps, List.mem_cons_self _ _, he⟩)
      · exact Or.inl (List.mem_cons_of_mem _ hm)
    · rw [if_neg h] at hg
      rcases List.mem_cons.mp hg with he | hm
      · exact Or.inl (List.mem_cons.mpr (Or.inl he))
      · rcases ih hm with h1 | h2 | ⟨ps2, hmem, he2⟩
        · exact Or.inl (List.mem_cons_of_mem _ h1)
        · exact Or.inr (Or.inl h2)
        · exact Or.inr (Or.inr ⟨ps2, List.mem_cons_of_mem _ hmem, he2⟩)

theorem addGroup_self_mem (acc : List (String × List FPath)) (c : String) (p : FPath) :
    ∃ g ∈ Dedup.addGroup acc c p, g.1 = c ∧ p ∈ g.2 := by
  induction acc with
  | nil =>
    refine ⟨(c, [p]), ?_, rfl, List.mem_singleton.mpr rfl⟩
    rw [Dedup.addGroup]
    exact List.mem_singleton.mpr rfl
  | cons g0 rest ih =>
    obtain ⟨c', ps⟩ := g0
    rw [addGroup_cons_eq]
    by_cases h : c' = c
    · rw [if_pos h]
      exact ⟨(c', ps ++ [p]), List.mem_cons_self _ _, h,
        List.mem_append.mpr (Or.inr (List.mem_singleton.mpr rfl))⟩
    · rw [if_neg h]
      obtain ⟨g, hg, h1, h2⟩ := ih
      exact ⟨g, List.mem_cons_of_mem _ hg, h1, h2⟩

theorem addGroup_mono {acc : List (String × List FPath)} (c : String) (p : FPath)
    {q : FPath} {d : String} (h : ∃ g ∈ acc, g.1 = d ∧ q ∈ g.2) :
    ∃ g ∈ Dedup.addGroup acc c p, g.1 = d ∧ q ∈ g.2 := by
  induction acc with
  | nil =>
    obtain ⟨g, hg, _⟩ := h
    cases hg
  | cons g0 rest ih =>
    obtain ⟨c', ps⟩ := g0
    rw [addGroup_cons_eq]
    obtain ⟨g, hg, h1, h2⟩ := h
    by_cases hc : c' = c
    · rw [if_pos hc]
      rcases List.mem_cons.mp hg with he | hm
      · refine ⟨(c', ps ++ [p]), List.mem_cons_self _ _, ?_, ?_⟩
        · rw [← h1, he]
        · rw [he] at h2
          exact List.mem_append.mpr (Or.inl h2)
      · exact ⟨g, List.mem_cons_of_mem _ hm, h1, h2⟩
    · rw [if_neg hc]
      rcases List.mem_cons.mp hg with he | hm
      · refine ⟨(c', ps), List.mem_cons_self _ _, ?_, ?_⟩
        · rw [← h1, he]
        · rw [he] at h2
          exact h2
      · obtain ⟨g2, hg2, hh1, hh2⟩ := ih ⟨g, hm, h1, h2⟩
        exact ⟨g2, List.mem_cons_of_mem _ hg2, hh1, hh2⟩

theorem group_fold_mono (B : Fs) (files : List FPath) {q : FPath} {d : String}
    (acc : List (String × List FPath)) (h : ∃ g ∈ acc, g.1 = d ∧ q ∈ g.2) :
    ∃ g ∈ files.foldl (groupStep B) acc, g.1 = d ∧ q ∈ g.2 := by
  refine foldlPreserves (groupStep B)
    (fun a => ∃ g ∈ a, g.1 = d ∧ q ∈ g.2) ?_ files acc h
  intro a p ha
  rw [groupStep]
  cases hs : Dedup.sha256_of_file B p with
  | none => exact ha
  | some c => exact addGroup_mono c p ha

theorem group_fold_inv (B : Fs) :
    ∀ (files : List FPath) (acc : List (String × List FPath)),
    (acc.map Prod.fst).Nodup →
    (∀ g ∈ acc, g.2 ≠ [] ∧ g.2.Nodup ∧
      ∀ p ∈ g.2, Dedup.sha256_of_file B p = some g.1) →
    (∀ p ∈ files, ∀ g ∈ acc, p ∉ g.2) →
    files.Nodup →
    (∀ p ∈ files, (Dedup.sha256_of_file B p).isSome = true) →
    ((files.foldl (groupStep B) acc).map Prod.fst).Nodup ∧
    (∀ g ∈ files.foldl (groupStep B) acc, g.2 ≠ [] ∧ g.2.Nodup ∧
      ∀ p ∈ g.2, Dedup.sha256_of_file B p = some g.1) ∧
    (∀ g ∈ files.foldl (groupStep B) acc, ∀ x ∈ g.2,
      x ∈ files ∨ ∃ g0 ∈ acc, x ∈ g0.2) ∧
    (∀ p ∈ files, ∀ c, Dedup.sha256_of_file B p = some c →
      ∃ g ∈ files.foldl (groupStep B) acc, g.1 = c ∧ p ∈ g.2) := by
  intro files
  induction files with
  | nil =>
    intro acc h1 h2 _ _ _
    exact ⟨h1, h2, fun g hg x hx => Or.inr ⟨g, hg, hx⟩,
      fun p hp => absurd hp (List.not_mem_nil p)⟩
  | cons p rest ih =>
    intro acc h1 h2 h3 h4 h5
    obtain ⟨c, hc⟩ : ∃ c, Dedup.sha256_of_file B p = some c := by
      have his := h5 p (List.mem_cons_self _ _)
      cases hs : Dedup.sha256_of_file B p with
      | none => rw [hs] at his; cases his
      | some c => exact ⟨c, rfl⟩
    have hstep : groupStep B acc p = Dedup.addGroup acc c p := by
      rw [groupStep, hc]
    rw [List.foldl_cons, hstep]
    set acc' := Dedup.addGroup acc c p with hacc'
    have h4r : rest.Nodup := (List.nodup_cons.mp h4).2
    have hpnr : p ∉ rest := (List.nodup_cons.mp h4).1
    have h1' : (acc'.map Prod.fst).Nodup := by
      rw [hacc', addGroup_map_fst]
      by_cases hm : c ∈ acc.map Prod.fst
      · rw [if_pos hm]; exact h1
      · rw [if_neg hm, List.nodup_append]
        exact ⟨h1, List.nodup_singleton c,
          fun a ha hb => hm ((List.mem_singleton.mp hb) ▸ ha)⟩
    have h2' : ∀ g ∈ acc', g.2 ≠ [] ∧ g.2.Nodup ∧
        ∀ x ∈ g.2, Dedup.sha256_of_file B x = some g.1 := by
      intro g hg
      rcases addGroup_mem (hacc' ▸ hg) with hold | hnew | ⟨ps, hmem, he⟩
      · exact h2 g hold
      · subst hnew
        refine ⟨by simp, List.nodup_singleton p, ?_⟩
        intro x hx
        rw [List.mem_singleton.mp hx]
        exact hc
      · subst he
        obtain ⟨hne0, hnd0, hsha0⟩ := h2 (c, ps) hmem
        refine ⟨by simp, ?_, ?_⟩
        · rw [List.nodup_append]
          refine ⟨hnd0, List.nodup_singleton p, ?_⟩
          intro a ha hb
          rw [List.mem_singleton.mp hb] at ha
          exact h3 p (List.mem_cons_self _ _) (c, ps) hmem ha
        · intro x hx
          rcases List.mem_append.mp hx with hx1 | hx1
          · exact hsha0 x hx1
          · rw [List.mem_singleton.mp hx1]
            exact hc
    have h3' : ∀ x ∈ rest, ∀ g ∈ acc', x ∉ g.2 := by
      intro x hx g hg hxg
      rcases addGroup_mem (hacc' ▸ hg) with hold | hnew | ⟨ps, hmem, he⟩
      · exact h3 x (List.mem_cons_of_mem _ hx) g hold hxg
      · rw [hnew] at hxg
        exact hpnr ((List.mem_singleton.mp hxg) ▸ hx)
      · rw [he] at hxg
        rcases List.mem_append.mp hxg with hx1 | hx1
        · exact h3 x (List.mem_cons_of_mem _ hx) (c, ps) hmem hx1
        · exact hpnr ((List.mem_singleton.mp hx1) ▸ hx)
    have h5r : ∀ x ∈ rest, (Dedup.sha256_of_file B x).isSome = true :=
      fun x hx => h5 x (List.mem_cons_of_mem _ hx)
    obtain ⟨c1, c2, c3, c4⟩ := ih acc' h1' h2' h3' h4r h5r
    refine ⟨c1, c2, ?_, ?_⟩
    · intro g hg x hx
      rcases c3 g hg x hx with h | ⟨g0, hg0, hxg0⟩
      · exact Or.inl (List.mem_cons_of_mem _ h)
      · rcases addGroup_mem (hacc' ▸ hg0) with hold | hnew | ⟨ps, hmem, he⟩
        · exact Or.inr ⟨g0, hold, hxg0⟩
        · rw [hnew] at hxg0
          exact Or.inl (List.mem_cons.mpr (Or.inl (List.mem_singleton.mp hxg0)))
        · rw [he] at hxg0
          rcases List.mem_append.mp hxg0 with hx1 | hx1
          · exact Or.inr ⟨(c, ps), hmem, hx1⟩
          · exact Or.inl (List.mem_cons.mpr (Or.inl (List.mem_singleton.mp hx1)))
    · intro x hx d hd
      rcases List.mem_cons.mp hx with rfl | hxr
      · rw [hc] at hd
        obtain ⟨g, hg, hg1, hg2⟩ := addGroup_self_mem acc c x
        refine group_fold_mono B rest acc' ⟨g, hacc' ▸ hg, ?_, hg2⟩
        rw [hg1]
        exact Option.some_inj.mp hd
      · exact c4 x hxr d hd

theorem group_props (B : Fs) (files : List FPath) (hnd : files.Nodup)
    (hsha : ∀ p ∈ files, (Dedup.sha256_of_file B p).isSome = true) :
    ((Dedup.group_by_hash B files).map Prod.fst).Nodup ∧
    (∀ g ∈ Dedup.group_by_hash B files, g.2 ≠ [] ∧ g.2.Nodup ∧
      ∀ p ∈ g.2, p ∈ files ∧ Dedup.sha256_of_file B p = some g.1) ∧
    (∀ p ∈ files, ∀ c, Dedup.sha256_of_file B p = some c →
      ∃ g ∈ Dedup.group_by_hash B files, g.1 = c ∧ p ∈ g.2) := by
  obtain ⟨c1, c2, c3, c4⟩ := group_fold_inv B files []
    List.nodup_nil (fun g hg => absurd hg (List.not_mem_nil g))
    (fun p _ g hg => absurd hg (List.not_mem_nil g)) hnd hsha
  rw [group_by_hash_eq_foldl]
  refine ⟨c1, ?_, c4⟩
  intro g hg
  obtain ⟨ha, hb, hcc⟩ := c2 g hg
  refine ⟨ha, hb, ?_⟩
  intro p hp
  rcases c3 g hg p hp with hm | ⟨g0, hg0, _⟩
  · exact ⟨hm, hcc p hp⟩
  · exact absurd hg0 (List.not_mem_nil g0)

theorem select_survivor_some_mem (st : FPath → Option ℚ) (p : FPath) (ps : List FPath) :
    ∃ w, Dedup.select_survivor st (p :: ps) = some w ∧ w ∈ p :: ps := by
  rw [Dedup.select_survivor_eq]
  by_cases hT : (Dedup.tiesOf st p ps).length > 1
  · rw [if_pos hT]
    cases hTe : Dedup.tiesOf st p ps with
    | nil => rw [hTe] at hT; simp at hT
    | cons t ts =>
      refine ⟨Dedup.minByKey t ts, rfl, ?_⟩
      have hmem : Dedup.minByKey t ts ∈ Dedup.tiesOf st p ps := by
        rw [hTe]
        exact Dedup.minByKey_mem t ts
      exact (List.mem_filter.mp hmem).1
  · rw [if_neg hT]
    exact ⟨_, rfl, Dedup.firstArgmax_mem _ p ps⟩

theorem noSymlinks_append {D f : Fs} (h1 : NoSymlinks D) (h2 : NoSymlinks f) :
    NoSymlinks (D ++ f) := fun kv hm t =>
  (List.mem_append.mp hm).elim (fun h => h1 kv h t) (fun h => h2 kv h t)

theorem mkdirChainAux_all_dirs {f : Fs} (hns : NoSymlinks f) (target : FPath) :
    ∀ n, (∀ m, 0 < m → m ≤ n → lookupE f (target.take m) = some Entry.dir) →
    mkdirChainAux f target n = (f, true) := by
  intro n
  induction n with
  | zero => intro _; rfl
  | succ n ih =>
    intro hdirs
    rw [mkdirChainAux, ih (fun m hm1 hm2 => hdirs m hm1 (by omega))]
    dsimp only
    rw [hdirs (n+1) (by omega) (le_refl _)]
    dsimp only
    rw [if_pos (isDirF_eq_dir hns (hdirs (n+1) (by omega) (le_refl _)))]

theorem mkdirChain_all_dirs {f : Fs} (hns : NoSymlinks f) (target : FPath)
    (hdirs : ∀ m, 0 < m → m ≤ target.length →
      lookupE f (target.take m) = some Entry.dir) :
    mkdirChain f target = (f, true) :=
  mkdirChainAux_all_dirs hns target target.length hdirs

theorem mkdirChainAux_creates {f : Fs} (hns : NoSymlinks f)
    (hnd : (keysOf f).Nodup) (target : FPath) :
    ∀ n, n ≤ target.length →
    (∀ m, 0 < m → m ≤ n →
      lookupE f (target.take m) = some Entry.dir ∨
        lookupE f (target.take m) = none) →
    ∃ D, mkdirChainAux f target n = (D ++ f, true) ∧
      NoSymlinks D ∧
      (∀ kv ∈ D, kv.2 = Entry.dir ∧ lookupE f kv.1 = none ∧
        ∃ m, 0 < m ∧ m ≤ n ∧ kv.1 = target.take m ∧ kv.1.length = m) ∧
      (keysOf (D ++ f)).Nodup ∧
      (∀ m, 0 < m → m ≤ n → lookupE (D ++ f) (target.take m) = some Entry.dir) := by
  intro n
  induction n with
  | zero =>
    intro _ _
    exact ⟨[], rfl, fun kv hm => absurd hm (List.not_mem_nil kv),
      fun kv hm => absurd hm (List.not_mem_nil kv), hnd,
      fun m hm1 hm2 => by omega⟩
  | succ n ih =>
    intro hle hcond
    obtain ⟨D, hD, hDns, hDprop, hDnd, hDall⟩ :=
      ih (by omega) (fun m hm1 hm2 => hcond m hm1 (by omega))
    rw [mkdirChainAux, hD]
    dsimp only
    have hklen : (target.take (n+1)).length = n + 1 := by
      rw [List.length_take]
      omega
    have hDnone : lookupE D (target.take (n+1)) = none := by
      rw [lookupE_eq_none_iff]
      intro hmem
      obtain ⟨kv, hkv, heq⟩ := List.mem_map.mp hmem
      obtain ⟨_, _, m, hm1, hm2, hkm, hklm⟩ := hDprop kv hkv
      rw [heq] at hklm
      rw [hklen] at hklm
      omega
    have hlook : lookupE (D ++ f) (target.take (n+1)) = lookupE f (target.take (n+1)) :=
      lookupE_append_of_none D f _ hDnone
    rcases hcond (n+1) (by omega) (le_refl _) with hdir | hnone
    · rw [hlook, hdir]
      dsimp only
      rw [if_pos (isDirF_eq_dir (noSymlinks_append hDns hns) (by rw [hlook, hdir]))]
      refine ⟨D, rfl, hDns, ?_, hDnd, ?_⟩
      · intro kv hkv
        obtain ⟨ha, hb, m, hm1, hm2, hkm, hklm⟩ := hDprop kv hkv
        exact ⟨ha, hb, m, hm1, by omega, hkm, hklm⟩
      · intro m hm1 hm2
        by_cases hmn : m ≤ n
        · exact hDall m hm1 hmn
        · have hmeq : m = n + 1 := by omega
          subst hmeq
          rw [hlook]
          exact hdir
    · rw [hlook, hnone]
      dsimp only
      have hfresh : target.take (n+1) ∉ keysOf (D ++ f) := by
        rw [← lookupE_eq_none_iff]
        rw [hlook, hnone]
      rw [insertE, eraseKey_of_not_mem _ _ hfresh]
      refine ⟨(target.take (n+1), Entry.dir) :: D, by rw [List.cons_append], ?_, ?_, ?_, ?_⟩
      · intro kv hm t
        rcases List.mem_cons.mp hm with he | hm2
        · rw [he]
          intro hcon
          cases hcon
        · exact hDns kv hm2 t
      · intro kv hkv
        rcases List.mem_cons.mp hkv with he | hm2
        · rw [he]
          exact ⟨rfl, hnone, n+1, by omega, le_refl _, rfl, hklen⟩
        · obtain ⟨ha, hb, m, hm1, hm2, hkm, hklm⟩ := hDprop kv hm2
          exact ⟨ha, hb, m, hm1, by omega, hkm, hklm⟩
      · rw [List.cons_append, keysOf, List.map_cons, List.nodup_cons]
        exact ⟨hfresh, hDnd⟩
      · intro m hm1 hm2
        rw [List.cons_append, lookupE_cons]
        by_cases hmn : m = n + 1
        · subst hmn
          rw [if_pos rfl]
        · have hm3 : m ≤ n := by omega
          have hne : (target.take (n+1), Entry.dir).1 ≠ target.take m := by
            intro he
            have he2 : target.take (n+1) = target.take m := he
            have : (target.take (n+1)).length = (target.take m).length := by rw [he2]
            rw [hklen, List.length_take] at this
            omega
          rw [if_neg hne]
          exact hDall m hm1 hm3

theorem mkdirChain_creates {f : Fs} (hns : NoSymlinks f)
    (hnd : (keysOf f).Nodup) (target : FPath)
    (hcond : ∀ m, 0 < m → m ≤ target.length →
      lookupE f (target.take m) = some Entry.dir ∨
        lookupE f (target.take m) = none) :
    ∃ D, mkdirChain f target = (D ++ f, true) ∧
      NoSymlinks D ∧
      (∀ kv ∈ D, kv.2 = Entry.dir ∧ lookupE f kv.1 = none ∧
        ∃ m, 0 < m ∧ m ≤ target.length ∧ kv.1 = target.take m ∧ kv.1.length = m) ∧
      (keysOf (D ++ f)).Nodup ∧
      (∀ m, 0 < m → m ≤ target.length →
        lookupE (D ++ f) (target.take m) = some Entry.dir) :=
  mkdirChainAux_creates hns hnd target target.length (le_refl _) hcond

theorem prefix_append_left {a b : FPath} (c : FPath) (h : a <+: b) :
    c ++ a <+: c ++ b := by
  obtain ⟨t, ht⟩ := h
  exact ⟨t, by rw [List.append_assoc, ht]⟩

theorem lookupE_none_of_forall (D : Fs) (k : FPath)
    (h : ∀ kv ∈ D, kv.1 ≠ k) : lookupE D k = none := by
  rw [lookupE_eq_none_iff]
  intro hk
  obtain ⟨kv, hkv, he⟩ := List.mem_map.mp hk
  exact h kv hkv he

/-- The mtime oracle pipeline A's survivor selection reads from the live
filesystem: the stat result of a path, `none` when it is not a regular file. -/
def mtimeOracle (f : Fs) : FPath → Option ℚ := fun q =>
  match statE f q with
  | some (Entry.file _ m) => some m
  | _ => none

/-- The per-member relocation planning step of `processGroup`, named for the
loop analysis. -/
def relocStep (mainDir dup : FPath) (dryRun : Bool) (newest : FPath)
    (s : Dedup.PlanSt) (q : FPath) : Dedup.PlanSt :=
  if s.crashed then s else
  if q == newest then s else
  match Dedup.relResolved s.fs mainDir q with
  | none => { s with crashed := true }
  | some rel =>
    let dstParent := (dup ++ rel).dropLast
    match (if dryRun then (s.fs, true) else mkdirChain s.fs dstParent) with
    | (f1, false) => { s with fs := f1, crashed := true }
    | (f1, true) =>
      let dst0 := dup ++ rel
      let dstF := if pathExists f1 dst0 then
          Dedup.unique_destination f1 dstParent (q.getLastD "") else dst0
      { s with fs := f1, actions := s.actions ++ [(q, dstF)] }

theorem processGroup_eq (mainDir dup : FPath) (dr : Bool) (st : Dedup.PlanSt)
    (g : String × List FPath) :
    Dedup.processGroup mainDir dup dr st g =
      if st.crashed then st else
      match g.2 with
      | [] => st
      | [p] => { st with kept := st.kept ++ [p] }
      | p :: ps =>
        match Dedup.select_survivor (mtimeOracle st.fs) (p :: ps) with
        | none => st
        | some newest =>
          (p :: ps).foldl (relocStep mainDir dup dr newest)
            { st with kept := st.kept ++ [newest] } := rfl

theorem relResolved_of_noSymlinks {f : Fs} (hns : NoSymlinks f)
    (mainDir q : FPath) (hpre : mainDir.isPrefixOf q = true) :
    Dedup.relResolved f mainDir q = some (q.drop mainDir.length) := by
  rw [Dedup.relResolved, resolveP_id_of_noSymlinks hns, if_pos hpre]

theorem planCtx_dup_len {B : Fs} {root dup : FPath} (h : PlanCtx B root dup) :
    dup.length = root.length + 1 := by
  rw [h.2.2.2.2.2.1]
  rw [List.length_append]
  rfl

theorem planCtx_root_prefix_dirs {B : Fs} {root dup : FPath}
    (h : PlanCtx B root dup) :
    ∀ m, 0 < m → m ≤ dup.length → lookupE B (dup.take m) = some Entry.dir := by
  intro m hm1 hm2
  have hlen := planCtx_dup_len h
  have hrmem : root ∈ keysOf B := by
    rw [← lookupE_isSome_iff_mem, h.2.2.2.1]
    rfl
  by_cases hme : m ≤ root.length
  · have htake : dup.take m = root.take m := by
      rw [h.2.2.2.2.2.1, List.take_append_of_le_length hme]
    rw [htake]
    by_cases hmr : m = root.length
    · rw [hmr, List.take_length]
      exact h.2.2.2.1
    · exact h.2.2.1 root hrmem m hm1 (by omega)
  · have hme2 : m = dup.length := by omega
    rw [hme2, List.take_length]
    exact h.2.2.2.2.1

/-- Shape of the scratch directory entries created during planning: fresh
directories strictly below the quarantine, each a proper prefix of some
planned destination. -/
def DirsOk (B : Fs) (root dup : FPath) (D : Fs) : Prop :=
  NoSymlinks D ∧
  ∀ kv ∈ D, kv.2 = Entry.dir ∧ dup.length < kv.1.length ∧
    ∃ q ∈ Dedup.collect_files B root dup,
      kv.1 <+: dup ++ q.drop root.length ∧
      kv.1.length < (dup ++ q.drop root.length).length

/-- Invariant threaded through pipeline A's group-processing loop in apply
mode, over the starting filesystem `B`. -/
def PlanInv (B : Fs) (root dup : FPath) (s : Dedup.PlanSt) : Prop :=
  s.crashed = false ∧
  (∃ D, s.fs = D ++ B ∧ DirsOk B root dup D) ∧
  (keysOf s.fs).Nodup ∧
  (∀ a ∈ s.actions, a.1 ∈ Dedup.collect_files B root dup ∧
      a.2 = dup ++ a.1.drop root.length) ∧
  (s.actions.map Prod.fst).Nodup ∧
  (∀ a ∈ s.actions, lookupE s.fs a.2 = none) ∧
  (∀ a ∈ s.actions, ∀ m, 0 < m → m ≤ a.2.dropLast.length →
      lookupE s.fs (a.2.take m) = some Entry.dir) ∧
  (∀ k ∈ s.kept, k ∈ Dedup.collect_files B root dup) ∧
  s.kept.Pairwise
    (fun a b => Dedup.sha256_of_file B a ≠ Dedup.sha256_of_file B b) ∧
  (∀ k ∈ s.kept, ∀ a ∈ s.actions, k ≠ a.1)

theorem take_dropLast_eq (l : FPath) (m : Nat) (hm : m ≤ l.dropLast.length) :
    l.dropLast.take m = l.take m := by
  rw [List.dropLast_eq_take, List.take_take]
  rw [List.length_dropLast] at hm
  have : min m (l.length - 1) = m := Nat.min_eq_left hm
  rw [this]

/-- Two distinct collected files never have nested quarantine destinations, a
consequence of the proper-prefix freeness of the collected set. -/
theorem dst_proper_prefix_absurd (B : Fs) (root dup : FPath)
    (hctx : PlanCtx B root dup) {x q2 : FPath}
    (hx : x ∈ Dedup.collect_files B root dup)
    (hq2 : q2 ∈ Dedup.collect_files B root dup)
    (hpre : dup ++ x.drop root.length <+: dup ++ q2.drop root.length)
    (hlen : (dup ++ x.drop root.length).length <
      (dup ++ q2.drop root.length).length) : False := by
  have hx2 : x.drop root.length <+: q2.drop root.length := prefix_append_cancel hpre
  obtain ⟨_, hrx, _, _⟩ := (collect_mem_iff B root dup hctx.1 hctx.2.2.1 x).mp hx
  obtain ⟨_, hrq2, _, _⟩ := (collect_mem_iff B root dup hctx.1 hctx.2.2.1 q2).mp hq2
  have hxq2 : x <+: q2 := by
    rw [eq_append_drop hrx, eq_append_drop hrq2]
    exact prefix_append_left root hx2
  have hxne : x ≠ q2 := by
    intro he2
    rw [he2] at hlen
    exact lt_irrefl _ hlen
  exact collect_not_nested B root dup hctx.1 hctx.2.2.1 x hx q2 hq2 hxne hxq2

theorem reloc_fold_inv (B : Fs) (root dup : FPath) (hctx : PlanCtx B root dup)
    (newest : FPath) :
    ∀ (mem : List FPath) (s : Dedup.PlanSt),
    PlanInv B root dup s →
    (∀ q ∈ mem, q ∈ Dedup.collect_files B root dup) →
    mem.Nodup →
    (∀ q ∈ mem, ∀ a ∈ s.actions, q ≠ a.1) →
    (∀ q ∈ mem, q ≠ newest → ∀ k ∈ s.kept, k ≠ q) →
    PlanInv B root dup (mem.foldl (relocStep root dup false newest) s) ∧
    (mem.foldl (relocStep root dup false newest) s).kept = s.kept ∧
    (mem.foldl (relocStep root dup false newest) s).actions =
      s.actions ++ (mem.filter (fun q => !(q == newest))).map
        (fun q => (q, dup ++ q.drop root.length)) := by
  intro mem
  induction mem with
  | nil =>
    intro s hinv _ _ _ _
    refine ⟨hinv, rfl, ?_⟩
    rw [List.foldl_nil, List.filter_nil, List.map_nil, List.append_nil]
  | cons q mem ih =>
    intro s hinv hmem hnd hfreshA hfreshK
    obtain ⟨hcr, ⟨D, hsD, hDns, hDprop⟩, hndk, hact, hactnd, hdstnone, hdirs,
      hkeptm, hkeptpw, hkeptact⟩ := hinv
    have hcrne : ¬(s.crashed = true) := by
      rw [hcr]
      exact Bool.false_ne_true
    rw [List.foldl_cons]
    by_cases hqbeq : (q == newest) = true
    · have hF : relocStep root dup false newest s q = s := by
        rw [relocStep, if_neg hcrne, if_pos hqbeq]
      rw [hF]
      have hinv2 : PlanInv B root dup s :=
        ⟨hcr, ⟨D, hsD, hDns, hDprop⟩, hndk, hact, hactnd, hdstnone, hdirs,
          hkeptm, hkeptpw, hkeptact⟩
      obtain ⟨c1, c2, c3⟩ := ih s hinv2
        (fun x hx => hmem x (List.mem_cons_of_mem _ hx))
        (List.nodup_cons.mp hnd).2
        (fun x hx => hfreshA x (List.mem_cons_of_mem _ hx))
        (fun x hx => hfreshK x (List.mem_cons_of_mem _ hx))
      refine ⟨c1, c2, ?_⟩
      rw [c3, List.filter_cons_of_neg (by rw [hqbeq]; intro hcon; cases hcon)]
    · have hqne : q ≠ newest := by
        intro he
        exact hqbeq (by rw [he]; exact beq_self_eq_true _)
      have hq : q ∈ Dedup.collect_files B root dup := hmem q (List.mem_cons_self _ _)
      have hnsB : NoSymlinks B := hctx.1
      have hwfB : WfDirs B := hctx.2.2.1
      obtain ⟨⟨c0, m0, hlq⟩, hrq, hlenq, hdq⟩ :=
        (collect_mem_iff B root dup hnsB hwfB q).mp hq
      have hnsS : NoSymlinks s.fs := by
        rw [hsD]
        exact noSymlinks_append hDns hnsB
      have hrr : Dedup.relResolved s.fs root q = some (q.drop root.length) :=
        relResolved_of_noSymlinks hnsS root q ((isPrefixOf_iff root q).mpr hrq)
      have hdroplen : (q.drop root.length).length = q.length - root.length :=
        List.length_drop _ _
      have hrelpos : 1 ≤ (q.drop root.length).length := by omega
      have hrelne : q.drop root.length ≠ [] := by
        intro h0
        rw [h0] at hrelpos
        simp at hrelpos
      have hpar_eq : (dup ++ q.drop root.length).dropLast =
          dup ++ (q.drop root.length).dropLast :=
        List.dropLast_append_of_ne_nil _ hrelne
      have hdstlen : (dup ++ q.drop root.length).length =
          dup.length + (q.drop root.length).length := List.length_append _ _
      have hparlen : ((dup ++ q.drop root.length).dropLast).length =
          dup.length + (q.drop root.length).length - 1 := by
        rw [List.length_dropLast, hdstlen]
      have hbelow : ∀ m, 0 < m → m ≤ dup.length →
          lookupE s.fs (dup.take m) = some Entry.dir := by
        intro m hm1 hm2
        have hDn : lookupE D (dup.take m) = none := by
          refine lookupE_none_of_forall D _ ?_
          intro kv hkv he
          have h1 := (hDprop kv hkv).2.1
          have h2 : (dup.take m).length = m := by
            rw [List.length_take]
            omega
          rw [he, h2] at h1
          omega
        rw [hsD, lookupE_append_of_none _ _ _ hDn]
        exact planCtx_root_prefix_dirs hctx m hm1 hm2
      have hunder : ∀ k : FPath, dup <+: k → k ≠ dup →
          lookupE s.fs k = some Entry.dir ∨ lookupE s.fs k = none := by
        intro k hpk hkne
        have hBk : lookupE B k = none := by
          rw [lookupE_eq_none_iff]
          intro hmem2
          exact hkne (hctx.2.2.2.2.2.2 k hmem2 hpk)
        rw [hsD]
        cases hDk : lookupE D k with
        | none =>
          rw [lookupE_append_of_none _ _ _ hDk, hBk]
          exact Or.inr rfl
        | some e =>
          have hmemD := lookupE_mem_of_eq D k e hDk
          have hed2 : e = Entry.dir := (hDprop (k, e) hmemD).1
          rw [lookupE_append_left _ _ _ _ hDk, hed2]
          exact Or.inl rfl
      have hcond : ∀ m, 0 < m → m ≤ ((dup ++ q.drop root.length).dropLast).length →
          lookupE s.fs (((dup ++ q.drop root.length).dropLast).take m)
            = some Entry.dir ∨
          lookupE s.fs (((dup ++ q.drop root.length).dropLast).take m) = none := by
        intro m hm1 hm2
        by_cases hmd : m ≤ dup.length
        · refine Or.inl ?_
          have he : ((dup ++ q.drop root.length).dropLast).take m = dup.take m := by
            rw [hpar_eq, List.take_append_of_le_length hmd]
          rw [he]
          exact hbelow m hm1 hmd
        · have hkpre : dup <+: ((dup ++ q.drop root.length).dropLast).take m := by
            refine List.prefix_of_prefix_length_le ?_ ( List.take_prefix m _) ?_
            · rw [hpar_eq]
              exact List.prefix_append dup _
            · rw [List.length_take]
              omega
          have hkne : ((dup ++ q.drop root.length).dropLast).take m ≠ dup := by
            intro he
            have hle := congrArg List.length he
            rw [List.length_take] at hle
            omega
          exact hunder _ hkpre hkne
      obtain ⟨D2, hmk, hD2ns, hD2prop, hD2nd, hD2all⟩ :=
        mkdirChain_creates hnsS hndk ((dup ++ q.drop root.length).dropLast) hcond
      have hdstD : ∀ x ∈ Dedup.collect_files B root dup,
          lookupE D (dup ++ x.drop root.length) = none := by
        intro x hx
        refine lookupE_none_of_forall D _ ?_
        intro kv hkv he
        obtain ⟨_, hlt, q2, hq2, hpre2, hlen2⟩ := hDprop kv hkv
        rw [he] at hpre2 hlen2
        exact dst_proper_prefix_absurd B root dup hctx hx hq2 hpre2 hlen2
      have hBdst : ∀ x ∈ Dedup.collect_files B root dup,
          lookupE B (dup ++ x.drop root.length) = none := by
        intro x hx
        rw [lookupE_eq_none_iff]
        intro hmem2
        have heq := hctx.2.2.2.2.2.2 _ hmem2 (List.prefix_append dup _)
        have hle := congrArg List.length heq
        rw [List.length_append] at hle
        obtain ⟨_, _, hlenx, _⟩ := (collect_mem_iff B root dup hnsB hwfB x).mp hx
        have hxdlen : (x.drop root.length).length = x.length - root.length :=
          List.length_drop _ _
        omega
      have hsfsdst : ∀ x ∈ Dedup.collect_files B root dup,
          lookupE s.fs (dup ++ x.drop root.length) = none := by
        intro x hx
        rw [hsD, lookupE_append_of_none _ _ _ (hdstD x hx), hBdst x hx]
      have hD2big : ∀ kv ∈ D2, dup.length < kv.1.length := by
        intro kv hkv
        obtain ⟨_, hnone2, mk, hmk1, hmk2, hkm, hklm⟩ := hD2prop kv hkv
        by_cases hles : mk ≤ dup.length
        · exfalso
          have he : ((dup ++ q.drop root.length).dropLast).take mk = dup.take mk := by
            rw [hpar_eq, List.take_append_of_le_length hles]
          rw [hkm, he] at hnone2
          rw [hbelow mk hmk1 hles] at hnone2
          cases hnone2
        · rw [hklm]
          omega
      have hD2dst : ∀ x ∈ Dedup.collect_files B root dup,
          lookupE D2 (dup ++ x.drop root.length) = none := by
        intro x hx
        refine lookupE_none_of_forall D2 _ ?_
        intro kv hkv he
        obtain ⟨_, hnone2, mk, hmk1, hmk2, hkm, hklm⟩ := hD2prop kv hkv
        have hkpre : kv.1 <+: dup ++ q.drop root.length := by
          rw [hkm]
          exact ( List.take_prefix mk _).trans ( List.dropLast_prefix _)
        have hklen2 : kv.1.length < (dup ++ q.drop root.length).length := by
          rw [hklm]
          omega
        rw [he] at hkpre hklen2
        exact dst_proper_prefix_absurd B root dup hctx hx hq hkpre hklen2
      have hdstfresh : lookupE (D2 ++ s.fs) (dup ++ q.drop root.length) = none := by
        rw [lookupE_append_of_none _ _ _ (hD2dst q hq), hsfsdst q hq]
      have hpene : ¬(pathExists (D2 ++ s.fs) (dup ++ q.drop root.length) = true) := by
        rw [pathExists_of_none (noSymlinks_append hD2ns hnsS) hdstfresh]
        exact Bool.false_ne_true
      have hstep : relocStep root dup false newest s q =
          { s with
            fs := D2 ++ s.fs,
            actions := s.actions ++ [(q, dup ++ q.drop root.length)] } := by
        rw [relocStep, if_neg hcrne, if_neg hqbeq, hrr]
        dsimp only
        rw [if_neg Bool.false_ne_true, hmk]
        dsimp only
        rw [if_neg hpene]
      rw [hstep]
      have hD2fresh : ∀ k : FPath, lookupE s.fs k = some Entry.dir →
          lookupE D2 k = none := by
        intro k hk
        refine lookupE_none_of_forall D2 _ ?_
        intro kv hkv he
        have hnone2 := (hD2prop kv hkv).2.1
        rw [he, hk] at hnone2
        cases hnone2
      have hinvS : PlanInv B root dup
          { s with
            fs := D2 ++ s.fs,
            actions := s.actions ++ [(q, dup ++ q.drop root.length)] } := by
        refine ⟨hcr, ⟨D2 ++ D, ?_, noSymlinks_append hD2ns hDns, ?_⟩, hD2nd,
          ?_, ?_, ?_, ?_, hkeptm, hkeptpw, ?_⟩
        · show D2 ++ s.fs = (D2 ++ D) ++ B
          rw [hsD, List.append_assoc]
        · intro kv hkv
          rcases List.mem_append.mp hkv with hkv2 | hkvD
          · obtain ⟨ha, hnone2, mk, hmk1, hmk2, hkm, hklm⟩ := hD2prop kv hkv2
            refine ⟨ha, hD2big kv hkv2, q, hq, ?_, ?_⟩
            · rw [hkm]
              exact ( List.take_prefix mk _).trans ( List.dropLast_prefix _)
            · rw [hklm]
              omega
          · exact hDprop kv hkvD
        · intro a ha
          rcases List.mem_append.mp ha with hold | hnew
          · exact hact a hold
          · rw [List.mem_singleton.mp hnew]
            exact ⟨hq, rfl⟩
        · show ((s.actions ++ [(q, dup ++ q.drop root.length)]).map Prod.fst).Nodup
          rw [List.map_append, List.nodup_append]
          refine ⟨hactnd, List.nodup_singleton _, ?_⟩
          intro x hx hx2
          obtain ⟨a, ha, hax⟩ := List.mem_map.mp hx
          have hxq : x = q := List.mem_singleton.mp hx2
          exact hfreshA q (List.mem_cons_self _ _) a ha (hax.trans hxq).symm
        · intro a ha
          rcases List.mem_append.mp ha with hold | hnew
          · have hD2a : lookupE D2 a.2 = none := by
              refine lookupE_none_of_forall D2 _ ?_
              intro kv hkv he
              obtain ⟨_, hnone2, mk, hmk1, hmk2, hkm, hklm⟩ := hD2prop kv hkv
              have hkpre : kv.1 <+: dup ++ q.drop root.length := by
                rw [hkm]
                exact ( List.take_prefix mk _).trans ( List.dropLast_prefix _)
              have hklen2 : kv.1.length < (dup ++ q.drop root.length).length := by
                rw [hklm]
                omega
              rw [he, (hact a hold).2] at hkpre hklen2
              exact dst_proper_prefix_absurd B root dup hctx
                (hact a hold).1 hq hkpre hklen2
            show lookupE (D2 ++ s.fs) a.2 = none
            rw [lookupE_append_of_none _ _ _ hD2a]
            exact hdstnone a hold
          · rw [List.mem_singleton.mp hnew]
            exact hdstfresh
        · intro a ha m hm1 hm2
          rcases List.mem_append.mp ha with hold | hnew
          · have hdira := hdirs a hold m hm1 hm2
            show lookupE (D2 ++ s.fs) (a.2.take m) = some Entry.dir
            rw [lookupE_append_of_none _ _ _ (hD2fresh _ hdira)]
            exact hdira
          · rw [List.mem_singleton.mp hnew] at hm2 ⊢
            show lookupE (D2 ++ s.fs) ((dup ++ q.drop root.length).take m)
              = some Entry.dir
            rw [← take_dropLast_eq _ m hm2]
            exact hD2all m hm1 hm2
        · intro k hk a ha
          rcases List.mem_append.mp ha with hold | hnew
          · exact hkeptact k hk a hold
          · rw [List.mem_singleton.mp hnew]
            intro he
            exact hfreshK q (List.mem_cons_self _ _) hqne k hk (show k = q from he)
      have hA2 : ∀ x ∈ mem,
          ∀ a ∈ (s.actions ++ [(q, dup ++ q.drop root.length)]), x ≠ a.1 := by
        intro x hx a ha
        rcases List.mem_append.mp ha with hold | hnew
        · exact hfreshA x (List.mem_cons_of_mem _ hx) a hold
        · rw [List.mem_singleton.mp hnew]
          intro he
          have he2 : x = q := he
          exact (List.nodup_cons.mp hnd).1 (he2 ▸ hx)
      have hK2 : ∀ x ∈ mem, x ≠ newest → ∀ k ∈ s.kept, k ≠ x :=
        fun x hx hxne k hk => hfreshK x (List.mem_cons_of_mem _ hx) hxne k hk
      obtain ⟨c1, c2, c3⟩ := ih
        { s with
          fs := D2 ++ s.fs,
          actions := s.actions ++ [(q, dup ++ q.drop root.length)] } hinvS
        (fun x hx => hmem x (List.mem_cons_of_mem _ hx))
        (List.nodup_cons.mp hnd).2
        hA2 hK2
      refine ⟨c1, c2, ?_⟩
      have hqbeqf : (q == newest) = false := by
        cases hb : (q == newest)
        · rfl
        · exact absurd hb hqbeq
      rw [c3, List.filter_cons_of_pos (by simp [hqbeqf]), List.map_cons]
      show (s.actions ++ [(q, dup ++ q.drop root.length)]) ++ _ = _
      rw [List.append_assoc]
      rfl

theorem processGroup_step (B : Fs) (root dup : FPath) (hctx : PlanCtx B root dup)
    (s : Dedup.PlanSt) (g : String × List FPath)
    (hinv : PlanInv B root dup s)
    (hgm : ∀ p ∈ g.2, p ∈ Dedup.collect_files B root dup)
    (hgnd : g.2.Nodup)
    (hgsha : ∀ p ∈ g.2, Dedup.sha256_of_file B p = some g.1)
    (hkf : ∀ k ∈ s.kept, Dedup.sha256_of_file B k ≠ some g.1)
    (haf : ∀ a ∈ s.actions, Dedup.sha256_of_file B a.1 ≠ some g.1) :
    PlanInv B root dup (Dedup.processGroup root dup false s g) ∧
    (∃ ks, (Dedup.processGroup root dup false s g).kept = s.kept ++ ks ∧
      ∀ k ∈ ks, k ∈ g.2) ∧
    (∃ nas, (Dedup.processGroup root dup false s g).actions = s.actions ++ nas ∧
      ∀ a ∈ nas, a.1 ∈ g.2) ∧
    (∀ p ∈ g.2, p ∈ (Dedup.processGroup root dup false s g).kept ∨
      p ∈ (Dedup.processGroup root dup false s g).actions.map Prod.fst) := by
  obtain ⟨hcr, hfs, hndk, hact, hactnd, hdstnone, hdirs, hkeptm, hkeptpw,
    hkeptact⟩ := hinv
  have hcrne : ¬(s.crashed = true) := by
    rw [hcr]
    exact Bool.false_ne_true
  have hinv2 : PlanInv B root dup s :=
    ⟨hcr, hfs, hndk, hact, hactnd, hdstnone, hdirs, hkeptm, hkeptpw, hkeptact⟩
  obtain ⟨c, mem⟩ := g
  rw [processGroup_eq, if_neg hcrne]
  cases mem with
  | nil =>
    exact ⟨hinv2, ⟨[], by rw [List.append_nil], fun k hk => absurd hk (List.not_mem_nil k)⟩,
      ⟨[], by rw [List.append_nil], fun a ha => absurd ha (List.not_mem_nil a)⟩,
      fun p hp => absurd hp (List.not_mem_nil p)⟩
  | cons p t =>
    cases t with
    | nil =>
      refine ⟨⟨hcr, hfs, hndk, hact, hactnd, hdstnone, hdirs, ?_, ?_, ?_⟩,
        ⟨[p], rfl, fun k hk => hk⟩, ⟨[], by rw [List.append_nil],
          fun a ha => absurd ha (List.not_mem_nil a)⟩, ?_⟩
      · intro k hk
        rcases List.mem_append.mp hk with hold | hnew
        · exact hkeptm k hold
        · rw [List.mem_singleton.mp hnew]
          exact hgm p (List.mem_singleton.mpr rfl)
      · rw [List.pairwise_append]
        refine ⟨hkeptpw, List.pairwise_singleton _ _, ?_⟩
        intro a ha b hb
        rw [List.mem_singleton.mp hb, hgsha p (List.mem_singleton.mpr rfl)]
        exact hkf a ha
      · intro k hk a ha
        rcases List.mem_append.mp hk with hold | hnew
        · exact hkeptact k hold a ha
        · rw [List.mem_singleton.mp hnew]
          intro he
          refine haf a ha ?_
          rw [← he]
          exact hgsha p (List.mem_singleton.mpr rfl)
      · intro x hx
        refine Or.inl (List.mem_append.mpr (Or.inr ?_))
        exact hx
    | cons x xs =>
      dsimp only
      obtain ⟨w, hw, hwmem⟩ := select_survivor_some_mem (mtimeOracle s.fs) p (x :: xs)
      rw [hw]
      dsimp only
      have hwfiles : w ∈ Dedup.collect_files B root dup := hgm w hwmem
      have hwsha : Dedup.sha256_of_file B w = some c := hgsha w hwmem
      have hinvS : PlanInv B root dup { s with kept := s.kept ++ [w] } := by
        refine ⟨hcr, hfs, hndk, hact, hactnd, hdstnone, hdirs, ?_, ?_, ?_⟩
        · intro k hk
          rcases List.mem_append.mp hk with hold | hnew
          · exact hkeptm k hold
          · rw [List.mem_singleton.mp hnew]
            exact hwfiles
        · rw [List.pairwise_append]
          refine ⟨hkeptpw, List.pairwise_singleton _ _, ?_⟩
          intro a ha b hb
          rw [List.mem_singleton.mp hb, hwsha]
          exact hkf a ha
        · intro k hk a ha
          rcases List.mem_append.mp hk with hold | hnew
          · exact hkeptact k hold a ha
          · rw [List.mem_singleton.mp hnew]
            intro he
            refine haf a ha ?_
            rw [← he]
            exact hwsha
      obtain ⟨cinv, ckept, cacts⟩ := reloc_fold_inv B root dup hctx w (p :: x :: xs)
        { s with kept := s.kept ++ [w] } hinvS hgm hgnd
        (by
          intro q hq a ha
          intro he
          refine haf a ha ?_
          rw [← he]
          exact hgsha q hq)
        (by
          intro q hq hqw k hk
          rcases List.mem_append.mp hk with hold | hnew
          · intro he
            refine hkf k hold ?_
            rw [he]
            exact hgsha q hq
          · rw [List.mem_singleton.mp hnew]
            intro he
            exact hqw he.symm)
      refine ⟨cinv, ⟨[w], by rw [ckept], fun k hk => (List.mem_singleton.mp hk) ▸ hwmem⟩,
        ⟨((p :: x :: xs).filter (fun q => !(q == w))).map
          (fun q => (q, dup ++ q.drop root.length)), by rw [cacts], ?_⟩, ?_⟩
      · intro a ha
        obtain ⟨q, hq, he⟩ := List.mem_map.mp ha
        rw [← he]
        exact List.mem_of_mem_filter hq
      · intro p2 hp2
        by_cases hpw : p2 = w
        · refine Or.inl ?_
          rw [ckept]
          exact List.mem_append.mpr (Or.inr (List.mem_singleton.mpr hpw))
        · refine Or.inr ?_
          rw [cacts]
          refine List.mem_map.mpr ⟨(p2, dup ++ p2.drop root.length), ?_, rfl⟩
          refine List.mem_append.mpr (Or.inr ?_)
          refine List.mem_map.mpr ⟨p2, ?_, rfl⟩
          refine List.mem_filter.mpr ⟨hp2, ?_⟩
          cases hb : (p2 == w)
          · rfl
          · exact absurd (beq_iff_eq.mp hb) hpw

theorem plan_fold (B : Fs) (root dup : FPath) (hctx : PlanCtx B root dup) :
    ∀ (gs : List (String × List FPath)) (s : Dedup.PlanSt),
    PlanInv B root dup s →
    (∀ g ∈ gs, (∀ p ∈ g.2, p ∈ Dedup.collect_files B root dup) ∧ g.2.Nodup ∧
      ∀ p ∈ g.2, Dedup.sha256_of_file B p = some g.1) →
    (gs.map Prod.fst).Nodup →
    (∀ g ∈ gs, ∀ k ∈ s.kept, Dedup.sha256_of_file B k ≠ some g.1) →
    (∀ g ∈ gs, ∀ a ∈ s.actions, Dedup.sha256_of_file B a.1 ≠ some g.1) →
    PlanInv B root dup (gs.foldl (Dedup.processGroup root dup false) s) ∧
    (∀ g ∈ gs, ∀ p ∈ g.2,
      p ∈ (gs.foldl (Dedup.processGroup root dup false) s).kept ∨
      p ∈ (gs.foldl (Dedup.processGroup root dup false) s).actions.map Prod.fst) ∧
    (∃ ks, (gs.foldl (Dedup.processGroup root dup false) s).kept = s.kept ++ ks) ∧
    (∃ nas, (gs.foldl (Dedup.processGroup root dup false) s).actions
      = s.actions ++ nas) := by
  intro gs
  induction gs with
  | nil =>
    intro s hinv _ _ _ _
    exact ⟨hinv, fun g hg => absurd hg (List.not_mem_nil g),
      ⟨[], by rw [List.foldl_nil, List.append_nil]⟩,
      ⟨[], by rw [List.foldl_nil, List.append_nil]⟩⟩
  | cons g gs ih =>
    intro s hinv hgood hkeysnd hkf haf
    obtain ⟨hgm, hgnd, hgsha⟩ := hgood g (List.mem_cons_self _ _)
    obtain ⟨sinv, ⟨ks, hks, hksmem⟩, ⟨nas, hnas, hnasmem⟩, hcov⟩ :=
      processGroup_step B root dup hctx s g hinv hgm hgnd hgsha
        (hkf g (List.mem_cons_self _ _)) (haf g (List.mem_cons_self _ _))
    rw [List.foldl_cons]
    have hkeysnd2 : (g.1 :: gs.map Prod.fst).Nodup := by
      rw [← List.map_cons]
      exact hkeysnd
    have hheadne : ∀ g2 ∈ gs, g.1 ≠ g2.1 := by
      intro g2 hg2 he
      exact (List.nodup_cons.mp hkeysnd2).1 (he ▸ List.mem_map_of_mem Prod.fst hg2)
    obtain ⟨c1, c2, ⟨ks2, hks2⟩, ⟨nas2, hnas2⟩⟩ :=
      ih (Dedup.processGroup root dup false s g) sinv
        (fun g2 hg2 => hgood g2 (List.mem_cons_of_mem _ hg2))
        (List.nodup_cons.mp hkeysnd2).2
        (by
          intro g2 hg2 k hk
          rw [hks] at hk
          rcases List.mem_append.mp hk with hold | hnew
          · exact hkf g2 (List.mem_cons_of_mem _ hg2) k hold
          · rw [hgsha k (hksmem k hnew)]
            intro he
            exact hheadne g2 hg2 (Option.some_inj.mp he)
        )
        (by
          intro g2 hg2 a ha
          rw [hnas] at ha
          rcases List.mem_append.mp ha with hold | hnew
          · exact haf g2 (List.mem_cons_of_mem _ hg2) a hold
          · rw [hgsha a.1 (hnasmem a hnew)]
            intro he
            exact hheadne g2 hg2 (Option.some_inj.mp he)
        )
    refine ⟨c1, ?_, ⟨ks ++ ks2, by rw [hks2, hks, List.append_assoc]⟩,
      ⟨nas ++ nas2, by rw [hnas2, hnas, List.append_assoc]⟩⟩
    intro g2 hg2 p hp
    rcases List.mem_cons.mp hg2 with he | htail
    · subst he
      rcases hcov p hp with hk | ha
      · refine Or.inl ?_
        rw [hks2]
        exact List.mem_append.mpr (Or.inl hk)
      · refine Or.inr ?_
        obtain ⟨a, ha2, hae⟩ := List.mem_map.mp ha
        refine List.mem_map.mpr ⟨a, ?_, hae⟩
        rw [hnas2]
        exact List.mem_append.mpr (Or.inl ha2)
    · exact c2 g2 htail p hp

theorem exec_fold (B : Fs) (root dup : FPath) (hctx : PlanCtx B root dup) :
    ∀ (as : List (FPath × FPath)) (f : Fs),
    NoSymlinks f → (keysOf f).Nodup →
    (∀ a ∈ as, a.1 ∈ Dedup.collect_files B root dup ∧
      a.2 = dup ++ a.1.drop root.length) →
    (as.map Prod.fst).Nodup →
    (∀ a ∈ as, ∃ c m, lookupE f a.1 = some (Entry.file c m)) →
    (∀ a ∈ as, lookupE f a.2 = none) →
    (∀ a ∈ as, ∀ m, 0 < m → m ≤ a.2.dropLast.length →
      lookupE f (a.2.take m) = some Entry.dir) →
    NoSymlinks (as.foldl (fun fcur a => tryMove fcur a.1 a.2) f) ∧
    (keysOf (as.foldl (fun fcur a => tryMove fcur a.1 a.2) f)).Nodup ∧
    (∀ q : FPath, (∀ a ∈ as, q ≠ a.1 ∧ q ≠ a.2) →
      lookupE (as.foldl (fun fcur a => tryMove fcur a.1 a.2) f) q = lookupE f q) ∧
    (∀ a ∈ as, lookupE (as.foldl (fun fcur a => tryMove fcur a.1 a.2) f) a.1 = none) ∧
    (∀ kv ∈ as.foldl (fun fcur a => tryMove fcur a.1 a.2) f,
      kv ∈ f ∨ ∃ a ∈ as, kv.1 = a.2) := by
  intro as
  induction as with
  | nil =>
    intro f hns hnd _ _ _ _ _
    exact ⟨hns, hnd, fun q _ => rfl, fun a ha => absurd ha (List.not_mem_nil a),
      fun kv hkv => Or.inl hkv⟩
  | cons a as ih =>
    intro f hns hnd hform hsrcnd halive hdnone hpdirs
    obtain ⟨ha1mem, ha2eq⟩ := hform a (List.mem_cons_self _ _)
    obtain ⟨c, m, hfile⟩ := halive a (List.mem_cons_self _ _)
    have hdn : lookupE f a.2 = none := hdnone a (List.mem_cons_self _ _)
    have hpd := hpdirs a (List.mem_cons_self _ _)
    obtain ⟨_, hra1, hla1, hda1⟩ :=
      (collect_mem_iff B root dup hctx.1 hctx.2.2.1 a.1).mp ha1mem
    have hdupa2 : dup <+: a.2 := by
      rw [ha2eq]
      exact List.prefix_append dup _
    have ha12 : a.1 ≠ a.2 := by
      intro he
      exact hda1 (he ▸ hdupa2)
    have hmkall : mkdirChain f a.2.dropLast = (f, true) := by
      refine mkdirChain_all_dirs hns _ ?_
      intro m2 hm1 hm2
      rw [take_dropLast_eq _ m2 hm2]
      exact hpd m2 hm1 hm2
    have hdirF : isDirF f a.2 = false := isDirF_of_none hns hdn
    have her : eraseKey (eraseKey f a.1) a.2 = eraseKey f a.1 := by
      refine eraseKey_of_not_mem _ _ ?_
      rw [← lookupE_eq_none_iff, lookupE_eraseKey, if_neg (fun hh => ha12 hh.symm), hdn]
    have hstep : tryMove f a.1 a.2 = (a.2, Entry.file c m) :: eraseKey f a.1 := by
      rw [tryMove, hmkall]
      dsimp only
      rw [shutilMove, if_neg (by rw [hdirF]; exact Bool.false_ne_true)]
      dsimp only
      rw [renameOnto, hfile]
      dsimp only
      rw [insertE, her]
    rw [List.foldl_cons, hstep]
    have hlook2 : ∀ x : FPath, lookupE ((a.2, Entry.file c m) :: eraseKey f a.1) x =
        if x = a.2 then some (Entry.file c m)
        else if x = a.1 then none else lookupE f x := by
      intro x
      by_cases h1 : x = a.2
      · rw [if_pos h1, lookupE_cons, if_pos h1.symm]
      · rw [if_neg h1, lookupE_cons, if_neg (fun hh => h1 hh.symm), lookupE_eraseKey]
    have hns2 : NoSymlinks ((a.2, Entry.file c m) :: eraseKey f a.1) := by
      intro kv hkv t
      rcases List.mem_cons.mp hkv with he | hm2
      · rw [he]
        intro hcon
        cases hcon
      · exact hns kv (List.mem_of_mem_filter hm2) t
    have hnd2 : (keysOf ((a.2, Entry.file c m) :: eraseKey f a.1)).Nodup := by
      rw [keysOf, List.map_cons, List.nodup_cons]
      refine ⟨?_, keysOf_eraseKey_nodup f a.1 hnd⟩
      show a.2 ∉ keysOf (eraseKey f a.1)
      rw [← lookupE_eq_none_iff, lookupE_eraseKey,
        if_neg (fun hh => ha12 hh.symm), hdn]
    have hsrc_tail : ∀ a2 ∈ as, a2.1 ≠ a.1 := by
      intro a2 ha2 he
      exact (List.nodup_cons.mp hsrcnd).1 (he ▸ List.mem_map_of_mem Prod.fst ha2)
    have hsrc_ndup : ∀ a2 ∈ as, ¬dup <+: a2.1 := by
      intro a2 ha2
      exact ((collect_mem_iff B root dup hctx.1 hctx.2.2.1 a2.1).mp
        (hform a2 (List.mem_cons_of_mem _ ha2)).1).2.2.2
    have hdst_ne : ∀ a2 ∈ as, a2.2 ≠ a.2 := by
      intro a2 ha2 he
      obtain ⟨ha2mem, ha2eq2⟩ := hform a2 (List.mem_cons_of_mem _ ha2)
      rw [ha2eq2, ha2eq] at he
      have hdrop : a2.1.drop root.length = a.1.drop root.length :=
        List.append_cancel_left he
      have hra2 : root <+: a2.1 :=
        ((collect_mem_iff B root dup hctx.1 hctx.2.2.1 a2.1).mp ha2mem).2.1
      exact hsrc_tail a2 ha2 (drop_inj_of_shared_root hra2 hra1 hdrop)
    obtain ⟨d1, d2, d3, d4, d5⟩ := ih ((a.2, Entry.file c m) :: eraseKey f a.1)
      hns2 hnd2 (fun a2 ha2 => hform a2 (List.mem_cons_of_mem _ ha2))
      (List.nodup_cons.mp hsrcnd).2
      (by
        intro a2 ha2
        obtain ⟨c2, m2, hf2⟩ := halive a2 (List.mem_cons_of_mem _ ha2)
        refine ⟨c2, m2, ?_⟩
        rw [hlook2, if_neg ?_, if_neg (hsrc_tail a2 ha2)]
        · exact hf2
        · intro he
          exact hsrc_ndup a2 ha2 (he ▸ hdupa2))
      (by
        intro a2 ha2
        rw [hlook2, if_neg (hdst_ne a2 ha2)]
        by_cases h1 : a2.2 = a.1
        · rw [if_pos h1]
        · rw [if_neg h1]
          exact hdnone a2 (List.mem_cons_of_mem _ ha2))
      (by
        intro a2 ha2 m2 hm1 hm2
        obtain ⟨ha2mem, ha2eq2⟩ := hform a2 (List.mem_cons_of_mem _ ha2)
        have hxpre : a2.2.take m2 <+: a2.2 := List.take_prefix m2 a2.2
        have hxlen : (a2.2.take m2).length = m2 := by
          rw [List.length_take]
          have := List.length_dropLast a2.2
          omega
        have hxne2 : a2.2.take m2 ≠ a.2 := by
          intro he
          have hprefa : a.2 <+: a2.2 := he ▸ hxpre
          have hlena : a.2.length < a2.2.length := by
            rw [← he, hxlen]
            have := List.length_dropLast a2.2
            omega
          rw [ha2eq, ha2eq2] at hprefa hlena
          exact dst_proper_prefix_absurd B root dup hctx ha1mem ha2mem hprefa hlena
        have hxne1 : a2.2.take m2 ≠ a.1 := by
          intro he
          have hdupa2t : dup <+: a2.2 := by
            rw [ha2eq2]
            exact List.prefix_append dup _
          by_cases hmd : m2 ≤ dup.length
          · have hlen2 : a.1.length = m2 := by
              rw [← he, hxlen]
            have hdl := planCtx_dup_len hctx
            have hmeq : m2 = dup.length := by omega
            have hadup : a2.2.take m2 = dup := by
              refine List.IsPrefix.eq_of_length_le
                (List.prefix_of_prefix_length_le hxpre hdupa2t ?_) ?_
              · rw [hxlen]
                omega
              · rw [hxlen]
                omega
            have ha1dup : a.1 = dup := by
              rw [← he, hadup]
            refine hda1 ?_
            rw [ha1dup]
          · have hdupx : dup <+: a2.2.take m2 := by
              refine List.prefix_of_prefix_length_le hdupa2t hxpre ?_
              rw [hxlen]
              omega
            rw [he] at hdupx
            exact hda1 hdupx
        rw [hlook2, if_neg hxne2, if_neg hxne1]
        exact hpdirs a2 (List.mem_cons_of_mem _ ha2) m2 hm1 hm2)
    refine ⟨d1, d2, ?_, ?_, ?_⟩
    · intro q hq
      rw [d3 q (fun a2 ha2 => hq a2 (List.mem_cons_of_mem _ ha2)), hlook2,
        if_neg (hq a (List.mem_cons_self _ _)).2,
        if_neg (hq a (List.mem_cons_self _ _)).1]
    · intro a2 ha2
      rcases List.mem_cons.mp ha2 with he | htail
      · have hcond3 : ∀ a3 ∈ as, a.1 ≠ a3.1 ∧ a.1 ≠ a3.2 := by
          intro a3 ha3
          constructor
          · intro he2
            exact hsrc_tail a3 ha3 he2.symm
          · intro he2
            obtain ⟨ha3mem, ha3eq⟩ := hform a3 (List.mem_cons_of_mem _ ha3)
            refine hda1 ?_
            rw [he2, ha3eq]
            exact List.prefix_append dup _
        rw [he, d3 a.1 hcond3, hlook2,
          if_neg (fun he2 => hda1 (by rw [he2]; exact hdupa2)), if_pos rfl]
      · exact d4 a2 htail
    · intro kv hkv
      rcases d5 kv hkv with hm2 | ⟨a2, ha2, he⟩
      · rcases List.mem_cons.mp hm2 with he | hm3
        · exact Or.inr ⟨a, List.mem_cons_self _ _, by rw [he]⟩
        · exact Or.inl (List.mem_of_mem_filter hm3)
      · exact Or.inr ⟨a2, List.mem_cons_of_mem _ ha2, he⟩

theorem dirsOk_under_dup {B : Fs} {root dup : FPath} {D : Fs}
    (hok : DirsOk B root dup D) : ∀ kv ∈ D, dup <+: kv.1 := by
  intro kv hkv
  obtain ⟨_, hlen, q2, hq2, hpre, hplen⟩ := hok.2 kv hkv
  exact List.prefix_of_prefix_length_le (List.prefix_append dup _) hpre (by omega)

theorem dirsOk_lookup_none {B : Fs} {root dup : FPath} {D : Fs}
    (hok : DirsOk B root dup D) (x : FPath) (hx : ¬dup <+: x) :
    lookupE D x = none := by
  refine lookupE_none_of_forall D _ ?_
  intro kv hkv he
  exact hx (he ▸ dirsOk_under_dup hok kv hkv)

theorem reclaim_nodup (guard : Fs → FPath → Bool) (L : List FPath)
    (st : Fs × List FPath) (h : (keysOf st.1).Nodup) :
    (keysOf (List.foldl (reclaimStep guard) st L).1).Nodup := by
  refine foldlPreserves _ (fun s : Fs × List FPath => (keysOf s.1).Nodup) ?_ L st h
  intro a b ha
  rw [reclaimStep]
  by_cases h1 : guard a.1 b = true
  · rw [if_pos h1]; exact ha
  · rw [if_neg h1]
    by_cases h2 : hasChild a.1 b = true
    · rw [if_pos h2]; exact ha
    · rw [if_neg h2]
      exact keysOf_eraseKey_nodup a.1 b ha

theorem processGroup_small (mainDir dup : FPath) (dr : Bool) :
    ∀ (gs : List (String × List FPath)),
    (∀ g ∈ gs, g.2 = [] ∨ ∃ p, g.2 = [p]) →
    ∀ st : Dedup.PlanSt,
    (gs.foldl (Dedup.processGroup mainDir dup dr) st).fs = st.fs ∧
    (gs.foldl (Dedup.processGroup mainDir dup dr) st).actions = st.actions ∧
    (gs.foldl (Dedup.processGroup mainDir dup dr) st).crashed = st.crashed := by
  intro gs
  induction gs with
  | nil => intro _ st; exact ⟨rfl, rfl, rfl⟩
  | cons g gs ih =>
    intro hsmall st
    rw [List.foldl_cons]
    have hstep : (Dedup.processGroup mainDir dup dr st g).fs = st.fs ∧
        (Dedup.processGroup mainDir dup dr st g).actions = st.actions ∧
        (Dedup.processGroup mainDir dup dr st g).crashed = st.crashed := by
      rw [processGroup_eq]
      by_cases hcr : st.crashed = true
      · rw [if_pos hcr]
        exact ⟨rfl, rfl, rfl⟩
      · rw [if_neg hcr]
        rcases hsmall g (List.mem_cons_self _ _) with he | ⟨p, he⟩
        · rw [he]
          exact ⟨rfl, rfl, rfl⟩
        · rw [he]
          exact ⟨rfl, rfl, rfl⟩
    obtain ⟨i1, i2, i3⟩ := ih (fun g2 hg2 => hsmall g2 (List.mem_cons_of_mem _ hg2))
      (Dedup.processGroup mainDir dup dr st g)
    rw [i1, i2, i3, hstep.1, hstep.2.1, hstep.2.2]
    exact ⟨rfl, rfl, rfl⟩

theorem dedup_main_apply_create (fs : Fs) (root : FPath)
    (hns : NoSymlinks fs)
    (hroot : lookupE fs root = some Entry.dir)
    (hdup : lookupE fs (root ++ ["Duplikáty"]) = none) :
    Dedup.main fs root false =
      (fun st : Dedup.PlanSt =>
        if st.crashed then Dedup.Result.crash st.fs
        else
          Dedup.Result.ok
            (Dedup.remove_empty_dirs
              (st.actions.foldl (fun f a => tryMove f a.1 a.2) st.fs)
              root [root ++ ["Duplikáty"]]).1
            st.actions st.kept
            (Dedup.remove_empty_dirs
              (st.actions.foldl (fun f a => tryMove f a.1 a.2) st.fs)
              root [root ++ ["Duplikáty"]]).2)
      ((Dedup.group_by_hash (insertE fs (root ++ ["Duplikáty"]) Entry.dir)
          (Dedup.collect_files (insertE fs (root ++ ["Duplikáty"]) Entry.dir)
            root (root ++ ["Duplikáty"]))).foldl
        (Dedup.processGroup root (root ++ ["Duplikáty"]) false)
        { fs := insertE fs (root ++ ["Duplikáty"]) Entry.dir, actions := [],
          kept := [], crashed := false }) := by
  rw [Dedup.main, resolveP_id_of_noSymlinks hns]
  have h2 : pathExists fs root = true := by
    rw [pathExists, statE_of_noSymlinks hns, hroot]
    rfl
  have h3 : isDirF fs root = true := isDirF_eq_dir hns hroot
  have hv : (pathExists fs root && isDirF fs root) = true := by
    rw [h2, h3]
    rfl
  rw [if_neg (by rw [hv]; simp)]
  simp only [Bool.false_eq_true, if_false]
  rw [hdup]

theorem dedup_main_apply_exists (fs : Fs) (root : FPath)
    (hns : NoSymlinks fs)
    (hroot : lookupE fs root = some Entry.dir)
    (hdup : lookupE fs (root ++ ["Duplikáty"]) = some Entry.dir) :
    Dedup.main fs root false =
      (fun st : Dedup.PlanSt =>
        if st.crashed then Dedup.Result.crash st.fs
        else
          Dedup.Result.ok
            (Dedup.remove_empty_dirs
              (st.actions.foldl (fun f a => tryMove f a.1 a.2) st.fs)
              root [root ++ ["Duplikáty"]]).1
            st.actions st.kept
            (Dedup.remove_empty_dirs
              (st.actions.foldl (fun f a => tryMove f a.1 a.2) st.fs)
              root [root ++ ["Duplikáty"]]).2)
      ((Dedup.group_by_hash fs
          (Dedup.collect_files fs root (root ++ ["Duplikáty"]))).foldl
        (Dedup.processGroup root (root ++ ["Duplikáty"]) false)
        { fs := fs, actions := [], kept := [], crashed := false }) := by
  rw [Dedup.main, resolveP_id_of_noSymlinks hns]
  have h2 : pathExists fs root = true := by
    rw [pathExists, statE_of_noSymlinks hns, hroot]
    rfl
  have h3 : isDirF fs root = true := isDirF_eq_dir hns hroot
  have hv : (pathExists fs root && isDirF fs root) = true := by
    rw [h2, h3]
    rfl
  rw [if_neg (by rw [hv]; simp)]
  simp only [Bool.false_eq_true, if_false]
  rw [hdup]
  dsimp only
  rw [if_pos (isDirF_eq_dir hns hdup)]

/-- Decidable well-formedness of an input tree for the idempotence analysis:
no symbolic links, no duplicate keys, the root is a directory, every proper
prefix of a key is a directory, and nothing lies at or below the quarantine
directory `root/Duplikáty`. -/
def treeOk (fs : Fs) (root : FPath) : Bool :=
  (fs.all fun kv => match kv.2 with | Entry.symlink _ => false | _ => true) &&
  decide ((keysOf fs).Nodup) &&
  (lookupE fs root == some Entry.dir) &&
  (fs.all fun kv => (List.range kv.1.length).all fun n =>
    decide (n = 0) || (lookupE fs (kv.1.take n) == some Entry.dir)) &&
  !(fs.any fun kv => (root ++ ["Duplikáty"]).isPrefixOf kv.1)

theorem treeOk_spec (fs : Fs) (root : FPath) (h : treeOk fs root = true) :
    NoSymlinks fs ∧ (keysOf fs).Nodup ∧ WfDirs fs ∧
    lookupE fs root = some Entry.dir ∧
    (∀ k ∈ keysOf fs, ¬(root ++ ["Duplikáty"]) <+: k) := by
  rw [treeOk] at h
  rw [Bool.and_eq_true, Bool.and_eq_true, Bool.and_eq_true, Bool.and_eq_true] at h
  obtain ⟨⟨⟨⟨h1, h2⟩, h3⟩, h4⟩, h5⟩ := h
  refine ⟨?_, of_decide_eq_true h2, ?_, eq_of_beq h3, ?_⟩
  · intro kv hkv t
    have hb := List.all_eq_true.mp h1 kv hkv
    intro he
    rw [he] at hb
    cases hb
  · intro k hk n hn1 hn2
    obtain ⟨kv, hkv, he⟩ := List.mem_map.mp hk
    have hb := List.all_eq_true.mp h4 kv hkv
    have h6 := List.all_eq_true.mp hb n (List.mem_range.mpr (by rw [he]; exact hn2))
    rw [Bool.or_eq_true] at h6
    rcases h6 with h7 | h7
    · exfalso
      have := of_decide_eq_true h7
      omega
    · rw [← he]
      exact eq_of_beq h7
  · intro k hk hpre
    rw [Bool.not_eq_true', List.any_eq_false] at h5
    obtain ⟨kv, hkv, he⟩ := List.mem_map.mp hk
    rw [← he] at hpre
    exact h5 kv hkv ((isPrefixOf_iff _ _).mpr hpre)

theorem treeOk_dup_none (fs : Fs) (root : FPath) (h : treeOk fs root = true) :
    lookupE fs (root ++ ["Duplikáty"]) = none := by
  obtain ⟨_, _, _, _, h5⟩ := treeOk_spec fs root h
  rw [lookupE_eq_none_iff]
  intro hk
  exact h5 _ hk (List.prefix_refl _)

theorem planCtx_of_treeOk (fs : Fs) (root : FPath) (h : treeOk fs root = true) :
    PlanCtx ((root ++ ["Duplikáty"], Entry.dir) :: fs) root
      (root ++ ["Duplikáty"]) := by
  obtain ⟨hns, hnd, hwf, hroot, h5⟩ := treeOk_spec fs root h
  have hdupn := treeOk_dup_none fs root h
  have hduplen : (root ++ ["Duplikáty"]).length = root.length + 1 := by
    rw [List.length_append]
    rfl
  have hrootne : (root ++ ["Duplikáty"]) ≠ root := by
    intro he
    have := congrArg List.length he
    omega
  have hrootk : root ∈ keysOf fs := by
    rw [← lookupE_isSome_iff_mem, hroot]
    rfl
  refine ⟨?_, ?_, ?_, ?_, ?_, rfl, ?_⟩
  · intro kv hkv t
    rcases List.mem_cons.mp hkv with he | hm
    · rw [he]
      intro hcon
      cases hcon
    · exact hns kv hm t
  · rw [keysOf, List.map_cons, List.nodup_cons]
    refine ⟨?_, hnd⟩
    show (root ++ ["Duplikáty"]) ∉ keysOf fs
    rw [← lookupE_eq_none_iff]
    exact hdupn
  · intro k hk n hn1 hn2
    rw [keysOf, List.map_cons] at hk
    have hlift : ∀ x : FPath, x ≠ (root ++ ["Duplikáty"]) →
        lookupE ((root ++ ["Duplikáty"], Entry.dir) :: fs) x = lookupE fs x := by
      intro x hx
      rw [lookupE_cons, if_neg (fun hh => hx hh.symm)]
    rcases List.mem_cons.mp hk with he | hm
    · subst he
      rw [hduplen] at hn2
      have hnle : n ≤ root.length := by omega
      have htake : (root ++ ["Duplikáty"]).take n = root.take n :=
        List.take_append_of_le_length hnle
      have htlen : (root.take n).length = n := by
        rw [List.length_take]
        omega
      have htne : root.take n ≠ (root ++ ["Duplikáty"]) := by
        intro he2
        have := congrArg List.length he2
        rw [htlen] at this
        omega
      rw [htake, hlift _ htne]
      by_cases hnr : n = root.length
      · rw [hnr, List.take_length]
        exact hroot
      · exact hwf root hrootk n hn1 (by omega)
    · have hne : k.take n ≠ (root ++ ["Duplikáty"]) := by
        intro he2
        refine h5 k hm ?_
        rw [← he2]
        exact List.take_prefix n k
      rw [hlift _ hne]
      exact hwf k hm n hn1 hn2
  · rw [lookupE_cons, if_neg hrootne]
    exact hroot
  · rw [lookupE_cons, if_pos rfl]
  · intro k hk hpk
    rw [keysOf, List.map_cons] at hk
    rcases List.mem_cons.mp hk with he | hm
    · exact he
    · exact absurd hpk (h5 k hm)

theorem dedup_apply_idem (fs : Fs) (root : FPath) (h : treeOk fs root = true) :
    ∃ fs1 acts kept rm, Dedup.main fs root false =
      Dedup.Result.ok fs1 acts kept rm ∧
    ∃ fs2 kept2 rm2, Dedup.main fs1 root false =
      Dedup.Result.ok fs2 [] kept2 rm2 := by
  obtain ⟨hns, hnd, hwf, hroot, h5⟩ := treeOk_spec fs root h
  have hdupn := treeOk_dup_none fs root h
  have hctx := planCtx_of_treeOk fs root h
  obtain ⟨hnsB, hndB, hwfB, hrootB, hdupB, hdupEq, hunderB⟩ :=
    planCtx_of_treeOk fs root h
  have hdupnk : (root ++ ["Duplikáty"]) ∉ keysOf fs := by
    rw [← lookupE_eq_none_iff]
    exact hdupn
  have hBeq : insertE fs (root ++ ["Duplikáty"]) Entry.dir
      = (root ++ ["Duplikáty"], Entry.dir) :: fs := by
    rw [insertE, eraseKey_of_not_mem fs _ hdupnk]
  have hmain1 := dedup_main_apply_create fs root hns hroot hdupn
  rw [hBeq] at hmain1
  dsimp only at hmain1
  set B : Fs := (root ++ ["Duplikáty"], Entry.dir) :: fs with hBdef
  have hduplenB : (root ++ ["Duplikáty"]).length = root.length + 1 := by
    rw [List.length_append]
    rfl
  have hFsha : ∀ p ∈ Dedup.collect_files B root (root ++ ["Duplikáty"]),
      (Dedup.sha256_of_file B p).isSome = true := by
    intro p hp
    obtain ⟨⟨c, m, hl⟩, _, _, _⟩ :=
      (collect_mem_iff B root _ hnsB hwfB p).mp hp
    rw [collect_sha B root (root ++ ["Duplikáty"]) hnsB hl]
    rfl
  have hFnd := collect_nodup B root (root ++ ["Duplikáty"]) hndB
  obtain ⟨hGknd, hGprops, hGcompl⟩ :=
    group_props B (Dedup.collect_files B root (root ++ ["Duplikáty"])) hFnd hFsha
  have hinv0 : PlanInv B root (root ++ ["Duplikáty"])
      { fs := B, actions := [], kept := [], crashed := false } :=
    ⟨rfl, ⟨[], (List.nil_append B).symm,
        fun kv hkv _ => absurd hkv (List.not_mem_nil kv),
        fun kv hkv => absurd hkv (List.not_mem_nil kv)⟩,
      hndB,
      fun a ha => absurd ha (List.not_mem_nil a),
      List.nodup_nil,
      fun a ha => absurd ha (List.not_mem_nil a),
      fun a ha => absurd ha (List.not_mem_nil a),
      fun k hk => absurd hk (List.not_mem_nil k),
      List.Pairwise.nil,
      fun k hk => absurd hk (List.not_mem_nil k)⟩
  obtain ⟨stInv, stCov, ⟨ks, hks⟩, ⟨nas, hnas⟩⟩ :=
    plan_fold B root (root ++ ["Duplikáty"]) hctx
      (Dedup.group_by_hash B (Dedup.collect_files B root (root ++ ["Duplikáty"])))
      { fs := B, actions := [], kept := [], crashed := false } hinv0
      (fun g hg => ⟨fun p hp => ((hGprops g hg).2.2 p hp).1, (hGprops g hg).2.1,
        fun p hp => ((hGprops g hg).2.2 p hp).2⟩)
      hGknd
      (fun g _ k hk => absurd hk (List.not_mem_nil k))
      (fun g _ a ha => absurd ha (List.not_mem_nil a))
  set ST := (Dedup.group_by_hash B
      (Dedup.collect_files B root (root ++ ["Duplikáty"]))).foldl
    (Dedup.processGroup root (root ++ ["Duplikáty"]) false)
    { fs := B, actions := [], kept := [], crashed := false } with hSTdef
  obtain ⟨hcr, ⟨DF, hsDF, hDFok⟩, hndF, hactF, hactndF, hdstnoneF, hdirsF,
    hkeptmF, hkeptpwF, hkeptactF⟩ := stInv
  have hnsST : NoSymlinks ST.fs := by
    rw [hsDF]
    exact noSymlinks_append hDFok.1 hnsB
  have halive : ∀ a ∈ ST.actions, ∃ c m, lookupE ST.fs a.1 = some (Entry.file c m) := by
    intro a ha
    obtain ⟨haF, _⟩ := hactF a ha
    obtain ⟨⟨c, m, hl⟩, _, _, hnd1⟩ :=
      (collect_mem_iff B root _ hnsB hwfB a.1).mp haF
    refine ⟨c, m, ?_⟩
    rw [hsDF, lookupE_append_of_none _ _ _ (dirsOk_lookup_none hDFok a.1 hnd1), hl]
  obtain ⟨d1, d2, d3, d4, d5⟩ := exec_fold B root (root ++ ["Duplikáty"]) hctx
    ST.actions ST.fs hnsST hndF hactF hactndF halive hdstnoneF hdirsF
  set FS2 := ST.actions.foldl (fun f a => tryMove f a.1 a.2) ST.fs with hFS2def
  have hcondroot : ∀ a ∈ ST.actions, root ≠ a.1 ∧ root ≠ a.2 := by
    intro a ha
    obtain ⟨haF, haEq⟩ := hactF a ha
    obtain ⟨_, _, hlen1, _⟩ := (collect_mem_iff B root _ hnsB hwfB a.1).mp haF
    constructor
    · intro he
      rw [← he] at hlen1
      omega
    · intro he
      rw [haEq] at he
      have hle := congrArg List.length he
      rw [List.length_append] at hle
      omega
  have hconddup : ∀ a ∈ ST.actions,
      (root ++ ["Duplikáty"]) ≠ a.1 ∧ (root ++ ["Duplikáty"]) ≠ a.2 := by
    intro a ha
    obtain ⟨haF, haEq⟩ := hactF a ha
    obtain ⟨_, hr1, hlen1, hnd1⟩ := (collect_mem_iff B root _ hnsB hwfB a.1).mp haF
    constructor
    · intro he
      exact hnd1 (by rw [← he])
    · intro he
      rw [haEq] at he
      have hle := congrArg List.length he
      rw [List.length_append, List.length_append, List.length_drop] at hle
      have : (["Duplikáty"] : List String).length = 1 := rfl
      omega
  have hrootST : lookupE ST.fs root = some Entry.dir := by
    have hnotpre : ¬(root ++ ["Duplikáty"]) <+: root := by
      intro hp
      have := hp.length_le
      omega
    rw [hsDF, lookupE_append_of_none _ _ _ (dirsOk_lookup_none hDFok root hnotpre)]
    exact hrootB
  have hdupST : lookupE ST.fs (root ++ ["Duplikáty"]) = some Entry.dir := by
    have hDFn : lookupE DF (root ++ ["Duplikáty"]) = none := by
      refine lookupE_none_of_forall DF _ ?_
      intro kv hkv he
      have := (hDFok.2 kv hkv).2.1
      rw [he] at this
      omega
    rw [hsDF, lookupE_append_of_none _ _ _ hDFn]
    exact hdupB
  have hroot2 : lookupE FS2 root = some Entry.dir := by
    rw [hFS2def, d3 root hcondroot]
    exact hrootST
  have hdup2 : lookupE FS2 (root ++ ["Duplikáty"]) = some Entry.dir := by
    rw [hFS2def, d3 (root ++ ["Duplikáty"]) hconddup]
    exact hdupST
  have hkeptfile : ∀ k ∈ ST.kept, ∃ c m,
      lookupE B k = some (Entry.file c m) ∧ lookupE FS2 k = some (Entry.file c m) := by
    intro k hk
    have hkF := hkeptmF k hk
    obtain ⟨⟨c, m, hl⟩, _, hklen, hknd⟩ :=
      (collect_mem_iff B root _ hnsB hwfB k).mp hkF
    refine ⟨c, m, hl, ?_⟩
    have hcondk : ∀ a ∈ ST.actions, k ≠ a.1 ∧ k ≠ a.2 := by
      intro a ha
      obtain ⟨haF, haEq⟩ := hactF a ha
      refine ⟨hkeptactF k hk a ha, ?_⟩
      intro he
      refine hknd ?_
      rw [he, haEq]
      exact List.prefix_append _ _
    rw [hFS2def, d3 k hcondk, hsDF,
      lookupE_append_of_none _ _ _ (dirsOk_lookup_none hDFok k hknd), hl]
  have hL : ∀ x ∈ byDepthDesc (dirKeysUnder FS2 root), x ∈ dirKeysUnder FS2 root :=
    byDepthDesc_sub _
  have hguard : ∀ f : Fs, (fun f2 p => ([root ++ ["Duplikáty"]].any
      (fun k => resolveP f2 p == resolveP f2 k))) f (root ++ ["Duplikáty"]) = true := by
    intro f
    refine List.any_eq_true.mpr ⟨root ++ ["Duplikáty"], List.mem_singleton.mpr rfl, ?_⟩
    exact beq_self_eq_true _
  have hPReq : Dedup.remove_empty_dirs FS2 root [root ++ ["Duplikáty"]] =
      List.foldl (reclaimStep (fun f p => ([root ++ ["Duplikáty"]].any
        (fun k => resolveP f p == resolveP f k)))) (FS2, [])
      (byDepthDesc (dirKeysUnder FS2 root)) :=
    dedup_remove_eq FS2 root [root ++ ["Duplikáty"]]
  set FS3 := (Dedup.remove_empty_dirs FS2 root [root ++ ["Duplikáty"]]).1 with hFS3def
  have hsub3 : SubFs FS3 FS2 := by
    rw [hFS3def, hPReq]
    exact reclaim_subFs _ _ (FS2, [])
  have hns3 : NoSymlinks FS3 := noSymlinks_sub d1 hsub3
  have hnd3 : (keysOf FS3).Nodup := by
    rw [hFS3def, hPReq]
    exact reclaim_nodup _ _ (FS2, []) d2
  have hroot3 : lookupE FS3 root = some Entry.dir := by
    rw [hFS3def, hPReq]
    have hnotin : root ∉ byDepthDesc (dirKeysUnder FS2 root) := by
      intro hmem
      have := dirKeysUnder_strict FS2 root root (hL root hmem)
      omega
    rw [(reclaim_outside_preserved _ _ (FS2, []) root hnotin (List.not_mem_nil root)).1]
    exact hroot2
  have hdup3 : lookupE FS3 (root ++ ["Duplikáty"]) = some Entry.dir := by
    rw [hFS3def, hPReq]
    rw [(reclaim_guarded_preserved _ _ (FS2, []) (root ++ ["Duplikáty"]) hguard
      (List.not_mem_nil _)).1]
    exact hdup2
  have hkept3 : ∀ k ∈ ST.kept, ∃ c m,
      lookupE B k = some (Entry.file c m) ∧ lookupE FS3 k = some (Entry.file c m) := by
    intro k hk
    obtain ⟨c, m, hlB, hl2⟩ := hkeptfile k hk
    refine ⟨c, m, hlB, ?_⟩
    have hnotin : k ∉ byDepthDesc (dirKeysUnder FS2 root) := by
      intro hmem
      have hkdir := hL k hmem
      rw [dirKeysUnder, List.mem_filter] at hkdir
      have hcond2 := hkdir.2
      rw [Bool.and_eq_true] at hcond2
      have := hcond2.2
      rw [hl2] at this
      cases this
    rw [hFS3def, hPReq,
      (reclaim_outside_preserved _ _ (FS2, []) k hnotin (List.not_mem_nil k)).1]
    exact hl2
  have hsrc3 : ∀ a ∈ ST.actions, lookupE FS3 a.1 = none := by
    intro a ha
    rw [hFS3def, hPReq]
    exact reclaim_none_stays _ _ (FS2, []) a.1 (d4 a ha)
  have hfilekept : ∀ (p : FPath) (c2 : String) (m2 : ℚ),
      lookupE FS3 p = some (Entry.file c2 m2) → root <+: p →
      root.length < p.length → ¬(root ++ ["Duplikáty"]) <+: p → p ∈ ST.kept := by
    intro p c2 m2 hlp hrp hlenp hndp
    have hmem3 := lookupE_mem_of_eq FS3 p _ hlp
    have hmem2 : (p, Entry.file c2 m2) ∈ FS2 := hsub3 _ hmem3
    rcases d5 _ hmem2 with hmemST | ⟨a, ha, hdst⟩
    · rw [hsDF] at hmemST
      rcases List.mem_append.mp hmemST with hmemDF | hmemB
      · have := (hDFok.2 _ hmemDF).1
        cases this
      · have hlB : lookupE B p = some (Entry.file c2 m2) :=
          mem_lookupE_of_nodup B p _ hndB hmemB
        have hpF : p ∈ Dedup.collect_files B root (root ++ ["Duplikáty"]) :=
          (collect_mem_iff B root (root ++ ["Duplikáty"]) hnsB hwfB p).mpr
            ⟨⟨c2, m2, hlB⟩, hrp, hlenp, hndp⟩
        obtain ⟨g, hg, hg1, hg2⟩ := hGcompl p hpF c2
          (collect_sha B root (root ++ ["Duplikáty"]) hnsB hlB)
        rcases stCov g hg p hg2 with hk | hsrc
        · exact hk
        · exfalso
          obtain ⟨a, ha, hae⟩ := List.mem_map.mp hsrc
          have hnone2 : lookupE FS2 p = none := by
            rw [← hae]
            exact d4 a ha
          have : lookupE FS2 p = some (Entry.file c2 m2) :=
            mem_lookupE_of_nodup FS2 p _ d2 hmem2
          rw [hnone2] at this
          cases this
    · exfalso
      refine hndp ?_
      have hdst2 : p = a.2 := hdst
      rw [hdst2, (hactF a ha).2]
      exact List.prefix_append _ _
  have hsha32 : ∀ k ∈ ST.kept,
      Dedup.sha256_of_file FS3 k = Dedup.sha256_of_file B k := by
    intro k hk
    obtain ⟨c, m, hlB, hl3⟩ := hkept3 k hk
    rw [Dedup.sha256_of_file, Dedup.sha256_of_file, statE_of_noSymlinks hns3,
      statE_of_noSymlinks hnsB, hlB, hl3]
  have hF2kept : ∀ p ∈ Dedup.collect_files FS3 root (root ++ ["Duplikáty"]),
      p ∈ ST.kept ∧ ∃ c m, lookupE FS3 p = some (Entry.file c m) := by
    intro p hp
    rw [Dedup.collect_files, List.mem_filter] at hp
    obtain ⟨hk, hcond2⟩ := hp
    rw [Bool.and_eq_true, Bool.and_eq_true, Bool.and_eq_true] at hcond2
    obtain ⟨⟨⟨hsu, hdp⟩, _⟩, hfile⟩ := hcond2
    rw [strictUnder_iff] at hsu
    obtain ⟨c2, m2, hl⟩ := (isFileF_iff_lookup hns3 p).mp hfile
    rw [Bool.not_eq_true'] at hdp
    refine ⟨hfilekept p c2 m2 hl hsu.1 hsu.2 ((isPrefixOf_false_iff _ _).mp hdp),
      c2, m2, hl⟩
  have hF2sha : ∀ p ∈ Dedup.collect_files FS3 root (root ++ ["Duplikáty"]),
      (Dedup.sha256_of_file FS3 p).isSome = true := by
    intro p hp
    obtain ⟨_, c2, m2, hl⟩ := hF2kept p hp
    rw [collect_sha FS3 root (root ++ ["Duplikáty"]) hns3 hl]
    rfl
  have hF2nd := collect_nodup FS3 root (root ++ ["Duplikáty"]) hnd3
  obtain ⟨_, hG2props, _⟩ :=
    group_props FS3 (Dedup.collect_files FS3 root (root ++ ["Duplikáty"]))
      hF2nd hF2sha
  have hsmall : ∀ g ∈ Dedup.group_by_hash FS3
      (Dedup.collect_files FS3 root (root ++ ["Duplikáty"])),
      g.2 = [] ∨ ∃ p, g.2 = [p] := by
    intro g hg
    obtain ⟨hne2, hnd2, hmem2⟩ := hG2props g hg
    cases hg2 : g.2 with
    | nil => exact Or.inl rfl
    | cons p t =>
      cases ht : t with
      | nil => exact Or.inr ⟨p, rfl⟩
      | cons x xs =>
        exfalso
        rw [ht] at hg2
        have hpmem : p ∈ g.2 := by
          rw [hg2]
          exact List.mem_cons_self _ _
        have hxmem : x ∈ g.2 := by
          rw [hg2]
          exact List.mem_cons_of_mem _ (List.mem_cons_self _ _)
        have hpx : p ≠ x := by
          intro he
          rw [hg2] at hnd2
          have := (List.nodup_cons.mp hnd2).1
          exact this (he ▸ List.mem_cons_self _ _)
        obtain ⟨hpF2, hpsha⟩ := hmem2 p hpmem
        obtain ⟨hxF2, hxsha⟩ := hmem2 x hxmem
        obtain ⟨hpkept, _⟩ := hF2kept p hpF2
        obtain ⟨hxkept, _⟩ := hF2kept x hxF2
        have hdist := List.Pairwise.forall
          (by
            intro a b hab
            exact fun he => hab he.symm)
          hkeptpwF hpkept hxkept hpx
        refine hdist ?_
        rw [← hsha32 p hpkept, ← hsha32 x hxkept, hpsha, hxsha]
  obtain ⟨e1, e2, e3⟩ := processGroup_small root (root ++ ["Duplikáty"]) false
    (Dedup.group_by_hash FS3 (Dedup.collect_files FS3 root (root ++ ["Duplikáty"])))
    hsmall { fs := FS3, actions := [], kept := [], crashed := false }
  have hmain2 := dedup_main_apply_exists FS3 root hns3 hroot3 hdup3
  dsimp only at hmain2
  rw [if_neg (by rw [e3]; exact Bool.false_ne_true), e2] at hmain2
  rw [if_neg (by rw [hcr]; exact Bool.false_ne_true)] at hmain1
  exact ⟨_, ST.actions, ST.kept, _, hmain1, _, _, _, hmain2⟩

/-- C8 (amended): on a symlink-free well-formed tree whose quarantine
directory does not yet exist, pipeline A in apply mode succeeds and is
idempotent — a second apply run on the resulting tree plans zero relocations,
every content group then having at most one member outside the excluded
quarantine subtree.  For trees containing symbolic links the original claim
fails, as the C8 counterexample shows: a link aimed at the future quarantine
location of a loser resolves to the quarantined copy after the first run, is
collected again (`is_file` follows links), grouped with the kept file, and a
further relocation is planned. -/
theorem C8_apply_idempotence (fs : Fs) (root : FPath)
    (h : treeOk fs root = true) :
    ∃ fs1 acts kept rm, Dedup.main fs root false =
      Dedup.Result.ok fs1 acts kept rm ∧
    ∃ fs2 kept2 rm2, Dedup.main fs1 root false =
      Dedup.Result.ok fs2 [] kept2 rm2 :=
  dedup_apply_idem fs root h

/-- Witness for the amended C8: a three-entry symlink-free tree with two
equal-content files; the first apply run succeeds and the second plans no
relocations. -/
theorem C8_witness :
    treeOk [(["r"], Entry.dir), (["r", "a"], Entry.file "A" 1),
      (["r", "b"], Entry.file "A" 2)] ["r"] = true ∧
    (∃ fs1 acts kept rm,
      Dedup.main [(["r"], Entry.dir), (["r", "a"], Entry.file "A" 1),
        (["r", "b"], Entry.file "A" 2)] ["r"] false =
        Dedup.Result.ok fs1 acts kept rm ∧
      ∃ fs2 kept2 rm2, Dedup.main fs1 ["r"] false =
        Dedup.Result.ok fs2 [] kept2 rm2) :=
  ⟨by decide,
   C8_apply_idempotence [(["r"], Entry.dir), (["r", "a"], Entry.file "A" 1),
     (["r", "b"], Entry.file "A" 2)] ["r"] (by decide)⟩
